import Mathlib

/-!
# Property registry chaincode (`property.go`)

A shallow embedding of the four transactions of `PropertyTransferSmartContract`
(`AddProperty`, `QueryAllProperties`, `QueryPropertyByID`, `TransferProperty`)
together with the parts of their environment they call into: the ledger stub,
the exchange-rate oracle, `strconv.ParseFloat`, IEEE-754 binary64 division,
`unicode/utf8` and `encoding/json` for the `Property` struct.

Conventions of the embedding.

* Go strings and byte slices are sequences of bytes, `GoString`; they need not be valid
  UTF-8. A byte constant is written `ch 'x'` and a string constant `utf8 "text"`.
* Go `int` is the 64-bit two's complement integer, modelled as `GoInt`.
* Go `float64` is modelled by its IEEE-754 bit fields, `F64`.
* `encoding/json` is the one of Go 1.22 and later (short escapes `\b` and `\f`, nesting of
  at most 10000 levels).
* A transaction returns an `Outcome` together with the ledger it leaves behind.
-/

namespace PropertyApp

/-! ## Machine integers -/

/-- Go `int` on a 64-bit platform. -/
structure GoInt where
  val : Int
  lo : -9223372036854775808 ≤ val
  hi : val ≤ 9223372036854775807
deriving DecidableEq

/-- Build a `GoInt` from an integer when it is in range. -/
def GoInt.ofInt? (i : Int) : Option GoInt :=
  if h : -9223372036854775808 ≤ i ∧ i ≤ 9223372036854775807 then some ⟨i, h.1, h.2⟩ else none

/-- The zero value of `int`. -/
def GoInt.zero : GoInt := ⟨0, by decide, by decide⟩

/-! ## Bytes, strings and `unicode/utf8` -/

/-- Go `byte`. -/
abbrev Byte := Fin 256

/-- Go `string` and `[]byte`: any sequence of bytes. -/
abbrev GoString := List Byte

/-- The conversion `byte(n)`, which keeps the low eight bits. -/
def Byte.ofNat (n : Nat) : Byte := Fin.ofNat n

/-- The byte of an ASCII character: `ch 'x'` is the Go constant `'x'`. -/
def ch (c : Char) : Byte := Byte.ofNat c.toNat

/-- The constant `utf8.RuneError`, the replacement character U+FFFD. -/
def runeError : Nat := 65533

/-- Counterpart of `utf8.AppendRune`: the UTF-8 encoding of a rune; a surrogate half and a
number above U+10FFFF are encoded as U+FFFD. -/
def encodeRune (r : Nat) : List Byte :=
  if r < 128 then [Byte.ofNat r]
  else if r < 2048 then [Byte.ofNat (192 + r / 64), Byte.ofNat (128 + r % 64)]
  else if 1114111 < r ∨ (55296 ≤ r ∧ r ≤ 57343) then [239, 191, 189]
  else if r < 65536 then
    [Byte.ofNat (224 + r / 4096), Byte.ofNat (128 + r / 64 % 64), Byte.ofNat (128 + r % 64)]
  else
    [Byte.ofNat (240 + r / 262144), Byte.ofNat (128 + r / 4096 % 64),
     Byte.ofNat (128 + r / 64 % 64), Byte.ofNat (128 + r % 64)]

/-- A Go string constant: the UTF-8 encoding of the text. -/
def utf8 (s : String) : GoString := s.data.flatMap (fun c => encodeRune c.toNat)

/-- Counterpart of the tables `first` and `acceptRanges` of `unicode/utf8`: for the first
byte of a sequence of several bytes, the length of the sequence and the lowest and highest
value accepted for its second byte; `none` for a byte that starts no such sequence. -/
def leadInfo (b : Nat) : Option (Nat × Nat × Nat) :=
  if 194 ≤ b ∧ b ≤ 223 then some (2, 128, 191)
  else if b = 224 then some (3, 160, 191)
  else if (225 ≤ b ∧ b ≤ 236) ∨ b = 238 ∨ b = 239 then some (3, 128, 191)
  else if b = 237 then some (3, 128, 159)
  else if b = 240 then some (4, 144, 191)
  else if 241 ≤ b ∧ b ≤ 243 then some (4, 128, 191)
  else if b = 244 then some (4, 128, 143)
  else none

/-- Counterpart of `utf8.DecodeRune`: the first rune of the bytes and the number of bytes it
takes. Bytes that do not start with a valid encoding give `(RuneError, 1)`, no bytes give
`(RuneError, 0)`. -/
def decodeRune : List Byte → Nat × Nat
  | [] => (runeError, 0)
  | p0 :: t =>
    if p0.val < 128 then (p0.val, 1)
    else
      match leadInfo p0.val with
      | none => (runeError, 1)
      | some (sz, lo, hi) =>
        match t with
        | [] => (runeError, 1)
        | b1 :: t1 =>
          if b1.val < lo ∨ hi < b1.val then (runeError, 1)
          else if sz ≤ 2 then (p0.val % 32 * 64 + b1.val % 64, 2)
          else
            match t1 with
            | [] => (runeError, 1)
            | b2 :: t2 =>
              if b2.val < 128 ∨ 191 < b2.val then (runeError, 1)
              else if sz ≤ 3 then (p0.val % 16 * 4096 + b1.val % 64 * 64 + b2.val % 64, 3)
              else
                match t2 with
                | [] => (runeError, 1)
                | b3 :: _ =>
                  if b3.val < 128 ∨ 191 < b3.val then (runeError, 1)
                  else
                    (p0.val % 8 * 262144 + b1.val % 64 * 4096 + b2.val % 64 * 64 + b3.val % 64,
                      4)

/-- The loop of `utf8.Valid`: every rune is decoded from a valid encoding. `skip` counts the
bytes of the rune just decoded that are still to be passed over. -/
def utf8ValidFrom : List Byte → Nat → Bool
  | [], _ => true
  | _ :: s, skip + 1 => utf8ValidFrom s skip
  | b :: s, 0 =>
    let d := decodeRune (b :: s)
    !(d.1 = runeError ∧ d.2 = 1) && utf8ValidFrom s (d.2 - 1)

/-- Counterpart of `utf8.Valid`: the bytes are the UTF-8 encoding of a sequence of runes. -/
def utf8Valid (s : GoString) : Bool := utf8ValidFrom s 0

/-- Decodes the bytes rune by rune and encodes the runes again. `skip` counts the bytes of the
rune just decoded that are still to be passed over. -/
def coerceFrom : List Byte → Nat → List Byte
  | [], _ => []
  | _ :: s, skip + 1 => coerceFrom s skip
  | b :: s, 0 =>
    let d := decodeRune (b :: s)
    encodeRune d.1 ++ coerceFrom s (d.2 - 1)

/-- The string with every byte that is not part of a valid UTF-8 encoding replaced by the
encoding of U+FFFD: the conversion `string([]rune(s))`. -/
def coerceUTF8 (s : GoString) : GoString := coerceFrom s 0

/-! ## IEEE-754 binary64 -/

/-- Go `float64`, by its bit fields: sign, biased exponent (11 bits), fraction (52 bits). -/
structure F64 where
  sign : Bool
  expo : Fin 2048
  frac : Fin 4503599627370496
deriving DecidableEq

namespace F64

/-- Field-wise constructor taking the fields as naturals (reduced into range). -/
def ofFields (s : Bool) (e m : Nat) : F64 := ⟨s, Fin.ofNat e, Fin.ofNat m⟩

/-- Signed zero. -/
def zero (s : Bool) : F64 := ofFields s 0 0

/-- Signed infinity. -/
def inf (s : Bool) : F64 := ofFields s 2047 0

/-- A quiet NaN, with the bits of `math.NaN()`. Which NaN an invalid operation produces
depends on the platform; no operation below tells one NaN from another. -/
def nan : F64 := ofFields false 2047 2251799813685249

/-- A NaN has all exponent bits set and a non-zero fraction (`math.IsNaN`). -/
def isNaN (f : F64) : Bool := f.expo.val == 2047 && f.frac.val != 0

/-- An infinity has all exponent bits set and a zero fraction (`math.IsInf(f, 0)`). -/
def isInf (f : F64) : Bool := f.expo.val == 2047 && f.frac.val == 0

/-- Finite values are those that are neither NaN nor infinite. -/
def isFinite (f : F64) : Bool := f.expo.val != 2047

/-- Integer significand of a finite value: the value is `mant * 2 ^ (bexp - 1075)`. -/
def mant (f : F64) : Nat := if f.expo.val = 0 then f.frac.val else 4503599627370496 + f.frac.val

/-- Biased binary exponent of a finite value, subnormals included:
the value is `mant * 2 ^ (bexp - 1075)`. -/
def bexp (f : F64) : Nat := if f.expo.val = 0 then 1 else f.expo.val

/-- Numerator of the magnitude of a finite value, which is `num / den`. -/
def num (f : F64) : Nat := if 1075 ≤ f.bexp then f.mant * 2 ^ (f.bexp - 1075) else f.mant

/-- Denominator of the magnitude of a finite value, which is `num / den`. -/
def den (f : F64) : Nat := if 1075 ≤ f.bexp then 1 else 2 ^ (1075 - f.bexp)

/-- Positive or negative zero. -/
def isZero (f : F64) : Bool := f.expo.val == 0 && f.frac.val == 0

/-- Number of binary digits of a natural, by halving with the number itself as fuel. -/
def bitLenAux : Nat → Nat → Nat
  | 0, _ => 0
  | fuel + 1, n => if n = 0 then 0 else bitLenAux fuel (n / 2) + 1

/-- Number of binary digits of `n` (`0` for `0`). -/
def bitLen (n : Nat) : Nat := bitLenAux n n

/-- Correctly rounded (nearest, ties to even) binary64 value of the rational `n / d` with the
given sign; overflow gives the infinity, underflow a subnormal or zero. The rational is
measured in units of `2 ^ -1074`, the smallest subnormal; `sh` is the number of low bits
to round away so that 53 significant bits remain. -/
def round (s : Bool) (n d : Nat) : F64 :=
  if n = 0 ∨ d = 0 then zero s else
  let sh := bitLen (n * 2 ^ 1074 / d) - 53
  let q := n * 2 ^ 1074 / (d * 2 ^ sh)
  let r := n * 2 ^ 1074 % (d * 2 ^ sh)
  let q1 := if d * 2 ^ sh < 2 * r ∨ (2 * r = d * 2 ^ sh ∧ q % 2 = 1) then q + 1 else q
  let m := if q1 = 9007199254740992 then 4503599627370496 else q1
  let sh1 := if q1 = 9007199254740992 then sh + 1 else sh
  if 2045 < sh1 then inf s
  else if m < 4503599627370496 then ofFields s 0 m
  else ofFields s (sh1 + 1) (m - 4503599627370496)

/-- Conversion `float64(i)` of a Go `int`. -/
def ofInt (i : GoInt) : F64 := round (decide (i.val < 0)) i.val.natAbs 1

/-- IEEE-754 division `a / b`. -/
def div (a b : F64) : F64 :=
  let s := xor a.sign b.sign
  if a.isNaN || b.isNaN then nan
  else if a.isInf then (if b.isInf then nan else inf s)
  else if b.isInf then zero s
  else if b.mant = 0 then (if a.mant = 0 then nan else inf s)
  else round s (a.num * b.den) (a.den * b.num)

end F64

/-! ## `strconv.ParseFloat` -/

/-- The two kinds of `strconv.NumError`. -/
inductive NumErr where
  | errSyn
  | errRange
deriving DecidableEq

/-- Value of a decimal digit. -/
def decDigit? (c : Byte) : Option Nat :=
  if 48 ≤ c.val ∧ c.val ≤ 57 then some (c.val - 48) else none

/-- Value of a hexadecimal letter `a`..`f` or `A`..`F`. -/
def hexLetter? (c : Byte) : Option Nat :=
  if 97 ≤ c.val ∧ c.val ≤ 102 then some (c.val - 87)
  else if 65 ≤ c.val ∧ c.val ≤ 70 then some (c.val - 55)
  else none

/-- ASCII lower-casing of the letters `A`..`Z`. -/
def asciiLower (c : Byte) : Byte :=
  if 65 ≤ c.val ∧ c.val ≤ 90 then Byte.ofNat (c.val + 32) else c

/-- Counterpart of `commonPrefixLenIgnoreCase(s, p)`, for a lower-case `p`. -/
def commonLenIgnoreCase : List Byte → List Byte → Nat
  | c :: s, p :: ps => if asciiLower c = p then commonLenIgnoreCase s ps + 1 else 0
  | _, _ => 0

/-- Counterpart of `special`: recognises `inf`, `infinity` and `nan`; returns the value
and the number of bytes consumed. -/
def special (s : List Byte) : Option (F64 × Nat) :=
  let infOf (neg : Bool) (nsign : Nat) (t : List Byte) : Option (F64 × Nat) :=
    let n0 := commonLenIgnoreCase t (utf8 "infinity")
    let n := if 3 < n0 ∧ n0 < 8 then 3 else n0
    if n = 3 ∨ n = 8 then some (F64.inf neg, nsign + n) else none
  match s with
  | [] => none
  | c :: t =>
    if c = ch '+' then infOf false 1 t
    else if c = ch '-' then infOf true 1 t
    else if c = ch 'i' ∨ c = ch 'I' then infOf false 0 s
    else if c = ch 'n' ∨ c = ch 'N' then
      (if commonLenIgnoreCase s (utf8 "nan") = 3 then some (F64.nan, 3) else none)
    else none

/-- Loop state of `readFloat` while it reads the mantissa. The mantissa is kept exactly
(all significant digits), where the Go code keeps 19 digits and a truncation flag for a
later correctly rounded conversion. -/
structure MantState where
  sawdot : Bool := false
  sawdigits : Bool := false
  nd : Nat := 0
  dp : Int := 0
  mantissa : Nat := 0
  underscores : Bool := false

/-- The mantissa loop of `readFloat`: returns the final state and the unread input. -/
def readMant (hex : Bool) : List Byte → MantState → MantState × List Byte
  | [], st => (st, [])
  | c :: s, st =>
    if c = ch '_' then readMant hex s { st with underscores := true }
    else if c = ch '.' then
      (if st.sawdot then (st, c :: s)
       else readMant hex s { st with sawdot := true, dp := st.nd })
    else match decDigit? c with
      | some v =>
        if v = 0 ∧ st.nd = 0 then readMant hex s { st with sawdigits := true, dp := st.dp - 1 }
        else readMant hex s
          { st with sawdigits := true, nd := st.nd + 1,
                    mantissa := st.mantissa * (if hex then 16 else 10) + v }
      | none =>
        match (if hex then hexLetter? c else none) with
        | some v => readMant hex s
            { st with sawdigits := true, nd := st.nd + 1, mantissa := st.mantissa * 16 + v }
        | none => (st, c :: s)

/-- The exponent digit loop of `readFloat`; the accumulated exponent stops growing
once it has reached 10000. Returns the exponent, whether an underscore was seen, and the
unread input. -/
def readExpDigits : List Byte → Nat → Bool → Nat × Bool × List Byte
  | [], e, u => (e, u, [])
  | c :: s, e, u =>
    if c = ch '_' then readExpDigits s e true
    else match decDigit? c with
      | some v => readExpDigits s (if e < 10000 then e * 10 + v else e) u
      | none => (e, u, c :: s)

/-- Counterpart of `underscoreOK`, on the text after the optional sign, with the state
`saw` of the last byte seen: `0` start, `1` digit, `2` underscore, `3` other. -/
def underscoreScan (hex : Bool) : List Byte → Nat → Bool
  | [], saw => saw != 2
  | c :: s, saw =>
    if (decDigit? c).isSome || (hex && (hexLetter? c).isSome) then underscoreScan hex s 1
    else if c = ch '_' then (if saw != 1 then false else underscoreScan hex s 2)
    else if saw = 2 then false
    else underscoreScan hex s 3

/-- Counterpart of `underscoreOK`. -/
def underscoreOK (s : List Byte) : Bool :=
  let t := match s with
    | c :: r => if c = ch '-' ∨ c = ch '+' then r else s
    | [] => s
  match t with
  | c0 :: c1 :: r =>
    if c0 = ch '0' ∧ (asciiLower c1 = ch 'b' ∨ asciiLower c1 = ch 'o' ∨ asciiLower c1 = ch 'x') then
      underscoreScan (asciiLower c1 = ch 'x') r 1
    else underscoreScan false t 0
  | _ => underscoreScan false t 0

/-- The test of `readFloat` for a hexadecimal mantissa: the text starts with `0x` or `0X`
and more text follows. -/
def hasHexMark (s : List Byte) : Bool :=
  match s with
  | a :: b :: _ :: _ => a = ch '0' && asciiLower b = ch 'x'
  | _ => false

/-- The optional exponent of `readFloat`, read after the mantissa: the position of the
point `dp` moved by the exponent, whether an underscore was seen, and the unread input.
A hexadecimal mantissa must have an exponent. -/
def readExponent (hex : Bool) (dp : Int) (s : List Byte) : Option (Int × Bool × List Byte) :=
  match s with
  | [] => if hex then none else some (dp, false, [])
  | c :: s4 =>
    if asciiLower c = (if hex then ch 'p' else ch 'e') then
      match s4 with
      | [] => none
      | c5 :: s5 =>
        let esign : Int := if c5 = ch '-' then -1 else 1
        let s6 := if c5 = ch '+' ∨ c5 = ch '-' then s5 else s4
        match s6 with
        | [] => none
        | c7 :: _ =>
          if (decDigit? c7).isNone then none
          else
            let r := readExpDigits s6 0 false
            some (dp + (r.1 : Int) * esign, r.2.1, r.2.2)
    else if hex then none else some (dp, false, c :: s4)

/-- Result of `readFloat` when the whole text is a well-formed number: the sign, whether
the number is hexadecimal, the exact mantissa and the exponent of the base
(10, or 2 for hexadecimal). -/
def readFloat (s : List Byte) : Option (Bool × Bool × Nat × Int) :=
  match s with
  | [] => none
  | c0 :: r0 =>
    let neg : Bool := c0 = ch '-'
    let s1 := if c0 = ch '+' ∨ c0 = ch '-' then r0 else s
    let hex := hasHexMark s1
    let s2 := if hex then s1.drop 2 else s1
    let m := readMant hex s2 {}
    let st := m.1
    if !st.sawdigits then none else
    let dp0 : Int := if st.sawdot then st.dp else st.nd
    let dp1 : Int := if hex then dp0 * 4 else dp0
    let nd1 : Int := if hex then (st.nd : Int) * 4 else st.nd
    match readExponent hex dp1 m.2 with
    | none => none
    | some (dp2, u, s9) =>
      if (st.underscores || u) && !underscoreOK s then none
      else if !s9.isEmpty then none
      else some (neg, hex, st.mantissa, if st.mantissa = 0 then 0 else dp2 - nd1)

/-- Counterpart of `strconv.ParseFloat(s, 64)`: the value and the error. A syntax error comes
with the value `0`, a range error with the infinity of the sign read. -/
def ParseFloat (s : GoString) : F64 × Option NumErr :=
  match special s with
  | some (f, n) => if n = s.length then (f, none) else (F64.zero false, some NumErr.errSyn)
  | none =>
    match readFloat s with
    | none => (F64.zero false, some NumErr.errSyn)
    | some (neg, hex, m, e) =>
      let b : Nat := if hex then 2 else 10
      let f :=
        if 0 ≤ e then F64.round neg (m * b ^ e.toNat) 1 else F64.round neg m (b ^ (-e).toNat)
      (f, if f.isInf then some NumErr.errRange else none)

/-! ## Decimal text of numbers -/

/-- Decimal digits of a natural, most significant first, with the number as fuel. -/
def natDigitsAux : Nat → Nat → List Byte
  | 0, _ => []
  | fuel + 1, n =>
    if n < 10 then [Byte.ofNat (48 + n)]
    else natDigitsAux fuel (n / 10) ++ [Byte.ofNat (48 + n % 10)]

/-- Decimal digits of a natural, most significant first (`"0"` for `0`). -/
def natDigits (n : Nat) : List Byte := natDigitsAux (n + 1) n

/-- Decimal text of an integer, as `strconv.AppendInt(b, i, 10)` writes it. -/
def intDigits (i : Int) : List Byte :=
  if i < 0 then ch '-' :: natDigits i.natAbs else natDigits i.natAbs

/-- Removes the zeros at the end of a digit list. -/
def dropTrailingZeros (ds : List Byte) : List Byte :=
  (ds.reverse.dropWhile (fun c => c = ch '0')).reverse

/-- One step of the number automaton of the JSON scanner: `st` is its state (`0` start, `1`
after `-`, `2` after a leading `0`, `3` in the integer digits, `4` after `.`, `5` in the
fraction digits, `6` after `e`, `7` after the exponent sign, `8` in the exponent digits);
`none` when the byte cannot follow. -/
def jsonNumberStep (st : Nat) (c : Byte) : Option Nat :=
  let d := (decDigit? c).isSome
  if st = 0 then
    (if c = ch '-' then some 1 else if c = ch '0' then some 2 else if d then some 3 else none)
  else if st = 1 then (if c = ch '0' then some 2 else if d then some 3 else none)
  else if st = 2 then
    (if c = ch '.' then some 4 else if c = ch 'e' ∨ c = ch 'E' then some 6 else none)
  else if st = 3 then
    (if d then some 3 else if c = ch '.' then some 4 else if c = ch 'e' ∨ c = ch 'E' then some 6
     else none)
  else if st = 4 then (if d then some 5 else none)
  else if st = 5 then (if d then some 5 else if c = ch 'e' ∨ c = ch 'E' then some 6 else none)
  else if st = 6 then (if c = ch '+' ∨ c = ch '-' then some 7 else if d then some 8 else none)
  else if st = 7 then (if d then some 8 else none)
  else (if d then some 8 else none)

/-- Runs the number automaton over the text; the text is a number when the run ends in an
accepting state. -/
def jsonNumberScan : List Byte → Nat → Bool
  | [], st => st = 2 || st = 3 || st = 5 || st = 8
  | c :: s, st =>
    match jsonNumberStep st c with
    | some k => jsonNumberScan s k
    | none => false

/-- Whether the text is a JSON number literal. -/
def isJsonNumber (s : List Byte) : Bool := jsonNumberScan s 0

/-- A list of decimal digits. -/
def AllDigits (ds : List Byte) : Prop := ∀ c ∈ ds, (decDigit? c).isSome = true

/-- Text of `%e` formatting of the decimal `0.d₁d₂… × 10 ^ dp` after the clean-up that the
JSON encoder applies to the exponent (`e-09` becomes `e-9`). -/
def fmtE (ds : List Byte) (dp : Int) : List Byte :=
  let ex := dp - 1
  let m := match ds with
    | [] => [ch '0']
    | [d] => [d]
    | d :: r => d :: ch '.' :: r
  m ++ ch 'e' :: (if ex < 0 then ch '-' else ch '+') :: natDigits ex.natAbs

/-- Text of `%f` formatting of the decimal `0.d₁d₂… × 10 ^ dp` with the fewest digits. -/
def fmtF (ds : List Byte) (dp : Int) : List Byte :=
  let nd : Int := ds.length
  let ip := if 0 < dp then ds.take dp.toNat ++ List.replicate (dp - nd).toNat (ch '0') else [ch '0']
  let fp := if dp < nd then
      ch '.' :: (if dp < 0 then List.replicate (-dp).toNat (ch '0') ++ ds else ds.drop dp.toNat)
    else []
  ip ++ fp

namespace F64

/-- Comparison `|a| < |b|` of finite values, on the bit fields. -/
def absLt (a b : F64) : Bool :=
  a.expo.val < b.expo.val || (a.expo.val == b.expo.val && a.frac.val < b.frac.val)

/-- The float64 constant `1e-6`. -/
def c1em6 : F64 := round false 1 1000000

/-- The float64 constant `1e21`. -/
def c1e21 : F64 := round false 1000000000000000000000 1

/-- The choice of the JSON encoder between `%e` and `%f`:
`abs < 1e-6 || abs >= 1e21` for a non-zero value. -/
def usesExpFormat (f : F64) : Bool := !f.isZero && (absLt f c1em6 || !absLt f c1e21)

/-- Text of the decimal `c × 10 ^ p` (`c` positive) in the format the JSON encoder picks
for `f`, with the sign of `f`. -/
def renderDecimal (f : F64) (c : Nat) (p : Int) : List Byte :=
  let all := natDigits c
  let ds := dropTrailingZeros all
  let dp : Int := (all.length : Int) + p
  (if f.sign then [ch '-'] else []) ++ (if usesExpFormat f then fmtE ds dp else fmtF ds dp)

/-- Whether the text is a JSON number that `ParseFloat` maps to `f` without error. -/
def parsesBackTo (f : F64) (s : List Byte) : Bool :=
  isJsonNumber s && decide (ParseFloat (s) = (f, none))

/-- The candidate with `n + 1` significant digits for the shortest decimal of a finite
non-zero `f`, if one of the two decimals of that length around `f` reads back as `f`:
the nearer one when both do, the even one on a tie. `k` is the decimal exponent of the first
digit of `f`. -/
def shortestCandidate (f : F64) (k : Int) (n : Nat) : Option (List Byte) :=
  let p : Int := k - n
  let num := if 0 ≤ p then f.num else f.num * 10 ^ (-p).toNat
  let den := if 0 ≤ p then f.den * 10 ^ p.toNat else f.den
  let lo := num / den
  let r := num % den
  let sLo := renderDecimal f lo p
  let sHi := renderDecimal f (lo + 1) p
  let okLo := parsesBackTo f sLo
  let okHi := parsesBackTo f sHi
  if r = 0 then (if okLo then some sLo else none)
  else if okLo && okHi then
    (if 2 * r < den ∨ (2 * r = den ∧ lo % 2 = 0) then some sLo else some sHi)
  else if okLo then some sLo
  else if okHi then some sHi
  else none

/-- The exact decimal expansion of a finite non-zero `f`, written as an integer with a
power of ten. -/
def exactDecimal (f : F64) : List Byte :=
  (if f.sign then [ch '-'] else []) ++
    (if 1075 ≤ f.bexp then natDigits (f.mant * 2 ^ (f.bexp - 1075))
     else natDigits (f.mant * 5 ^ (1075 - f.bexp)) ++ ch 'e' :: ch '-' :: natDigits (1075 - f.bexp))

/-- Text of a finite `f` as the JSON encoder writes it: `strconv.AppendFloat(b, f, fmt, -1, 64)`
with `fmt` one of `'e'`, `'f'`, which yields the fewest digits that `ParseFloat` reads back as
`f`. The digit search is specified by that contract: the first length, up to 17 digits, at
which one of the two neighbouring decimals reads back as `f`. Seventeen digits are enough for
every binary64 value; the exact expansion, which also reads back as `f`, only closes the
definition. -/
def formatJSON (f : F64) : List Byte :=
  if f.isZero then (if f.sign then [ch '-', ch '0'] else [ch '0'])
  else
    let k : Int := ((natDigits (f.num * 10 ^ 324 / f.den)).length : Int) - 325
    match (List.range 17).findSome? (shortestCandidate f k) with
    | some s => s
    | none => exactDecimal f

end F64

/-! ## The persisted record and `encoding/json` -/

/-- The `Property` struct stored on the ledger. -/
structure Property where
  ID : GoString
  Name : GoString
  Area : GoInt
  OwnerName : GoString
  Value : GoInt
  BitcoinValue : F64
deriving DecidableEq

/-- The zero value of `Property`, which `json.Unmarshal` allocates before filling fields. -/
def Property.zero : Property := ⟨[], [], GoInt.zero, [], GoInt.zero, F64.zero false⟩

/-- The record with its three strings coerced to valid UTF-8. -/
def Property.coerced (p : Property) : Property :=
  { p with ID := coerceUTF8 p.ID, Name := coerceUTF8 p.Name, OwnerName := coerceUTF8 p.OwnerName }

/-- The three strings of the record are valid UTF-8. -/
def Property.validStrings (p : Property) : Bool :=
  utf8Valid p.ID && utf8Valid p.Name && utf8Valid p.OwnerName

/-- Go error values returned by the contract. -/
inductive GoError where
  /-- An error built by `fmt.Errorf` in the contract, with its message. -/
  | errorf (msg : GoString)
  /-- A `*json.SyntaxError` or `*json.UnmarshalTypeError` of `json.Unmarshal`. -/
  | jsonDecode
  /-- The `*json.UnsupportedValueError` of `json.Marshal` for a NaN or an infinity. -/
  | jsonUnsupportedValue
  /-- An error returned by the ledger stub (`PutState`, `GetStateByRange`, the iterator). -/
  | ledger
deriving DecidableEq

/-- Lower-case hexadecimal digit of a number below 16. -/
def hexDigit (n : Nat) : Byte := if n < 10 then Byte.ofNat (48 + n) else Byte.ofNat (87 + n)

/-- Counterpart of the table `htmlSafeSet` on the ASCII bytes: the bytes that the encoder
copies as they are, all from the space on but `"`, `&`, `<`, `>` and the backslash. -/
def htmlSafe (b : Byte) : Bool :=
  decide (32 ≤ b.val) && b != ch '"' && b != ch '&' && b != ch '<' && b != ch '>' &&
    b != ch '\\'

/-- What `appendString` writes for one ASCII byte (HTML escaping on): the byte itself when
it is safe, else a short escape for the quote, the backslash, backspace, form feed,
newline, carriage return and tab, and the form `\u00xx` for the other control bytes and for
`<`, `>`, `&`. -/
def escapeAscii (b : Byte) : List Byte :=
  if htmlSafe b then [b]
  else if b = ch '\\' ∨ b = ch '"' then [ch '\\', b]
  else if b = ch '\x08' then [ch '\\', ch 'b']
  else if b = ch '\x0c' then [ch '\\', ch 'f']
  else if b = ch '\n' then [ch '\\', ch 'n']
  else if b = ch '\r' then [ch '\\', ch 'r']
  else if b = ch '\t' then [ch '\\', ch 't']
  else [ch '\\', ch 'u', ch '0', ch '0', hexDigit (b.val / 16), hexDigit (b.val % 16)]

/-- The loop of `appendString`, the string encoder of `json.Marshal`: an ASCII byte is written
by `escapeAscii`; a byte that starts no valid UTF-8 encoding is written as the escape
`\ufffd`; U+2028 and U+2029 are written as escapes; every other rune is copied. `skip`
counts the bytes of the rune just decoded that are still to be passed over, and `keep` tells
whether they are copied. -/
def escapeBytes : List Byte → Nat → Bool → List Byte
  | [], _, _ => []
  | b :: s, skip + 1, keep =>
    if keep then b :: escapeBytes s skip keep else escapeBytes s skip keep
  | b :: s, 0, _ =>
    if b.val < 128 then escapeAscii b ++ escapeBytes s 0 true
    else
      let d := decodeRune (b :: s)
      if d.1 = runeError ∧ d.2 = 1 then utf8 "\\ufffd" ++ escapeBytes s 0 true
      else if d.1 = 8232 ∨ d.1 = 8233 then
        utf8 "\\u202" ++ hexDigit (d.1 % 16) :: escapeBytes s (d.2 - 1) false
      else b :: escapeBytes s (d.2 - 1) true

/-- A JSON string literal for the string `s`. -/
def quote (s : GoString) : List Byte := ch '"' :: (escapeBytes s 0 true ++ [ch '"'])

/-- Value of a hexadecimal digit. -/
def hexVal? (c : Byte) : Option Nat :=
  match decDigit? c with
  | some v => some v
  | none => hexLetter? c

/-- Counterpart of `getu4`: the number written by four hexadecimal digits. -/
def hex4? (a b c d : Byte) : Option Nat :=
  match hexVal? a, hexVal? b, hexVal? c, hexVal? d with
  | some x, some y, some z, some w => some (((x * 16 + y) * 16 + z) * 16 + w)
  | _, _, _, _ => none

/-- The byte written by a one-letter escape. -/
def simpleEscape? (e : Byte) : Option Byte :=
  if e = ch '"' then some (ch '"')
  else if e = ch '\\' then some (ch '\\')
  else if e = ch '/' then some (ch '/')
  else if e = ch 'b' then some (ch '\x08')
  else if e = ch 'f' then some (ch '\x0c')
  else if e = ch 'n' then some (ch '\n')
  else if e = ch 'r' then some (ch '\r')
  else if e = ch 't' then some (ch '\t')
  else none

/-- The rune written by a surrogate pair, when the text after the escape of a high surrogate
`r` is the escape of a low surrogate (`utf16.DecodeRune`). -/
def lowHalf? (r : Nat) (t : List Byte) : Option Nat :=
  match t with
  | b1 :: b2 :: g1 :: g2 :: g3 :: g4 :: _ =>
    if b1 = ch '\\' ∧ b2 = ch 'u' then
      match hex4? g1 g2 g3 g4 with
      | some r2 =>
        if r < 56320 ∧ 56320 ≤ r2 ∧ r2 < 57344 then
          some ((r - 55296) * 1024 + (r2 - 56320) + 65536)
        else none
      | none => none
    else none
  | _ => none

/-- Counterpart of `unquote` together with the string states of the scanner: reads the body
of a JSON string up to its closing quote and returns the string and the unread input. `acc`
holds the bytes read so far, last first; `skip` counts bytes still to pass over: the rest
of a rune just decoded, or the escape of a low surrogate that was combined with its high
half. A surrogate escape without its other half reads as U+FFFD, and so does every byte
that is not part of a valid UTF-8 encoding. -/
def unquoteBody : List Byte → List Byte → Nat → Option (List Byte × List Byte)
  | [], _, _ => none
  | _ :: s, acc, skip + 1 => unquoteBody s acc skip
  | c :: s, acc, 0 =>
    if c = ch '"' then some (acc.reverse, s)
    else if c = ch '\\' then
      match s with
      | [] => none
      | e :: t =>
        if e = ch 'u' then
          match t with
          | h1 :: h2 :: h3 :: h4 :: t2 =>
            match hex4? h1 h2 h3 h4 with
            | none => none
            | some r =>
              if 55296 ≤ r ∧ r < 57344 then
                match lowHalf? r t2 with
                | some rr => unquoteBody t2 ((encodeRune rr).reverse ++ acc) 6
                | none => unquoteBody t2 ((encodeRune runeError).reverse ++ acc) 0
              else unquoteBody t2 ((encodeRune r).reverse ++ acc) 0
          | _ => none
        else
          match simpleEscape? e with
          | some b => unquoteBody t (b :: acc) 0
          | none => none
    else if c.val < 32 then none
    else if c.val < 128 then unquoteBody s (c :: acc) 0
    else
      let d := decodeRune (c :: s)
      unquoteBody s ((encodeRune d.1).reverse ++ acc) (d.2 - 1)

/-- JSON white space. -/
def isWs (c : Byte) : Bool := c = ch ' ' || c = ch '\t' || c = ch '\r' || c = ch '\n'

/-- Skips JSON white space. -/
def skipWs : List Byte → List Byte
  | [] => []
  | c :: s => if isWs c then skipWs s else c :: s

/-- Bytes that can occur in a JSON number. -/
def isNumChar (c : Byte) : Bool :=
  (decDigit? c).isSome || c = ch '-' || c = ch '+' || c = ch '.' || c = ch 'e' || c = ch 'E'

/-- Splits off the longest run of number bytes. -/
def spanNum : List Byte → List Byte × List Byte
  | [] => ([], [])
  | c :: s => if isNumChar c then ((spanNum s).1.cons c, (spanNum s).2) else ([], c :: s)

/-- Reads a JSON number literal: the literal and the unread input. -/
def scanNumber (s : List Byte) : Option (List Byte × List Byte) :=
  let t := spanNum s
  if isJsonNumber t.1 then some t else none

/-- Value of a run of decimal digits. -/
def digitsVal : List Byte → Nat → Option Nat
  | [], acc => some acc
  | c :: s, acc =>
    match decDigit? c with
    | some v => digitsVal s (acc * 10 + v)
    | none => none

/-- Counterpart of `strconv.ParseInt(tok, 10, 64)` on a JSON number literal: defined when the
literal is an integer in the range of `int64`. -/
def parseIntToken (tok : List Byte) : Option GoInt :=
  match tok with
  | [] => none
  | c :: r =>
    if c = ch '-' then
      (match r with
       | [] => none
       | _ :: _ => (digitsVal r 0).bind (fun n => GoInt.ofInt? (-(n : Int))))
    else (digitsVal tok 0).bind (fun n => GoInt.ofInt? (n : Int))

/-- Counterpart of `strconv.ParseFloat(tok, 64)` on a JSON number literal, as the decoder uses
it: an error of `ParseFloat` (a literal out of range) is a decoding error. -/
def parseFloatToken (tok : List Byte) : Option F64 :=
  match ParseFloat tok with
  | (f, none) => some f
  | (_, some _) => none

/-- Skips one JSON value that is neither an object nor an array (a string, a number, `true`,
`false` or `null`), checking its grammar; `none` on anything else. -/
def skipScalar (s : List Byte) : Option (List Byte) :=
  match s with
  | [] => none
  | c :: r =>
    if c = ch '"' then (unquoteBody r [] 0).map (fun x => x.2)
    else if c = ch 't' then
      (match r with
       | a :: b :: d :: r1 => if a = ch 'r' ∧ b = ch 'u' ∧ d = ch 'e' then some r1 else none
       | _ => none)
    else if c = ch 'f' then
      (match r with
       | a :: b :: d :: e :: r1 =>
         if a = ch 'a' ∧ b = ch 'l' ∧ d = ch 's' ∧ e = ch 'e' then some r1 else none
       | _ => none)
    else if c = ch 'n' then
      (match r with
       | a :: b :: d :: r1 => if a = ch 'u' ∧ b = ch 'l' ∧ d = ch 'l' then some r1 else none
       | _ => none)
    else (scanNumber s).map (fun x => x.2)

/-- Skips one JSON value of any kind, checking its grammar; `none` on a malformed value.
`room` is the number of levels of objects and arrays that may still be opened before the
nesting exceeds `maxNestingDepth`, the 10000 levels that the scanner accepts. The loops over
the members of an object and the elements of an array take the length of the text as fuel,
which is enough, since each round reads at least one byte. -/
def skipValue : Nat → List Byte → Option (List Byte)
  | 0, s => skipScalar s
  | room + 1, s =>
    let rec
    /-- Members of an object, from a key on. -/
    members : Nat → List Byte → Option (List Byte)
      | 0, _ => none
      | k + 1, u =>
        match u with
        | c :: r =>
          if c = ch '"' then
            match unquoteBody r [] 0 with
            | none => none
            | some (_, r1) =>
              match skipWs r1 with
              | c2 :: r2 =>
                if c2 = ch ':' then
                  match skipValue room (skipWs r2) with
                  | none => none
                  | some r3 =>
                    match skipWs r3 with
                    | c4 :: r4 =>
                      if c4 = ch ',' then members k (skipWs r4)
                      else if c4 = ch '}' then some r4
                      else none
                    | [] => none
                else none
              | [] => none
          else none
        | [] => none
    let rec
    /-- Elements of an array, from a value on. -/
    elems : Nat → List Byte → Option (List Byte)
      | 0, _ => none
      | k + 1, u =>
        match skipValue room u with
        | none => none
        | some r3 =>
          match skipWs r3 with
          | c4 :: r4 =>
            if c4 = ch ',' then elems k (skipWs r4)
            else if c4 = ch ']' then some r4
            else none
          | [] => none
    match s with
    | [] => none
    | c :: r =>
      if c = ch '{' then
        (match skipWs r with
         | c1 :: r1 => if c1 = ch '}' then some r1 else members s.length (c1 :: r1)
         | [] => none)
      else if c = ch '[' then
        (match skipWs r with
         | c1 :: r1 => if c1 = ch ']' then some r1 else elems s.length (c1 :: r1)
         | [] => none)
      else skipScalar s

/-- The fields of `Property` that a JSON key can select. -/
inductive Field where
  | id
  | name
  | area
  | ownerName
  | value
  | bitcoinValue
deriving DecidableEq

/-- The field selected by an object key: the key equals the JSON name of the field (`id`,
`name`, `area`, `ownerName`, `value`, and `BitcoinValue` for the untagged field) up to the
case of its letters. The decoder compares the names after Unicode case folding; none of
these names has a letter with a fold outside ASCII (only `k` and `s` have one), so that a key
with a non-ASCII byte selects no field. -/
def fieldOfKey (key : List Byte) : Option Field :=
  let k := key.map asciiLower
  if k = utf8 "id" then some Field.id
  else if k = utf8 "name" then some Field.name
  else if k = utf8 "area" then some Field.area
  else if k = utf8 "ownername" then some Field.ownerName
  else if k = utf8 "value" then some Field.value
  else if k = utf8 "bitcoinvalue" then some Field.bitcoinValue
  else none

/-- Stores a JSON string into the selected field; a field that is not a string rejects it. -/
def setString (f : Field) (v : GoString) (p : Property) : Option Property :=
  match f with
  | Field.id => some { p with ID := v }
  | Field.name => some { p with Name := v }
  | Field.ownerName => some { p with OwnerName := v }
  | _ => none

/-- Stores a JSON number literal into the selected field, through `ParseInt` for the `int`
fields and `ParseFloat` for the `float64` field; a string field rejects it. -/
def setNumber (f : Field) (tok : List Byte) (p : Property) : Option Property :=
  match f with
  | Field.area => (parseIntToken tok).map (fun v => { p with Area := v })
  | Field.value => (parseIntToken tok).map (fun v => { p with Value := v })
  | Field.bitcoinValue => (parseFloatToken tok).map (fun v => { p with BitcoinValue := v })
  | _ => none

/-- Decodes the value of one object member into `p`: a value of an unknown key is skipped
(`room` is the nesting it may still open), `null` leaves the field as it is, a string or a
number is stored if the field takes it, and every other value is a decoding error. -/
def decodeField (room : Nat) (fld : Option Field) (s : List Byte) (p : Property) :
    Option (Property × List Byte) :=
  match fld with
  | none => (skipValue room s).map (fun r => (p, r))
  | some f =>
    match s with
    | [] => none
    | c :: r =>
      if c = ch 'n' then
        (match r with
         | a :: b :: d :: r1 =>
           if a = ch 'u' ∧ b = ch 'l' ∧ d = ch 'l' then some (p, r1) else none
         | _ => none)
      else if c = ch '"' then
        (match unquoteBody r [] 0 with
         | some (v, r1) => (setString f v p).map (fun q => (q, r1))
         | none => none)
      else
        (match scanNumber s with
         | some (tok, r1) => (setNumber f tok p).map (fun q => (q, r1))
         | none => none)

/-- Decodes the members of an object into `p`, from a key on, up to the closing brace. The
object is the outermost value, so that a value in it may open 9999 further levels. The fuel
bounds the number of members read. -/
def decodeMembers : Nat → List Byte → Property → Option (Property × List Byte)
  | 0, _, _ => none
  | fuel + 1, s, p =>
    match s with
    | [] => none
    | c :: r =>
      if c = ch '"' then
        match unquoteBody r [] 0 with
        | none => none
        | some (key, r1) =>
          match skipWs r1 with
          | [] => none
          | c2 :: r2 =>
            if c2 = ch ':' then
              match decodeField 9999 (fieldOfKey key) (skipWs r2) p with
              | none => none
              | some (q, r3) =>
                match skipWs r3 with
                | [] => none
                | c4 :: r4 =>
                  if c4 = ch ',' then decodeMembers fuel (skipWs r4) q
                  else if c4 = ch '}' then some (q, r4)
                  else none
            else none
      else none

/-- Counterpart of `json.Unmarshal(data, &property)` for `var property *Property`: the JSON
literal `null` leaves the pointer nil (`none`), an object is decoded into a fresh `Property`,
and any other text is an error. The loop over the members takes the length of the text as
fuel, which is enough, since each member takes at least one byte. -/
def jsonUnmarshal (data : GoString) : Except GoError (Option Property) :=
  match skipWs data with
  | [] => Except.error GoError.jsonDecode
  | c :: r =>
    if c = ch 'n' then
      (match r with
       | a :: b :: d :: r1 =>
         if a = ch 'u' ∧ b = ch 'l' ∧ d = ch 'l' ∧ skipWs r1 = [] then Except.ok none
         else Except.error GoError.jsonDecode
       | _ => Except.error GoError.jsonDecode)
    else if c = ch '{' then
      (match skipWs r with
       | [] => Except.error GoError.jsonDecode
       | c1 :: r1 =>
         if c1 = ch '}' then
           (if skipWs r1 = [] then Except.ok (some Property.zero)
            else Except.error GoError.jsonDecode)
         else
           match decodeMembers data.length (c1 :: r1) Property.zero with
           | some (p, r2) =>
             if skipWs r2 = [] then Except.ok (some p) else Except.error GoError.jsonDecode
           | none => Except.error GoError.jsonDecode)
    else Except.error GoError.jsonDecode

/-- The JSON object that `json.Marshal` writes for a `Property` with a finite `BitcoinValue`. -/
def marshalBytes (p : Property) : List Byte :=
  ch '{' :: (quote (utf8 "id") ++ ch ':' :: (quote p.ID ++ ch ',' :: (quote (utf8 "name") ++
    ch ':' :: (quote p.Name ++ ch ',' :: (quote (utf8 "area") ++ ch ':' ::
    (intDigits p.Area.val ++ ch ',' :: (quote (utf8 "ownerName") ++ ch ':' ::
    (quote p.OwnerName ++ ch ',' :: (quote (utf8 "value") ++ ch ':' ::
    (intDigits p.Value.val ++ ch ',' :: (quote (utf8 "BitcoinValue") ++ ch ':' ::
    (F64.formatJSON p.BitcoinValue ++ [ch '}']))))))))))))

/-- Counterpart of `json.Marshal(prop)`: a NaN or an infinity in `BitcoinValue` is rejected
with an `UnsupportedValueError`. -/
def jsonMarshal (p : Property) : Except GoError GoString :=
  if p.BitcoinValue.isInf || p.BitcoinValue.isNaN then Except.error GoError.jsonUnsupportedValue
  else Except.ok (marshalBytes p)

/-! ## The ledger stub and the oracle -/

/-- The world state of the ledger: the entries in iteration order, with the log of the
writes issued (`PutState` calls accepted), newest first. -/
structure Ledger where
  state : List (GoString × GoString)
  writes : List (GoString × GoString)
deriving DecidableEq

/-- The empty ledger. -/
def Ledger.empty : Ledger := ⟨[], []⟩

/-- Failure behaviour of the ledger stub: which calls return an error. -/
structure Stub where
  getFails : GoString → Bool
  putFails : GoString → GoString → Bool
  rangeFails : Bool
  nextFails : Nat → Bool

/-- A stub none of whose calls fail. -/
def Stub.reliable : Stub := ⟨fun _ => false, fun _ _ => false, false, fun _ => false⟩

/-- The value of the first entry with key `k`. -/
def lookupKey (k : GoString) : List (GoString × GoString) → Option GoString
  | [] => none
  | e :: r => if e.1 = k then some e.2 else lookupKey k r

/-- Counterpart of `stub.GetState(key)`: the stored bytes, `none` (nil) for an absent key. -/
def GetState (stub : Stub) (l : Ledger) (key : GoString) : Except GoError (Option GoString) :=
  if stub.getFails key then Except.error GoError.ledger else Except.ok (lookupKey key l.state)

/-- Counterpart of `stub.GetStateByRange("", "")`: the entries that the iterator yields, all
entries in ledger order. -/
def GetStateByRange (stub : Stub) (l : Ledger) : Except GoError (List (GoString × GoString)) :=
  if stub.rangeFails then Except.error GoError.ledger else Except.ok l.state

/-- Order of keys: lexical order of their bytes. -/
def keyLt : List Byte → List Byte → Bool
  | [], [] => false
  | [], _ :: _ => true
  | _ :: _, [] => false
  | a :: s, b :: t => a.val < b.val || (a.val == b.val && keyLt s t)

/-- Replaces the value of the first entry with key `k`. -/
def replaceEntry (k v : GoString) : List (GoString × GoString) → List (GoString × GoString)
  | [] => []
  | e :: r => if e.1 = k then (k, v) :: r else e :: replaceEntry k v r

/-- Inserts a new entry before the first entry with a greater key. -/
def insertEntry (k v : GoString) : List (GoString × GoString) → List (GoString × GoString)
  | [] => [(k, v)]
  | e :: r => if keyLt k e.1 then (k, v) :: e :: r else e :: insertEntry k v r

/-- The state that an accepted write leaves: the value of an existing key is replaced in
place, a new key is placed in key order. -/
def putEntry (k v : GoString) (l : List (GoString × GoString)) : List (GoString × GoString) :=
  if (lookupKey k l).isSome then replaceEntry k v l else insertEntry k v l

/-- Counterpart of `stub.PutState(key, value)` followed by the commit of the transaction. -/
def PutState (stub : Stub) (l : Ledger) (key value : GoString) : Except GoError Ledger :=
  if stub.putFails key value then Except.error GoError.ledger
  else Except.ok { state := putEntry key value l.state, writes := (key, value) :: l.writes }

/-- The part of the `Rate` struct that the contract reads. -/
structure Rate where
  ExRate : GoString

/-- The `OuterRate` struct of the oracle reply. -/
structure OuterRate where
  Holder : Rate

/-- Result of `http.Get` on the oracle: a transport error, or a response, represented by the
`OuterRate` that `decoder.Decode(&result)` leaves in `result` (its error is discarded; fields
that the body does not provide keep their zero value). -/
inductive HttpGet where
  | failed
  | response (result : OuterRate)

/-- How a transaction ends. -/
inductive Outcome (α : Type) where
  /-- Returned with a nil error. -/
  | ok (a : α)
  /-- Returned a non-nil error. -/
  | error (e : GoError)
  /-- The process was terminated by `os.Exit`. -/
  | exit (code : Nat)
  /-- A run-time panic (nil pointer dereference). -/
  | panic
deriving DecidableEq

/-! ## The contract -/

/-- `AddProperty`: adds a new property to the ledger. -/
def AddProperty (stub : Stub) (http : HttpGet) (l : Ledger)
    (id name : GoString) (area : GoInt) (ownerName : GoString) (value : GoInt) :
    Outcome Unit × Ledger :=
  match GetState stub l id with
  | Except.error _ =>
    (Outcome.error (GoError.errorf (utf8 "failed to read the data from world state")), l)
  | Except.ok (some _) =>
    (Outcome.error (GoError.errorf (utf8 "fhe property " ++ id ++ utf8 " already exists")), l)
  | Except.ok none =>
    let prop : Property :=
      { ID := id, Name := name, Area := area, OwnerName := ownerName, Value := value,
        BitcoinValue := F64.zero false }
    match http with
    | HttpGet.failed => (Outcome.exit 1, l)
    | HttpGet.response result =>
      let btcExRate := (ParseFloat result.Holder.ExRate).1
      let prop := { prop with BitcoinValue := F64.div (F64.ofInt value) btcExRate }
      match jsonMarshal prop with
      | Except.error err => (Outcome.error err, l)
      | Except.ok propertyBytes =>
        match PutState stub l id propertyBytes with
        | Except.error err => (Outcome.error err, l)
        | Except.ok l1 => (Outcome.ok (), l1)

/-- The loop of `QueryAllProperties` over the iterator: `i` is the number of entries already
read and `properties` the records appended so far. -/
def queryAllLoop (stub : Stub) :
    List (GoString × GoString) → Nat → List (Option Property) → Except GoError (List (Option Property))
  | [], _, properties => Except.ok properties
  | propertyResponse :: rest, i, properties =>
    if stub.nextFails i then Except.error GoError.ledger
    else
      match jsonUnmarshal propertyResponse.2 with
      | Except.error err => Except.error err
      | Except.ok property => queryAllLoop stub rest (i + 1) (properties ++ [property])

/-- `QueryAllProperties`: all records, by a range scan with blank bounds. A record is a
`*Property`, which may be nil (`none`). -/
def QueryAllProperties (stub : Stub) (l : Ledger) : Except GoError (List (Option Property)) :=
  match GetStateByRange stub l with
  | Except.error err => Except.error err
  | Except.ok propertyIterator => queryAllLoop stub propertyIterator 0 []

/-- `QueryPropertyByID`: the record stored under `id`. The result is a `*Property`, which may
be nil (`none`). -/
def QueryPropertyByID (stub : Stub) (l : Ledger) (id : GoString) :
    Except GoError (Option Property) :=
  match GetState stub l id with
  | Except.error _ =>
    Except.error (GoError.errorf (utf8 "failed to read the data from world state"))
  | Except.ok none =>
    Except.error (GoError.errorf (utf8 "the property " ++ id ++ utf8 " does not exist"))
  | Except.ok (some propertyJSON) =>
    match jsonUnmarshal propertyJSON with
    | Except.error err => Except.error err
    | Except.ok property => Except.ok property

/-- `TransferProperty`: changes the owner of the record stored under `id`. -/
def TransferProperty (stub : Stub) (l : Ledger) (id newOwner : GoString) :
    Outcome Unit × Ledger :=
  match QueryPropertyByID stub l id with
  | Except.error err => (Outcome.error err, l)
  | Except.ok none => (Outcome.panic, l)
  | Except.ok (some property) =>
    let property := { property with OwnerName := newOwner }
    match jsonMarshal property with
    | Except.error err => (Outcome.error err, l)
    | Except.ok propertyJSON =>
      match PutState stub l id propertyJSON with
      | Except.error err => (Outcome.error err, l)
      | Except.ok l1 => (Outcome.ok (), l1)

/-! ## Sequences of transactions -/

/-- An invocation of one of the two writing transactions, with the behaviour of the stub and
the reply of the oracle during the call. -/
inductive Call where
  | add (stub : Stub) (http : HttpGet) (id name : GoString) (area : GoInt) (ownerName : GoString)
      (value : GoInt)
  | transfer (stub : Stub) (id newOwner : GoString)

/-- The outcome of a call and the ledger it leaves. -/
def Call.exec (l : Ledger) : Call → Outcome Unit × Ledger
  | Call.add stub http id name area ownerName value =>
    AddProperty stub http l id name area ownerName value
  | Call.transfer stub id newOwner => TransferProperty stub l id newOwner

/-- The ledger after a sequence of calls. -/
def runCalls : List Call → Ledger → Ledger
  | [], l => l
  | c :: cs, l => runCalls cs (c.exec l).2

/-- The id that a call created: the id of an `AddProperty` call that returned without error. -/
def Call.created (l : Ledger) : Call → Option GoString
  | Call.add stub http id name area ownerName value =>
    if (AddProperty stub http l id name area ownerName value).1 = Outcome.ok () then some id
    else none
  | Call.transfer _ _ _ => none

/-- The ids created by the `AddProperty` calls that succeeded in a sequence of calls. -/
def createdIds : List Call → Ledger → List GoString
  | [], _ => []
  | c :: cs, l =>
    match c.created l with
    | some id => id :: createdIds cs (c.exec l).2
    | none => createdIds cs (c.exec l).2

/-- The bytes are the JSON literal `null`, possibly surrounded by white space. -/
def isJsonNull (s : GoString) : Bool :=
  match skipWs s with
  | a :: b :: c :: d :: r => a = ch 'n' && b = ch 'u' && c = ch 'l' && d = ch 'l' && (skipWs r).isEmpty
  | _ => false

/-- The keys of the ledger in iteration order. -/
def Ledger.keys (l : Ledger) : List GoString := l.state.map (fun e => e.1)

/-- Every entry holds bytes that decode to a `Property` whose `ID` is the key of the entry
coerced to valid UTF-8. -/
def WellFormed (l : Ledger) : Prop :=
  ∀ e ∈ l.state, ∃ p, jsonUnmarshal e.2 = Except.ok (some p) ∧ p.ID = coerceUTF8 e.1

/-- Equality of the results of a fallible call is decidable. -/
instance instDecidableEqResult {ε α : Type} [DecidableEq ε] [DecidableEq α] :
    DecidableEq (Except ε α) := fun a b =>
  match a, b with
  | Except.ok x, Except.ok y =>
    if h : x = y then isTrue (congrArg Except.ok h)
    else isFalse (fun e => h (Except.ok.inj e))
  | Except.error x, Except.error y =>
    if h : x = y then isTrue (congrArg Except.error h)
    else isFalse (fun e => h (Except.error.inj e))
  | Except.ok _, Except.error _ => isFalse (fun e => Except.noConfusion e)
  | Except.error _, Except.ok _ => isFalse (fun e => Except.noConfusion e)

/-! ## The example of the specification -/

/-- The area of the example parcel. -/
def exArea : GoInt := ⟨100, by decide, by decide⟩

/-- The value of the example parcel. -/
def exValue : GoInt := ⟨50000, by decide, by decide⟩

/-- The oracle reply of the example: the rate text `50000.0`. -/
def exReply : HttpGet := HttpGet.response ⟨⟨utf8 "50000.0"⟩⟩

/-- The bytes stored for `("P1", "Lot A", 100, "Alice", 50000)` created at the rate `50000.0`. -/
def exBytes : GoString :=
  utf8 "\x7b\"id\":\"P1\",\"name\":\"Lot A\",\"area\":100,\"ownerName\":\"Alice\",\"value\":50000,\"BitcoinValue\":1\x7d"

/-- The ledger after that creation on the empty ledger. -/
def exLedger : Ledger := ⟨[(utf8 "P1", exBytes)], [(utf8 "P1", exBytes)]⟩

/-- The record of the example. -/
def exRecord : Property :=
  { ID := utf8 "P1", Name := utf8 "Lot A", Area := exArea, OwnerName := utf8 "Alice",
    Value := exValue, BitcoinValue := F64.ofFields false 1023 0 }

/-- The bytes stored after the example parcel was transferred to `Bob`. -/
def exBytesBob : GoString :=
  utf8 "\x7b\"id\":\"P1\",\"name\":\"Lot A\",\"area\":100,\"ownerName\":\"Bob\",\"value\":50000,\"BitcoinValue\":1\x7d"

/-- The JSON text of the example record with the given bytes between the quotes of `id`,
`name` and `ownerName`. -/
def exJSON (id name ownerName : GoString) : GoString :=
  utf8 "\x7b\"id\":\"" ++ id ++ utf8 "\",\"name\":\"" ++ name ++
    utf8 "\",\"area\":100,\"ownerName\":\"" ++ ownerName ++
    utf8 "\",\"value\":50000,\"BitcoinValue\":1\x7d"

/-- The escape that `json.Marshal` writes for a byte that is not part of a valid UTF-8
encoding. -/
def exEscape : GoString := utf8 "\\ufffd"

/-- The UTF-8 encoding of U+FFFD, which `json.Unmarshal` reads from that escape. -/
def exReplacement : GoString := [239, 191, 189]

/-! # Theorems -/

/-! ## Bytes -/

theorem val_ofNat_of_lt (n : Nat) (h : n < 256) : (Byte.ofNat n).val = n :=
  Nat.mod_eq_of_lt h

theorem ofNat_val (b : Byte) : Byte.ofNat b.val = b :=
  Fin.ext (Nat.mod_eq_of_lt b.isLt)

theorem byte_eq_of_val (a b : Byte) (h : a.val = b.val) : a = b := Fin.ext h

/-! ## The ledger: reading after writing -/

theorem lookupKey_replaceEntry_self (k v : GoString) (l : List (GoString × GoString))
    (h : (lookupKey k l).isSome) : lookupKey k (replaceEntry k v l) = some v := by
  induction l with
  | nil => simp [lookupKey] at h
  | cons e r ih =>
    by_cases he : e.1 = k
    · simp [replaceEntry, lookupKey, he]
    · simp only [lookupKey, he, if_false] at h
      simp [replaceEntry, lookupKey, he, ih h]

theorem lookupKey_replaceEntry_ne (k v k1 : GoString) (l : List (GoString × GoString))
    (hne : k1 ≠ k) : lookupKey k1 (replaceEntry k v l) = lookupKey k1 l := by
  induction l with
  | nil => rfl
  | cons e r ih =>
    by_cases he : e.1 = k
    · have h1 : ¬ e.1 = k1 := fun h => hne (h.symm.trans he)
      simp [replaceEntry, lookupKey, he, h1, Ne.symm hne]
    · by_cases h1 : e.1 = k1
      · simp only [replaceEntry, if_neg he, lookupKey, if_pos h1]
      · simp only [replaceEntry, if_neg he, lookupKey, if_neg h1, ih]

theorem lookupKey_insertEntry_self (k v : GoString) (l : List (GoString × GoString))
    (h : lookupKey k l = none) : lookupKey k (insertEntry k v l) = some v := by
  induction l with
  | nil => simp [insertEntry, lookupKey]
  | cons e r ih =>
    by_cases he : e.1 = k
    · simp [lookupKey, he] at h
    · simp only [lookupKey, he, if_false] at h
      by_cases hlt : keyLt k e.1 = true
      · simp [insertEntry, lookupKey, hlt]
      · simp [insertEntry, lookupKey, hlt, he, ih h]

theorem lookupKey_insertEntry_ne (k v k1 : GoString) (l : List (GoString × GoString))
    (hne : k1 ≠ k) : lookupKey k1 (insertEntry k v l) = lookupKey k1 l := by
  induction l with
  | nil => simp [insertEntry, lookupKey, Ne.symm hne]
  | cons e r ih =>
    by_cases hlt : keyLt k e.1 = true
    · simp [insertEntry, lookupKey, hlt, Ne.symm hne]
    · by_cases h1 : e.1 = k1
      · simp only [insertEntry, if_neg hlt, lookupKey, if_pos h1]
      · simp only [insertEntry, if_neg hlt, lookupKey, if_neg h1, ih]

theorem replaceEntry_same (k v : GoString) (l : List (GoString × GoString))
    (h : lookupKey k l = some v) : replaceEntry k v l = l := by
  induction l with
  | nil => rfl
  | cons e r ih =>
    by_cases he : e.1 = k
    · simp only [lookupKey, he, if_true, Option.some.injEq] at h
      simp only [replaceEntry, he, if_true]
      rw [← he, ← h]
    · simp only [lookupKey, he, if_false] at h
      simp [replaceEntry, he, ih h]

theorem lookupKey_putEntry (k v k1 : GoString) (l : List (GoString × GoString)) :
    lookupKey k1 (putEntry k v l) = if k1 = k then some v else lookupKey k1 l := by
  unfold putEntry
  by_cases hk : k1 = k
  · subst hk
    by_cases hs : (lookupKey k1 l).isSome
    · simp [hs, lookupKey_replaceEntry_self k1 v l hs]
    · have hn : lookupKey k1 l = none := by simpa using hs
      simp [hn, lookupKey_insertEntry_self k1 v l hn]
  · by_cases hs : (lookupKey k l).isSome
    · simp [hs, hk, lookupKey_replaceEntry_ne k v k1 l hk]
    · simp [hs, hk, lookupKey_insertEntry_ne k v k1 l hk]

theorem putState_ok (stub : Stub) (l l1 : Ledger) (k v : GoString)
    (h : PutState stub l k v = Except.ok l1) :
    stub.putFails k v = false ∧ l1.state = putEntry k v l.state ∧ l1.writes = (k, v) :: l.writes := by
  unfold PutState at h
  by_cases hf : stub.putFails k v = true
  · simp [hf] at h
  · simp only [hf] at h
    simp only [Bool.false_eq_true, if_false, Except.ok.injEq] at h
    subst h
    simp [hf]

/-! ## UTF-8: decoding and encoding -/

theorem decodeRune_ascii (b : Byte) (t : List Byte) (h : b.val < 128) :
    decodeRune (b :: t) = (b.val, 1) := by
  simp [decodeRune, h]

theorem encodeRune_ascii (b : Byte) (h : b.val < 128) : encodeRune b.val = [b] := by
  simp [encodeRune, h, ofNat_val]

theorem leadInfo_some (b sz lo hi : Nat) (h : leadInfo b = some (sz, lo, hi)) :
    128 ≤ lo ∧ hi ≤ 191 ∧
    ((sz = 2 ∧ 194 ≤ b ∧ b ≤ 223) ∨
     (sz = 3 ∧ 224 ≤ b ∧ b ≤ 239 ∧ (b = 224 → 160 ≤ lo) ∧ (b = 237 → hi ≤ 159)) ∨
     (sz = 4 ∧ 240 ≤ b ∧ b ≤ 244 ∧ (b = 240 → 144 ≤ lo) ∧ (b = 244 → hi ≤ 143))) := by
  unfold leadInfo at h
  split_ifs at h <;> simp only [Option.some.injEq, Prod.mk.injEq] at h <;>
    (obtain ⟨rfl, rfl, rfl⟩ := h; omega)

/-- A successful decoding of a rune of several bytes: the bytes read, which the rune encodes
to, and which alone determine the result. -/
theorem decodeRune_multi (b : Byte) (t : List Byte) (hb : 128 ≤ b.val)
    (hv : decodeRune (b :: t) ≠ (runeError, 1)) :
    ∃ pre rest, t = pre ++ rest ∧ 1 ≤ pre.length ∧
      (decodeRune (b :: t)).2 = pre.length + 1 ∧
      encodeRune (decodeRune (b :: t)).1 = b :: pre ∧
      128 ≤ (decodeRune (b :: t)).1 ∧
      ∀ u, decodeRune (b :: (pre ++ u)) = decodeRune (b :: t) := by
  have hb' : ¬ b.val < 128 := by omega
  cases hl : leadInfo b.val with
  | none => exact absurd (by simp [decodeRune, hb', hl]) hv
  | some info =>
    obtain ⟨sz, lo, hi⟩ := info
    obtain ⟨hlo, hhi, hsz⟩ := leadInfo_some _ _ _ _ hl
    cases t with
    | nil => exact absurd (by simp [decodeRune, hb', hl]) hv
    | cons b1 t1 =>
      by_cases h1 : b1.val < lo ∨ hi < b1.val
      · exact absurd (by simp [decodeRune, hb', hl, h1]) hv
      by_cases hs2 : sz ≤ 2
      · have hd : ∀ u, decodeRune (b :: b1 :: u) = (b.val % 32 * 64 + b1.val % 64, 2) := by
          intro u; simp [decodeRune, hb', hl, h1, hs2]
        refine ⟨[b1], t1, rfl, by simp, by rw [hd]; rfl, ?_, by rw [hd]; simp only; omega,
          fun u => by rw [hd, List.singleton_append, hd]⟩
        rw [hd]
        simp only
        have e1 : 192 + (b.val % 32 * 64 + b1.val % 64) / 64 = b.val := by omega
        have e2 : 128 + (b.val % 32 * 64 + b1.val % 64) % 64 = b1.val := by omega
        have c1 : ¬ (b.val % 32 * 64 + b1.val % 64 < 128) := by omega
        have c2 : b.val % 32 * 64 + b1.val % 64 < 2048 := by omega
        simp only [encodeRune, if_neg c1, if_pos c2, e1, e2, ofNat_val]
      cases t1 with
      | nil => exact absurd (by simp [decodeRune, hb', hl, h1, hs2]) hv
      | cons b2 t2 =>
        by_cases h2 : b2.val < 128 ∨ 191 < b2.val
        · exact absurd (by simp [decodeRune, hb', hl, h1, hs2, h2]) hv
        by_cases hs3 : sz ≤ 3
        · have hd : ∀ u, decodeRune (b :: b1 :: b2 :: u) =
              (b.val % 16 * 4096 + b1.val % 64 * 64 + b2.val % 64, 3) := by
            intro u; simp [decodeRune, hb', hl, h1, hs2, h2, hs3]
          refine ⟨[b1, b2], t2, rfl, by simp, by rw [hd]; rfl, ?_, by rw [hd]; simp only; omega,
            fun u => by rw [hd]; exact hd u⟩
          rw [hd]
          simp only
          have e1 : 224 + (b.val % 16 * 4096 + b1.val % 64 * 64 + b2.val % 64) / 4096 = b.val := by
            omega
          have e2 : 128 + (b.val % 16 * 4096 + b1.val % 64 * 64 + b2.val % 64) / 64 % 64 =
              b1.val := by omega
          have e3 : 128 + (b.val % 16 * 4096 + b1.val % 64 * 64 + b2.val % 64) % 64 = b2.val := by
            omega
          have c1 : ¬ (b.val % 16 * 4096 + b1.val % 64 * 64 + b2.val % 64 < 128) := by omega
          have c2 : ¬ (b.val % 16 * 4096 + b1.val % 64 * 64 + b2.val % 64 < 2048) := by omega
          have c3 : ¬ (1114111 < b.val % 16 * 4096 + b1.val % 64 * 64 + b2.val % 64 ∨
              (55296 ≤ b.val % 16 * 4096 + b1.val % 64 * 64 + b2.val % 64 ∧
                b.val % 16 * 4096 + b1.val % 64 * 64 + b2.val % 64 ≤ 57343)) := by omega
          have c4 : b.val % 16 * 4096 + b1.val % 64 * 64 + b2.val % 64 < 65536 := by omega
          simp only [encodeRune, if_neg c1, if_neg c2, if_neg c3, if_pos c4, e1, e2, e3, ofNat_val]
        cases t2 with
        | nil => exact absurd (by simp [decodeRune, hb', hl, h1, hs2, h2, hs3]) hv
        | cons b3 t3 =>
          by_cases h3 : b3.val < 128 ∨ 191 < b3.val
          · exact absurd (by simp [decodeRune, hb', hl, h1, hs2, h2, hs3, h3]) hv
          have hd : ∀ u, decodeRune (b :: b1 :: b2 :: b3 :: u) =
              (b.val % 8 * 262144 + b1.val % 64 * 4096 + b2.val % 64 * 64 + b3.val % 64, 4) := by
            intro u; simp [decodeRune, hb', hl, h1, hs2, h2, hs3, h3]
          refine ⟨[b1, b2, b3], t3, rfl, by simp, by rw [hd]; rfl, ?_, by rw [hd]; simp only; omega,
            fun u => by rw [hd]; exact hd u⟩
          rw [hd]
          simp only
          generalize hr : b.val % 8 * 262144 + b1.val % 64 * 4096 + b2.val % 64 * 64 + b3.val % 64
            = r
          have e1 : 240 + r / 262144 = b.val := by omega
          have e2 : 128 + r / 4096 % 64 = b1.val := by omega
          have e3 : 128 + r / 64 % 64 = b2.val := by omega
          have e4 : 128 + r % 64 = b3.val := by omega
          have c1 : ¬ (r < 128) := by omega
          have c2 : ¬ (r < 2048) := by omega
          have c3 : ¬ (1114111 < r ∨ (55296 ≤ r ∧ r ≤ 57343)) := by omega
          have c4 : ¬ (r < 65536) := by omega
          simp only [encodeRune, if_neg c1, if_neg c2, if_neg c3, if_neg c4, e1, e2, e3, e4,
            ofNat_val]

theorem coerceFrom_skip (pre rest : List Byte) :
    coerceFrom (pre ++ rest) pre.length = coerceFrom rest 0 := by
  induction pre with
  | nil => rfl
  | cons b t ih => exact ih

theorem utf8ValidFrom_skip (pre rest : List Byte) :
    utf8ValidFrom (pre ++ rest) pre.length = utf8ValidFrom rest 0 := by
  induction pre with
  | nil => rfl
  | cons b t ih => exact ih

theorem coerceFrom_cons (b : Byte) (t : List Byte) :
    coerceFrom (b :: t) 0 =
      encodeRune (decodeRune (b :: t)).1 ++ coerceFrom t ((decodeRune (b :: t)).2 - 1) := by
  simp only [coerceFrom]

theorem utf8ValidFrom_cons (b : Byte) (t : List Byte) :
    utf8ValidFrom (b :: t) 0 =
      (!(decide ((decodeRune (b :: t)).1 = runeError ∧ (decodeRune (b :: t)).2 = 1)) &&
        utf8ValidFrom t ((decodeRune (b :: t)).2 - 1)) := by
  simp only [utf8ValidFrom]

/-- One step of the loops over the runes of a string: the first rune is an ASCII byte, or an
invalid byte, or a valid encoding of several bytes. -/
theorem rune_cases (b : Byte) (t : List Byte) :
    (b.val < 128 ∧ decodeRune (b :: t) = (b.val, 1)) ∨
    (128 ≤ b.val ∧ decodeRune (b :: t) = (runeError, 1)) ∨
    (128 ≤ b.val ∧ decodeRune (b :: t) ≠ (runeError, 1) ∧
      ∃ pre rest, t = pre ++ rest ∧ 1 ≤ pre.length ∧
        (decodeRune (b :: t)).2 = pre.length + 1 ∧
        encodeRune (decodeRune (b :: t)).1 = b :: pre ∧
        128 ≤ (decodeRune (b :: t)).1 ∧
        ∀ u, decodeRune (b :: (pre ++ u)) = decodeRune (b :: t)) := by
  by_cases h : b.val < 128
  · exact Or.inl ⟨h, decodeRune_ascii b t h⟩
  · by_cases hv : decodeRune (b :: t) = (runeError, 1)
    · exact Or.inr (Or.inl ⟨by omega, hv⟩)
    · exact Or.inr (Or.inr ⟨by omega, hv, decodeRune_multi b t (by omega) hv⟩)

theorem coerce_of_valid_aux (n : Nat) (s : List Byte) (hn : s.length ≤ n)
    (h : utf8ValidFrom s 0 = true) : coerceFrom s 0 = s := by
  induction n generalizing s with
  | zero =>
    have : s = [] := List.eq_nil_of_length_eq_zero (by omega)
    subst this; rfl
  | succ n ih =>
    cases s with
    | nil => rfl
    | cons b t =>
      rw [utf8ValidFrom_cons] at h
      rw [coerceFrom_cons]
      simp only [List.length_cons] at hn
      rcases rune_cases b t with ⟨hb, hd⟩ | ⟨hb, hd⟩ | ⟨hb, hv, pre, rest, ht, hp, hsz, henc, _, _⟩
      · rw [hd] at h ⊢
        simp only [Bool.and_eq_true] at h
        simp only [encodeRune_ascii b hb, Nat.sub_self, List.singleton_append]
        rw [ih t (by omega) h.2]
      · rw [hd] at h
        simp at h
      · simp only [Bool.and_eq_true] at h
        rw [hsz, Nat.add_sub_cancel, ht, utf8ValidFrom_skip] at h
        rw [henc, hsz, Nat.add_sub_cancel, ht, coerceFrom_skip]
        rw [ih rest (by rw [ht, List.length_append] at hn; omega) h.2]
        rfl

/-- A valid UTF-8 string is left as it is by the coercion. -/
theorem coerceUTF8_of_valid (s : GoString) (h : utf8Valid s = true) : coerceUTF8 s = s :=
  coerce_of_valid_aux s.length s (Nat.le_refl _) h

theorem utf8Valid_append_aux (n : Nat) (s u : List Byte) (hn : s.length ≤ n)
    (hs : utf8ValidFrom s 0 = true) (hu : utf8ValidFrom u 0 = true) :
    utf8ValidFrom (s ++ u) 0 = true := by
  induction n generalizing s with
  | zero =>
    have : s = [] := List.eq_nil_of_length_eq_zero (by omega)
    subst this; exact hu
  | succ n ih =>
    cases s with
    | nil => exact hu
    | cons b t =>
      rw [utf8ValidFrom_cons] at hs
      rw [List.cons_append, utf8ValidFrom_cons]
      simp only [List.length_cons] at hn
      rcases rune_cases b t with ⟨hb, hd⟩ | ⟨hb, hd⟩ | ⟨hb, hv, pre, rest, ht, hp, hsz, henc, _, hind⟩
      · rw [hd] at hs
        rw [decodeRune_ascii b _ hb]
        simp only [Bool.and_eq_true] at hs ⊢
        exact ⟨hs.1, ih t (by omega) hs.2⟩
      · rw [hd] at hs
        simp at hs
      · have hd2 : decodeRune (b :: (t ++ u)) = decodeRune (b :: t) := by
          rw [ht, List.append_assoc]; rw [ht] at hind; exact hind _
        rw [hd2]
        simp only [Bool.and_eq_true] at hs ⊢
        refine ⟨hs.1, ?_⟩
        have h2 := hs.2
        rw [hsz, Nat.add_sub_cancel, ht, utf8ValidFrom_skip] at h2
        rw [hsz, Nat.add_sub_cancel, ht, List.append_assoc, utf8ValidFrom_skip]
        exact ih rest (by rw [ht, List.length_append] at hn; omega) h2

theorem utf8Valid_append (s u : GoString) (hs : utf8Valid s = true) (hu : utf8Valid u = true) :
    utf8Valid (s ++ u) = true :=
  utf8Valid_append_aux s.length s u (Nat.le_refl _) hs hu

theorem leadInfo_three (r : Nat) (h1 : 2048 ≤ r) (h2 : r < 65536)
    (h3 : ¬ (55296 ≤ r ∧ r ≤ 57343)) :
    ∃ lo hi, leadInfo (224 + r / 4096) = some (3, lo, hi) ∧
      lo ≤ 128 + r / 64 % 64 ∧ 128 + r / 64 % 64 ≤ hi := by
  unfold leadInfo
  split_ifs <;> first
    | omega
    | exact ⟨_, _, rfl, by omega, by omega⟩

theorem leadInfo_four (r : Nat) (h1 : 65536 ≤ r) (h2 : r ≤ 1114111) :
    ∃ lo hi, leadInfo (240 + r / 262144) = some (4, lo, hi) ∧
      lo ≤ 128 + r / 4096 % 64 ∧ 128 + r / 4096 % 64 ≤ hi := by
  unfold leadInfo
  split_ifs <;> first
    | omega
    | exact ⟨_, _, rfl, by omega, by omega⟩

/-- Decoding the encoding of a rune gives a rune and the length of the encoding, never the
failure `(RuneError, 1)`. -/
theorem decodeRune_encodeRune (r : Nat) (u : List Byte) :
    (decodeRune (encodeRune r ++ u)).2 = (encodeRune r).length ∧
      decodeRune (encodeRune r ++ u) ≠ (runeError, 1) := by
  unfold encodeRune
  by_cases c1 : r < 128
  · have v0 : (Byte.ofNat r).val = r := val_ofNat_of_lt _ (by omega)
    simp only [if_pos c1, List.singleton_append, List.length_singleton]
    rw [decodeRune_ascii _ _ (by omega), v0]
    refine ⟨rfl, ?_⟩
    intro h
    simp only [Prod.mk.injEq, runeError] at h
    omega
  simp only [if_neg c1]
  by_cases c2 : r < 2048
  · have v0 : (Byte.ofNat (192 + r / 64)).val = 192 + r / 64 := val_ofNat_of_lt _ (by omega)
    have v1 : (Byte.ofNat (128 + r % 64)).val = 128 + r % 64 := val_ofNat_of_lt _ (by omega)
    have hl : leadInfo (192 + r / 64) = some (2, 128, 191) := by
      unfold leadInfo; rw [if_pos (by omega)]
    have n0 : ¬ (192 + r / 64 < 128) := by omega
    have n1 : ¬ (128 + r % 64 < 128 ∨ 191 < 128 + r % 64) := by omega
    simp only [if_pos c2, List.cons_append, List.nil_append, decodeRune, v0, v1, hl, if_neg n0,
      if_neg n1, Nat.le_refl, if_true, List.length_cons, List.length_nil]
    refine ⟨by simp, by simp⟩
  simp only [if_neg c2]
  have hff : decodeRune ((239 : Byte) :: 191 :: 189 :: u) = (65533, 3) := by
    simp +decide [decodeRune, leadInfo]
  by_cases c3 : 1114111 < r ∨ (55296 ≤ r ∧ r ≤ 57343)
  · simp only [if_pos c3, List.cons_append, List.nil_append, hff, List.length_cons,
      List.length_nil]
    refine ⟨by simp, by simp⟩
  simp only [if_neg c3]
  by_cases c4 : r < 65536
  · have v0 : (Byte.ofNat (224 + r / 4096)).val = 224 + r / 4096 := val_ofNat_of_lt _ (by omega)
    have v1 : (Byte.ofNat (128 + r / 64 % 64)).val = 128 + r / 64 % 64 :=
      val_ofNat_of_lt _ (by omega)
    have v2 : (Byte.ofNat (128 + r % 64)).val = 128 + r % 64 := val_ofNat_of_lt _ (by omega)
    obtain ⟨lo, hi, hl, hlo, hhi⟩ := leadInfo_three r (by omega) c4 (by omega)
    have n0 : ¬ (224 + r / 4096 < 128) := by omega
    have n1 : ¬ (128 + r / 64 % 64 < lo ∨ hi < 128 + r / 64 % 64) := by omega
    have n2 : ¬ (128 + r % 64 < 128 ∨ 191 < 128 + r % 64) := by omega
    have n3 : ¬ (3 ≤ 2) := by omega
    simp only [if_pos c4, List.cons_append, List.nil_append, decodeRune, v0, v1, v2, hl,
      if_neg n0, if_neg n1, if_neg n2, if_neg n3, Nat.le_refl, if_true, List.length_cons,
      List.length_nil]
    refine ⟨by simp, by simp⟩
  · have v0 : (Byte.ofNat (240 + r / 262144)).val = 240 + r / 262144 :=
      val_ofNat_of_lt _ (by omega)
    have v1 : (Byte.ofNat (128 + r / 4096 % 64)).val = 128 + r / 4096 % 64 :=
      val_ofNat_of_lt _ (by omega)
    have v2 : (Byte.ofNat (128 + r / 64 % 64)).val = 128 + r / 64 % 64 :=
      val_ofNat_of_lt _ (by omega)
    have v3 : (Byte.ofNat (128 + r % 64)).val = 128 + r % 64 := val_ofNat_of_lt _ (by omega)
    obtain ⟨lo, hi, hl, hlo, hhi⟩ := leadInfo_four r (by omega) (by omega)
    have n0 : ¬ (240 + r / 262144 < 128) := by omega
    have n1 : ¬ (128 + r / 4096 % 64 < lo ∨ hi < 128 + r / 4096 % 64) := by omega
    have n2 : ¬ (128 + r / 64 % 64 < 128 ∨ 191 < 128 + r / 64 % 64) := by omega
    have n3 : ¬ (128 + r % 64 < 128 ∨ 191 < 128 + r % 64) := by omega
    have n4 : ¬ (4 ≤ 2) := by omega
    have n5 : ¬ (4 ≤ 3) := by omega
    simp only [if_neg c4, List.cons_append, List.nil_append, decodeRune, v0, v1, v2, v3, hl,
      if_neg n0, if_neg n1, if_neg n2, if_neg n3, if_neg n4, if_neg n5, List.length_cons,
      List.length_nil]
    refine ⟨by simp, by simp⟩

theorem encodeRune_ne_nil (r : Nat) : encodeRune r ≠ [] := by
  unfold encodeRune
  split_ifs <;> simp

theorem utf8ValidFrom_encodeRune (r : Nat) (u : List Byte) :
    utf8ValidFrom (encodeRune r ++ u) 0 = utf8ValidFrom u 0 := by
  obtain ⟨hsz, hne⟩ := decodeRune_encodeRune r u
  cases he : encodeRune r with
  | nil => exact absurd he (encodeRune_ne_nil r)
  | cons b t =>
    rw [he] at hsz hne
    rw [List.cons_append] at hsz hne ⊢
    rw [utf8ValidFrom_cons]
    have hsz1 : (decodeRune (b :: (t ++ u))).2 = t.length + 1 := by rw [hsz]; rfl
    have hn : ¬ ((decodeRune (b :: (t ++ u))).1 = runeError ∧
        (decodeRune (b :: (t ++ u))).2 = 1) := fun h => hne (Prod.ext h.1 h.2)
    simp only [hn, decide_False, Bool.not_false, Bool.true_and]
    rw [hsz1, Nat.add_sub_cancel, utf8ValidFrom_skip]

theorem utf8Valid_encodeRune (r : Nat) : utf8Valid (encodeRune r) = true := by
  have := utf8ValidFrom_encodeRune r []
  simp only [List.append_nil] at this
  unfold utf8Valid
  rw [this]; rfl

theorem utf8Valid_ascii (b : Byte) (h : b.val < 128) : utf8Valid [b] = true := by
  rw [← encodeRune_ascii b h]; exact utf8Valid_encodeRune _

/-- The coercion yields valid UTF-8. -/
theorem utf8Valid_coerce_aux (n : Nat) (s : List Byte) (skip : Nat) (hn : s.length ≤ n) :
    utf8ValidFrom (coerceFrom s skip) 0 = true := by
  induction n generalizing s skip with
  | zero =>
    have : s = [] := List.eq_nil_of_length_eq_zero (by omega)
    subst this; rfl
  | succ n ih =>
    cases s with
    | nil => rfl
    | cons b t =>
      simp only [List.length_cons] at hn
      cases skip with
      | succ k => exact ih t k (by omega)
      | zero =>
        rw [coerceFrom_cons, utf8ValidFrom_encodeRune]
        exact ih t _ (by omega)

theorem utf8Valid_coerceUTF8 (s : GoString) : utf8Valid (coerceUTF8 s) = true :=
  utf8Valid_coerce_aux s.length s 0 (Nat.le_refl _)

theorem coerceUTF8_idem (s : GoString) : coerceUTF8 (coerceUTF8 s) = coerceUTF8 s :=
  coerceUTF8_of_valid _ (utf8Valid_coerceUTF8 s)

/-! ## JSON strings: reading back what was written -/

theorem hexVal_hexDigit (d : Nat) (h : d < 16) : hexVal? (hexDigit d) = some d := by
  interval_cases d <;> rfl

theorem unquoteBody_skip (pre rest acc : List Byte) :
    unquoteBody (pre ++ rest) acc pre.length = unquoteBody rest acc 0 := by
  induction pre with
  | nil => rfl
  | cons b t ih =>
    rw [List.cons_append, List.length_cons, unquoteBody.eq_def]
    exact ih

theorem unquoteBody_quote (rest acc : List Byte) :
    unquoteBody (ch '"' :: rest) acc 0 = some (acc.reverse, rest) := by
  rw [unquoteBody.eq_def]; simp

theorem unquoteBody_plain (c : Byte) (rest acc : List Byte) (h1 : c ≠ ch '"') (h2 : c ≠ ch '\\')
    (h3 : ¬ c.val < 32) (h4 : c.val < 128) :
    unquoteBody (c :: rest) acc 0 = unquoteBody rest (c :: acc) 0 := by
  rw [unquoteBody.eq_def]; simp [h1, h2, h3, h4]

theorem unquoteBody_simpleEscape (e b : Byte) (rest acc : List Byte)
    (h : simpleEscape? e = some b) (hu : e ≠ ch 'u') :
    unquoteBody (ch '\\' :: e :: rest) acc 0 = unquoteBody rest (b :: acc) 0 := by
  rw [unquoteBody.eq_def]; simp +decide [h, hu]

theorem unquoteBody_u4 (a b c d : Byte) (r : Nat) (rest acc : List Byte)
    (h : hex4? a b c d = some r) (hr : ¬ (55296 ≤ r ∧ r < 57344)) :
    unquoteBody (ch '\\' :: ch 'u' :: a :: b :: c :: d :: rest) acc 0 =
      unquoteBody rest ((encodeRune r).reverse ++ acc) 0 := by
  rw [unquoteBody.eq_def]; simp +decide [h, hr]

theorem unquoteBody_raw (c : Byte) (rest acc : List Byte) (h : 128 ≤ c.val) :
    unquoteBody (c :: rest) acc 0 =
      unquoteBody rest ((encodeRune (decodeRune (c :: rest)).1).reverse ++ acc)
        ((decodeRune (c :: rest)).2 - 1) := by
  have h1 : c ≠ ch '"' := by
    intro e; rw [e] at h; exact absurd h (by decide)
  have h2 : c ≠ ch '\\' := by
    intro e; rw [e] at h; exact absurd h (by decide)
  have h3 : ¬ c.val < 32 := by omega
  have h4 : ¬ c.val < 128 := by omega
  rw [unquoteBody.eq_def]; simp [h1, h2, h3, h4]

theorem htmlSafe_spec (b : Byte) (h : htmlSafe b = true) :
    32 ≤ b.val ∧ b ≠ ch '"' ∧ b ≠ ch '\\' := by
  simp only [htmlSafe, Bool.and_eq_true, decide_eq_true_eq, bne_iff_ne, ne_eq] at h
  exact ⟨h.1.1.1.1.1, h.1.1.1.1.2, h.2⟩

theorem not_htmlSafe_spec (b : Byte) (h : htmlSafe b = false) (h1 : b ≠ ch '"')
    (h2 : b ≠ ch '\\') : b.val < 32 ∨ b = ch '&' ∨ b = ch '<' ∨ b = ch '>' := by
  by_contra hc
  simp only [not_or] at hc
  have : htmlSafe b = true := by
    simp only [htmlSafe, Bool.and_eq_true, decide_eq_true_eq, bne_iff_ne, ne_eq]
    exact ⟨⟨⟨⟨⟨by omega, h1⟩, hc.2.1⟩, hc.2.2.1⟩, hc.2.2.2⟩, h2⟩
  rw [this] at h; exact Bool.noConfusion h

theorem unquoteBody_escapeAscii (b : Byte) (rest acc : List Byte) (hb : b.val < 128) :
    unquoteBody (escapeAscii b ++ rest) acc 0 = unquoteBody rest (b :: acc) 0 := by
  unfold escapeAscii
  by_cases hs : htmlSafe b = true
  · obtain ⟨h3, h1, h2⟩ := htmlSafe_spec b hs
    simp only [hs, if_true, List.singleton_append]
    exact unquoteBody_plain b rest acc h1 h2 (by omega) hb
  have hs' : htmlSafe b = false := by simpa using hs
  simp only [hs', Bool.false_eq_true, if_false]
  by_cases h1 : b = ch '\\' ∨ b = ch '"'
  · rw [if_pos h1]
    rcases h1 with h | h <;> subst h <;>
      exact unquoteBody_simpleEscape _ _ _ _ (by decide) (by decide)
  rw [if_neg h1]
  simp only [not_or] at h1
  by_cases h3 : b = ch '\x08'
  · subst h3; exact unquoteBody_simpleEscape (ch 'b') _ _ _ (by decide) (by decide)
  by_cases h4 : b = ch '\x0c'
  · subst h4; exact unquoteBody_simpleEscape (ch 'f') _ _ _ (by decide) (by decide)
  by_cases h5 : b = ch '\n'
  · subst h5; exact unquoteBody_simpleEscape (ch 'n') _ _ _ (by decide) (by decide)
  by_cases h6 : b = ch '\r'
  · subst h6; exact unquoteBody_simpleEscape (ch 'r') _ _ _ (by decide) (by decide)
  by_cases h7 : b = ch '\t'
  · subst h7; exact unquoteBody_simpleEscape (ch 't') _ _ _ (by decide) (by decide)
  simp only [if_neg h3, if_neg h4, if_neg h5, if_neg h6, if_neg h7, List.cons_append,
    List.nil_append]
  have hx : hex4? (ch '0') (ch '0') (hexDigit (b.val / 16)) (hexDigit (b.val % 16)) =
      some b.val := by
    have a1 := hexVal_hexDigit (b.val / 16) (by omega)
    have a2 := hexVal_hexDigit (b.val % 16) (by omega)
    have a0 : hexVal? (ch '0') = some 0 := rfl
    simp only [hex4?, a0, a1, a2]
    congr 1
    omega
  rw [unquoteBody_u4 _ _ _ _ _ _ _ hx (by omega), encodeRune_ascii b hb]
  rfl

theorem escapeBytes_zero_keep (s : List Byte) (keep : Bool) :
    escapeBytes s 0 keep = escapeBytes s 0 true := by
  cases s with
  | nil => rfl
  | cons b t => rw [escapeBytes.eq_def, escapeBytes.eq_def (b :: t) 0 true]

theorem escapeBytes_keep (pre rest : List Byte) :
    escapeBytes (pre ++ rest) pre.length true = pre ++ escapeBytes rest 0 true := by
  induction pre with
  | nil => rfl
  | cons b t ih =>
    rw [List.cons_append, List.length_cons, escapeBytes.eq_def]
    simp only [if_true, List.cons_append]
    rw [ih]

theorem escapeBytes_drop (pre rest : List Byte) :
    escapeBytes (pre ++ rest) pre.length false = escapeBytes rest 0 true := by
  induction pre with
  | nil => exact escapeBytes_zero_keep rest false
  | cons b t ih =>
    rw [List.cons_append, List.length_cons, escapeBytes.eq_def]
    simp only [Bool.false_eq_true, if_false]
    rw [ih]

theorem escapeBytes_cons (b : Byte) (t : List Byte) :
    escapeBytes (b :: t) 0 true =
      if b.val < 128 then escapeAscii b ++ escapeBytes t 0 true
      else if (decodeRune (b :: t)).1 = runeError ∧ (decodeRune (b :: t)).2 = 1 then
        utf8 "\\ufffd" ++ escapeBytes t 0 true
      else if (decodeRune (b :: t)).1 = 8232 ∨ (decodeRune (b :: t)).1 = 8233 then
        utf8 "\\u202" ++ hexDigit ((decodeRune (b :: t)).1 % 16) ::
          escapeBytes t ((decodeRune (b :: t)).2 - 1) false
      else b :: escapeBytes t ((decodeRune (b :: t)).2 - 1) true := by
  rw [escapeBytes.eq_def]

/-- Reading back an escaped string gives the string coerced to valid UTF-8. -/
theorem unquoteBody_escapeBytes_aux (n : Nat) (s rest acc : List Byte) (hn : s.length ≤ n) :
    unquoteBody (escapeBytes s 0 true ++ ch '"' :: rest) acc 0 =
      some (acc.reverse ++ coerceFrom s 0, rest) := by
  induction n generalizing s acc with
  | zero =>
    have : s = [] := List.eq_nil_of_length_eq_zero (by omega)
    subst this
    simp [escapeBytes, coerceFrom, unquoteBody_quote]
  | succ n ih =>
    cases s with
    | nil => simp [escapeBytes, coerceFrom, unquoteBody_quote]
    | cons b t =>
      simp only [List.length_cons] at hn
      rw [escapeBytes_cons, coerceFrom_cons]
      rcases rune_cases b t with ⟨hb, hd⟩ | ⟨hb, hd⟩ | ⟨hb, hv, pre, rs, ht, hp, hsz, henc, hr, hind⟩
      · rw [if_pos hb, List.append_assoc, unquoteBody_escapeAscii b _ _ hb, ih t _ (by omega), hd]
        simp [encodeRune_ascii b hb]
      · have hnb : ¬ b.val < 128 := by omega
        have hx : hex4? (ch 'f') (ch 'f') (ch 'f') (ch 'd') = some 65533 := by decide
        have hu : utf8 "\\ufffd" = [ch '\\', ch 'u', ch 'f', ch 'f', ch 'f', ch 'd'] := by decide
        rw [if_neg hnb, hd, if_pos ⟨rfl, rfl⟩, hu]
        simp only [List.cons_append, List.nil_append]
        rw [unquoteBody_u4 _ _ _ _ _ _ _ hx (by omega), ih t _ (by omega)]
        simp [runeError]
      · have hnb : ¬ b.val < 128 := by omega
        have hne : ¬ ((decodeRune (b :: t)).1 = runeError ∧ (decodeRune (b :: t)).2 = 1) :=
          fun h => hv (Prod.ext h.1 h.2)
        have hlen : rs.length ≤ n := by rw [ht, List.length_append] at hn; omega
        rw [if_neg hnb, if_neg hne, hsz, Nat.add_sub_cancel]
        by_cases hls : (decodeRune (b :: t)).1 = 8232 ∨ (decodeRune (b :: t)).1 = 8233
        · have hu : utf8 "\\u202" = [ch '\\', ch 'u', ch '2', ch '0', ch '2'] := by decide
          have hx : hex4? (ch '2') (ch '0') (ch '2') (hexDigit ((decodeRune (b :: t)).1 % 16)) =
              some (decodeRune (b :: t)).1 := by
            rcases hls with h | h <;> rw [h] <;> decide
          rw [if_pos hls, hu]
          simp only [List.cons_append, List.nil_append]
          rw [unquoteBody_u4 _ _ _ _ _ _ _ hx (by omega)]
          conv_lhs => rw [ht, escapeBytes_drop]
          rw [ih rs _ hlen]
          conv_rhs => rw [ht, coerceFrom_skip]
          simp
        · rw [if_neg hls]
          conv_lhs => rw [ht, escapeBytes_keep]
          rw [List.cons_append, List.append_assoc, unquoteBody_raw _ _ _ hb, hind, hsz,
            Nat.add_sub_cancel, unquoteBody_skip, ih rs _ hlen]
          conv_rhs => rw [ht, coerceFrom_skip]
          simp [ht]

theorem unquoteBody_escapeBytes (s rest acc : List Byte) :
    unquoteBody (escapeBytes s 0 true ++ ch '"' :: rest) acc 0 =
      some (acc.reverse ++ coerceUTF8 s, rest) :=
  unquoteBody_escapeBytes_aux s.length s rest acc (Nat.le_refl _)

theorem quote_append (s : GoString) (rest : List Byte) :
    quote s ++ rest = ch '"' :: (escapeBytes s 0 true ++ ch '"' :: rest) := by
  simp [quote]

/-! ## JSON strings: what is read is valid UTF-8 -/

theorem simpleEscape_ascii (e b : Byte) (h : simpleEscape? e = some b) : b.val < 128 := by
  unfold simpleEscape? at h
  split_ifs at h <;> first
    | exact Option.noConfusion h
    | (simp only [Option.some.injEq] at h; subst h; decide)

theorem valid_push_ascii (acc : List Byte) (b : Byte) (hb : b.val < 128)
    (hacc : utf8Valid acc.reverse = true) : utf8Valid (b :: acc).reverse = true := by
  rw [List.reverse_cons]
  exact utf8Valid_append _ _ hacc (utf8Valid_ascii b hb)

theorem valid_push_rune (acc : List Byte) (r : Nat) (hacc : utf8Valid acc.reverse = true) :
    utf8Valid ((encodeRune r).reverse ++ acc).reverse = true := by
  rw [List.reverse_append, List.reverse_reverse]
  exact utf8Valid_append _ _ hacc (utf8Valid_encodeRune r)

theorem unquoteBody_valid_aux (n : Nat) (s acc : List Byte) (skip : Nat) (out rest : List Byte)
    (hn : s.length ≤ n) (hacc : utf8Valid acc.reverse = true)
    (h : unquoteBody s acc skip = some (out, rest)) : utf8Valid out = true := by
  induction n generalizing s acc skip with
  | zero =>
    have : s = [] := List.eq_nil_of_length_eq_zero (by omega)
    subst this
    rw [unquoteBody.eq_def] at h
    exact Option.noConfusion h
  | succ n ih =>
    cases s with
    | nil =>
      rw [unquoteBody.eq_def] at h
      exact Option.noConfusion h
    | cons c t =>
      simp only [List.length_cons] at hn
      cases skip with
      | succ k =>
        rw [unquoteBody.eq_def] at h
        exact ih t acc k (by omega) hacc h
      | zero =>
        rw [unquoteBody.eq_def] at h
        simp only at h
        split_ifs at h with h1 h2 h3 h4
        · simp only [Option.some.injEq, Prod.mk.injEq] at h
          rw [← h.1]; exact hacc
        · split at h
          · exact Option.noConfusion h
          · rename_i e t1
            simp only [List.length_cons] at hn
            split_ifs at h with h5
            · split at h
              · rename_i a1 a2 a3 a4 t2
                simp only [List.length_cons] at hn
                split at h
                · exact Option.noConfusion h
                · split_ifs at h with h6
                  · split at h
                    · exact ih t2 _ _ (by omega) (valid_push_rune acc _ hacc) h
                    · exact ih t2 _ _ (by omega) (valid_push_rune acc _ hacc) h
                  · exact ih t2 _ _ (by omega) (valid_push_rune acc _ hacc) h
              · exact Option.noConfusion h
            · split at h
              · rename_i b hb
                exact ih t1 _ _ (by omega) (valid_push_ascii acc b (simpleEscape_ascii _ _ hb) hacc) h
              · exact Option.noConfusion h
        · exact ih t _ _ (by omega) (valid_push_ascii acc c h4 hacc) h
        · exact ih t _ _ (by omega) (valid_push_rune acc _ hacc) h

/-- A string read by `unquoteBody` is valid UTF-8. -/
theorem unquoteBody_valid (s out rest : List Byte)
    (h : unquoteBody s [] 0 = some (out, rest)) : utf8Valid out = true :=
  unquoteBody_valid_aux s.length s [] 0 out rest (Nat.le_refl _) rfl h

/-! ## Decimal digits: reading back what was written -/

theorem decDigit_digitChar (d : Nat) (h : d < 10) : decDigit? (Byte.ofNat (48 + d)) = some d := by
  unfold decDigit?
  rw [val_ofNat_of_lt _ (by omega), if_pos (by omega)]
  simp

theorem allDigits_natDigitsAux (fuel n : Nat) : AllDigits (natDigitsAux fuel n) := by
  induction fuel generalizing n with
  | zero => intro c hc; simp [natDigitsAux] at hc
  | succ fuel ih =>
    intro c hc
    unfold natDigitsAux at hc
    by_cases h : n < 10
    · simp only [if_pos h, List.mem_singleton] at hc
      subst hc
      rw [decDigit_digitChar n h]; rfl
    · simp only [if_neg h, List.mem_append, List.mem_singleton] at hc
      rcases hc with hc | hc
      · exact ih _ c hc
      · subst hc
        rw [decDigit_digitChar _ (Nat.mod_lt _ (by decide))]; rfl

theorem digitsVal_append (l1 l2 : List Byte) (acc : Nat) :
    digitsVal (l1 ++ l2) acc = (digitsVal l1 acc).bind (digitsVal l2) := by
  induction l1 generalizing acc with
  | nil => rfl
  | cons c l ih =>
    simp only [List.cons_append, digitsVal]
    cases decDigit? c with
    | none => rfl
    | some v => exact ih _

theorem digitsVal_natDigitsAux (fuel n : Nat) (h : n < fuel) :
    digitsVal (natDigitsAux fuel n) 0 = some n := by
  induction fuel generalizing n with
  | zero => omega
  | succ fuel ih =>
    unfold natDigitsAux
    by_cases h10 : n < 10
    · simp [if_pos h10, digitsVal, decDigit_digitChar n h10]
    · simp only [if_neg h10]
      rw [digitsVal_append, ih (n / 10) (by omega)]
      simp only [Option.bind, digitsVal, decDigit_digitChar _ (Nat.mod_lt n (by decide : 0 < 10))]
      congr 1
      omega

theorem digitsVal_natDigits (n : Nat) : digitsVal (natDigits n) 0 = some n :=
  digitsVal_natDigitsAux (n + 1) n (Nat.lt_succ_self n)

/-- The first digit written for a positive number is not `0`. -/
theorem natDigitsAux_head (fuel n : Nat) (h : n < fuel) (hpos : 0 < n) :
    ∃ c t v, natDigitsAux fuel n = c :: t ∧ decDigit? c = some v ∧ 0 < v ∧ AllDigits t := by
  induction fuel generalizing n with
  | zero => omega
  | succ fuel ih =>
    unfold natDigitsAux
    by_cases h10 : n < 10
    · refine ⟨Byte.ofNat (48 + n), [], n, by simp [h10], decDigit_digitChar n h10, hpos, ?_⟩
      intro c hc; simp at hc
    · obtain ⟨c, t, v, he, hv, hv0, ht⟩ := ih (n / 10) (by omega) (by omega)
      refine ⟨c, t ++ [Byte.ofNat (48 + n % 10)], v, by simp [h10, he], hv, hv0, ?_⟩
      intro x hx
      simp only [List.mem_append, List.mem_singleton] at hx
      rcases hx with hx | hx
      · exact ht x hx
      · subst hx
        rw [decDigit_digitChar _ (Nat.mod_lt _ (by decide))]; rfl

theorem natDigits_zero : natDigits 0 = [ch '0'] := rfl

theorem isNumChar_of_digit (c : Byte) (h : (decDigit? c).isSome = true) : isNumChar c = true := by
  simp [isNumChar, h]

theorem spanNum_append (ds rest : List Byte) (h : ∀ c ∈ ds, isNumChar c = true)
    (hr : ∀ c r, rest = c :: r → isNumChar c = false) : spanNum (ds ++ rest) = (ds, rest) := by
  induction ds with
  | nil =>
    cases rest with
    | nil => rfl
    | cons c r => simp [spanNum, hr c r rfl]
  | cons c t ih =>
    have hc := h c (List.mem_cons_self _ _)
    have ht := ih (fun x hx => h x (List.mem_cons_of_mem _ hx))
    simp [spanNum, hc, ht]

theorem jsonNumberScan_digits (ds rest : List Byte) (h : AllDigits ds) :
    jsonNumberScan (ds ++ rest) 3 = jsonNumberScan rest 3 := by
  induction ds with
  | nil => rfl
  | cons c t ih =>
    have hc := h c (List.mem_cons_self _ _)
    have ht := ih (fun x hx => h x (List.mem_cons_of_mem _ hx))
    simp only [List.cons_append, jsonNumberScan, jsonNumberStep]
    simp [hc, ht]

theorem digit_ne_of_pos (c : Byte) (v : Nat) (h : decDigit? c = some v) (hv : 0 < v) :
    c ≠ (ch '0') ∧ c ≠ (ch '-') := by
  constructor
  · intro hc; subst hc
    have : decDigit? (ch '0') = some 0 := rfl
    rw [this] at h; simp at h; omega
  · intro hc; subst hc
    have : decDigit? (ch '-') = none := rfl
    rw [this] at h; simp at h

theorem isJsonNumber_natDigits_from (n : Nat) (st : Nat) (hst : st = 0 ∨ st = 1) :
    jsonNumberScan (natDigits n) st = true := by
  by_cases hn : n = 0
  · subst hn
    rcases hst with h | h <;> subst h <;> rfl
  · obtain ⟨c, t, v, he, hv, hv0, ht⟩ := natDigitsAux_head (n + 1) n (Nat.lt_succ_self n) (by omega)
    have hne := digit_ne_of_pos c v hv hv0
    have hd : (decDigit? c).isSome = true := by rw [hv]; rfl
    have h3 : jsonNumberScan t 3 = true := by
      have := jsonNumberScan_digits t [] ht
      simp only [List.append_nil] at this
      rw [this]; rfl
    unfold natDigits
    rw [he]
    rcases hst with h | h <;> subst h <;>
      simp [jsonNumberScan, jsonNumberStep, hne.1, hne.2, hd, h3]

theorem isJsonNumber_intDigits (i : Int) : isJsonNumber (intDigits i) = true := by
  unfold isJsonNumber intDigits
  by_cases h : i < 0
  · simp only [if_pos h, jsonNumberScan, jsonNumberStep]
    simp [isJsonNumber_natDigits_from i.natAbs 1 (Or.inr rfl)]
  · simp only [if_neg h]
    exact isJsonNumber_natDigits_from i.natAbs 0 (Or.inl rfl)

theorem natDigits_ne_nil (n : Nat) : natDigits n ≠ [] := by
  by_cases hn : n = 0
  · subst hn; simp [natDigits_zero]
  · obtain ⟨c, t, v, he, _⟩ := natDigitsAux_head (n + 1) n (Nat.lt_succ_self n) (by omega)
    unfold natDigits; rw [he]; simp

theorem natDigits_head_ne_minus (n : Nat) : ∀ c t, natDigits n = c :: t → c ≠ (ch '-') := by
  intro c t h
  have hall := allDigits_natDigitsAux (n + 1) n c (by
    show c ∈ natDigits n
    rw [h]; exact List.mem_cons_self _ _)
  intro hc; subst hc
  have : decDigit? (ch '-') = none := rfl
  rw [this] at hall; simp at hall

theorem parseIntToken_intDigits (i : GoInt) : parseIntToken (intDigits i.val) = some i := by
  unfold intDigits
  have hof : GoInt.ofInt? i.val = some i := by
    unfold GoInt.ofInt?
    rw [dif_pos ⟨i.lo, i.hi⟩]
  by_cases h : i.val < 0
  · simp only [if_pos h, parseIntToken, if_true]
    have hne := natDigits_ne_nil i.val.natAbs
    cases hd : natDigits i.val.natAbs with
    | nil => exact absurd hd hne
    | cons c t =>
      simp only
      rw [← hd, digitsVal_natDigits]
      simp only [Option.bind]
      have : -(i.val.natAbs : Int) = i.val := by omega
      rw [this, hof]
  · simp only [if_neg h]
    have hne := natDigits_ne_nil i.val.natAbs
    cases hd : natDigits i.val.natAbs with
    | nil => exact absurd hd hne
    | cons c t =>
      have hm := natDigits_head_ne_minus _ c t hd
      simp only [parseIntToken, if_neg hm]
      rw [← hd, digitsVal_natDigits]
      simp only [Option.bind]
      have : (i.val.natAbs : Int) = i.val := by omega
      rw [this, hof]

theorem isNumChar_intDigits (i : Int) : ∀ c ∈ intDigits i, isNumChar c = true := by
  intro c hc
  unfold intDigits at hc
  by_cases h : i < 0
  · simp only [if_pos h, List.mem_cons] at hc
    rcases hc with hc | hc
    · subst hc; rfl
    · exact isNumChar_of_digit c (allDigits_natDigitsAux _ _ c hc)
  · simp only [if_neg h] at hc
    exact isNumChar_of_digit c (allDigits_natDigitsAux _ _ c hc)

theorem scanNumber_intDigits (i : Int) (d : Byte) (rest : List Byte) (hd : isNumChar d = false) :
    scanNumber (intDigits i ++ d :: rest) = some (intDigits i, d :: rest) := by
  unfold scanNumber
  rw [spanNum_append _ _ (isNumChar_intDigits i) (by
    intro c r h; simp only [List.cons.injEq] at h; rw [← h.1]; exact hd)]
  simp [isJsonNumber_intDigits]

/-! ## Binary64: rounding a representable value is exact -/

namespace F64

theorem bitLenAux_zero (fuel : Nat) : bitLenAux fuel 0 = 0 := by
  cases fuel <;> simp [bitLenAux]

theorem bitLenAux_spec (fuel n : Nat) (h : n ≤ fuel) (hn : 0 < n) :
    0 < bitLenAux fuel n ∧ 2 ^ (bitLenAux fuel n - 1) ≤ n ∧ n < 2 ^ bitLenAux fuel n := by
  induction fuel generalizing n with
  | zero => omega
  | succ fuel ih =>
    have hne : n ≠ 0 := by omega
    simp only [bitLenAux, if_neg hne]
    by_cases h1 : n / 2 = 0
    · have hn1 : n = 1 := by omega
      subst hn1
      simp [bitLenAux_zero]
    · obtain ⟨hb, hlo, hhi⟩ := ih (n / 2) (by omega) (by omega)
      generalize bitLenAux fuel (n / 2) = b at hb hlo hhi
      obtain ⟨c, rfl⟩ : ∃ c, b = c + 1 := ⟨b - 1, by omega⟩
      simp only [Nat.add_sub_cancel] at hlo ⊢
      have e1 : 2 ^ (c + 1) = 2 * 2 ^ c := by rw [pow_succ]; ring
      have e2 : 2 ^ (c + 1 + 1) = 2 * 2 ^ (c + 1) := by rw [pow_succ]; ring
      refine ⟨by omega, ?_, ?_⟩
      · rw [e1]; omega
      · rw [e2]; omega

theorem bitLen_spec (n : Nat) (hn : 0 < n) :
    0 < bitLen n ∧ 2 ^ (bitLen n - 1) ≤ n ∧ n < 2 ^ bitLen n :=
  bitLenAux_spec n n (Nat.le_refl n) hn

theorem bitLen_unique (n b : Nat) (hb : 0 < b) (h1 : 2 ^ (b - 1) ≤ n) (h2 : n < 2 ^ b) :
    bitLen n = b := by
  have hn : 0 < n := Nat.lt_of_lt_of_le (Nat.pow_pos (by decide)) h1
  obtain ⟨hB, hlo, hhi⟩ := bitLen_spec n hn
  generalize bitLen n = B at hB hlo hhi
  by_contra hne
  rcases Nat.lt_or_gt_of_ne hne with hlt | hgt
  · have : 2 ^ B ≤ 2 ^ (b - 1) := Nat.pow_le_pow_right (by decide) (by omega)
    omega
  · have : 2 ^ b ≤ 2 ^ (B - 1) := Nat.pow_le_pow_right (by decide) (by omega)
    omega

theorem bitLen_mul_pow (m k : Nat) (hm : 0 < m) : bitLen (m * 2 ^ k) = bitLen m + k := by
  obtain ⟨hB, hlo, hhi⟩ := bitLen_spec m hm
  apply bitLen_unique
  · omega
  · have : bitLen m + k - 1 = (bitLen m - 1) + k := by omega
    rw [this, pow_add]
    exact Nat.mul_le_mul_right _ hlo
  · rw [pow_add]
    exact Nat.mul_lt_mul_of_lt_of_le hhi (Nat.le_refl _) (Nat.pow_pos (by decide))

theorem round_exact (s : Bool) (n d m E : Nat) (hd : 0 < d) (hm : 0 < m)
    (hm53 : m < 9007199254740992) (hE1 : 1 ≤ E) (hE : E ≤ 2046)
    (hnorm : 4503599627370496 ≤ m ∨ E = 1)
    (hex : n * 2 ^ 1074 = m * d * 2 ^ (E - 1)) :
    round s n d =
      if m < 4503599627370496 then ofFields s 0 m else ofFields s E (m - 4503599627370496) := by
  have hn : n ≠ 0 := by
    intro h0
    rw [h0, Nat.zero_mul] at hex
    have : 0 < m * d * 2 ^ (E - 1) := Nat.mul_pos (Nat.mul_pos hm hd) (Nat.pow_pos (by decide))
    omega
  have hdiv : n * 2 ^ 1074 / d = m * 2 ^ (E - 1) := by
    rw [hex, Nat.mul_right_comm, Nat.mul_div_cancel _ hd]
  have hbm : bitLen m ≤ 53 ∧ (4503599627370496 ≤ m → bitLen m = 53) := by
    obtain ⟨hB, hlo, hhi⟩ := bitLen_spec m hm
    constructor
    · by_contra hc
      have : 2 ^ 53 ≤ 2 ^ (bitLen m - 1) := Nat.pow_le_pow_right (by decide) (by omega)
      have e : (2:Nat) ^ 53 = 9007199254740992 := by norm_num
      omega
    · intro h52
      exact bitLen_unique m 53 (by decide) (by norm_num; exact h52) (by norm_num; exact hm53)
  have hsh : bitLen (n * 2 ^ 1074 / d) - 53 = E - 1 := by
    rw [hdiv, bitLen_mul_pow m _ hm]
    rcases hnorm with h | h
    · rw [hbm.2 h]; omega
    · subst h; have := hbm.1; omega
  have hden : 0 < d * 2 ^ (E - 1) := Nat.mul_pos hd (Nat.pow_pos (by decide))
  have hq : n * 2 ^ 1074 / (d * 2 ^ (E - 1)) = m := by
    rw [hex, Nat.mul_assoc, Nat.mul_div_cancel _ hden]
  have hr : n * 2 ^ 1074 % (d * 2 ^ (E - 1)) = 0 := by
    rw [hex, Nat.mul_assoc, Nat.mul_mod_left]
  unfold round
  have hnd : ¬ (n = 0 ∨ d = 0) := by omega
  simp only [if_neg hnd, hsh, hq, hr]
  have hc : ¬ (d * 2 ^ (E - 1) < 2 * 0 ∨ 2 * 0 = d * 2 ^ (E - 1) ∧ m % 2 = 1) := by omega
  have hm' : ¬ m = 9007199254740992 := by omega
  have hov : ¬ 2045 < E - 1 := by omega
  simp only [if_neg hc, if_neg hm', if_neg hov]
  by_cases hs : m < 4503599627370496
  · simp only [if_pos hs]
  · simp only [if_neg hs]
    have : E - 1 + 1 = E := by omega
    rw [this]

theorem ofFields_fields (f : F64) : ofFields f.sign f.expo.val f.frac.val = f := by
  obtain ⟨s, e, m⟩ := f
  simp only [ofFields, Fin.ofNat]
  congr 1
  · apply Fin.ext; simp [Nat.mod_eq_of_lt e.isLt]
  · apply Fin.ext; simp [Nat.mod_eq_of_lt m.isLt]

theorem round_num_den (f : F64) (hfin : f.isFinite = true) (hnz : f.isZero = false)
    (n d : Nat) (hd : 0 < d) (hex : n * 2 ^ 1074 = f.mant * d * 2 ^ (f.bexp - 1)) :
    round f.sign n d = f := by
  have he := f.expo.isLt
  have hm := f.frac.isLt
  have hfin' : f.expo.val ≠ 2047 := by simpa [isFinite] using hfin
  by_cases h0 : f.expo.val = 0
  · have hfr : f.frac.val ≠ 0 := by
      intro h; simp [isZero, h0, h] at hnz
    have hmant : f.mant = f.frac.val := by simp [mant, h0]
    have hb : f.bexp = 1 := by simp [bexp, h0]
    rw [round_exact f.sign n d f.mant 1 hd (by omega) (by omega) (by decide) (by decide)
      (Or.inr rfl) (by rw [hex, hb])]
    rw [if_pos (by omega), hmant]
    have := ofFields_fields f
    rw [h0] at this
    exact this
  · have hmant : f.mant = 4503599627370496 + f.frac.val := by simp [mant, h0]
    have hb : f.bexp = f.expo.val := by simp [bexp, h0]
    rw [round_exact f.sign n d f.mant f.expo.val hd (by omega) (by omega) (by omega) (by omega)
      (Or.inl (by omega)) (by rw [hex, hb])]
    rw [if_neg (by omega), hmant, Nat.add_sub_cancel_left]
    exact ofFields_fields f

end F64

/-! ## `ParseFloat` on an integer with a negative power of ten -/

theorem digit_bounds (c : Byte) (h : (decDigit? c).isSome = true) :
    48 ≤ c.val ∧ c.val ≤ 57 := by
  unfold decDigit? at h
  by_cases hc : 48 ≤ c.val ∧ c.val ≤ 57
  · exact hc
  · simp [if_neg hc] at h

theorem asciiLower_digit (c : Byte) (h : (decDigit? c).isSome = true) : asciiLower c = c := by
  have hb := digit_bounds c h
  unfold asciiLower
  rw [if_neg (by omega)]

theorem digit_ne (c d : Byte) (h : (decDigit? c).isSome = true) (hd : (decDigit? d).isSome = false) :
    c ≠ d := by
  intro e; subst e; rw [h] at hd; exact Bool.noConfusion hd

theorem special_digit (c : Byte) (t : List Byte) (h : (decDigit? c).isSome = true) :
    special (c :: t) = none := by
  have h1 := digit_ne c (ch '+') h rfl
  have h2 := digit_ne c (ch '-') h rfl
  have h3 := digit_ne c (ch 'i') h rfl
  have h4 := digit_ne c (ch 'I') h rfl
  have h5 := digit_ne c (ch 'n') h rfl
  have h6 := digit_ne c (ch 'N') h rfl
  simp [special, h1, h2, h3, h4, h5, h6]

theorem special_minus_digit (c : Byte) (t : List Byte) (h : (decDigit? c).isSome = true) :
    special (ch '-' :: c :: t) = none := by
  have h3 := digit_ne c (ch 'i') h rfl
  have hu : utf8 "infinity" =
      [ch 'i', ch 'n', ch 'f', ch 'i', ch 'n', ch 'i', ch 't', ch 'y'] := by decide
  unfold special
  simp only [hu]
  simp +decide [commonLenIgnoreCase, asciiLower_digit c h, h3]

theorem hasHexMark_of_ne_zero (c : Byte) (t : List Byte) (h : c ≠ (ch '0')) :
    hasHexMark (c :: t) = false := by
  cases t with
  | nil => rfl
  | cons b t2 =>
    cases t2 with
    | nil => rfl
    | cons x t3 => simp [hasHexMark, h]

theorem digitsVal_le (ds : List Byte) (a r : Nat) (h : digitsVal ds a = some r) : a ≤ r := by
  induction ds generalizing a with
  | nil => simp [digitsVal] at h; omega
  | cons c t ih =>
    simp only [digitsVal] at h
    cases hc : decDigit? c with
    | none => simp [hc] at h
    | some v =>
      simp only [hc] at h
      have := ih _ h
      omega

theorem readMant_cons_digit (c : Byte) (s : List Byte) (st : MantState) (v : Nat)
    (hv : decDigit? c = some v) (hno : ¬ (v = 0 ∧ st.nd = 0)) :
    readMant false (c :: s) st =
      readMant false s
        { st with sawdigits := true, nd := st.nd + 1, mantissa := st.mantissa * 10 + v } := by
  have hc : (decDigit? c).isSome = true := by rw [hv]; rfl
  have h1 := digit_ne c (ch '_') hc rfl
  have h2 := digit_ne c (ch '.') hc rfl
  simp only [readMant, if_neg h1, if_neg h2, hv, if_neg hno, Bool.false_eq_true, if_false]

theorem readMant_digits (ds rest : List Byte) (st : MantState) (r : Nat) (hall : AllDigits ds)
    (hnd : 0 < st.nd) (hsaw : st.sawdigits = true) (hval : digitsVal ds st.mantissa = some r) :
    readMant false (ds ++ rest) st =
      readMant false rest { st with nd := st.nd + ds.length, mantissa := r } := by
  induction ds generalizing st with
  | nil =>
    simp only [digitsVal, Option.some.injEq] at hval
    subst hval
    simp
  | cons c t ih =>
    have hc := hall c (List.mem_cons_self _ _)
    have ht : AllDigits t := fun x hx => hall x (List.mem_cons_of_mem _ hx)
    obtain ⟨v, hv⟩ := Option.isSome_iff_exists.mp hc
    simp only [digitsVal, hv] at hval
    rw [List.cons_append, readMant_cons_digit c _ st v hv (by omega),
      ih { st with sawdigits := true, nd := st.nd + 1, mantissa := st.mantissa * 10 + v } ht
        (by simp) rfl hval]
    congr 1
    cases st
    simp only [MantState.mk.injEq, List.length_cons] at hsaw ⊢
    refine ⟨trivial, hsaw.symm, by omega, trivial, trivial, trivial⟩

theorem readMant_nil (st : MantState) : readMant false [] st = (st, []) := rfl

theorem readMant_e (s : List Byte) (st : MantState) :
    readMant false (ch 'e' :: s) st = (st, ch 'e' :: s) := by
  simp +decide [readMant, decDigit?]

/-- The state of `readFloat` after a run of decimal digits that starts with a non-zero digit. -/
theorem readMant_natDigits (M : Nat) (hM : 0 < M) (rest : List Byte) :
    readMant false (natDigits M ++ rest) {} =
      readMant false rest
        { sawdigits := true, nd := (natDigits M).length, mantissa := M } := by
  obtain ⟨c, t, v, he, hv, hv0, ht⟩ := natDigitsAux_head (M + 1) M (Nat.lt_succ_self M) hM
  have hval := digitsVal_natDigits M
  unfold natDigits at hval ⊢
  rw [he] at hval ⊢
  simp only [digitsVal, hv, Nat.zero_mul, Nat.zero_add] at hval
  rw [List.cons_append, readMant_cons_digit c _ {} v hv (by omega),
    readMant_digits t rest _ M ht (by simp) rfl (by simpa using hval)]
  congr 1
  simp only [MantState.mk.injEq, List.length_cons]
  refine ⟨trivial, trivial, by omega, trivial, trivial, trivial⟩

theorem readExpDigits_digits (ds : List Byte) (e r : Nat) (u : Bool) (hall : AllDigits ds)
    (hval : digitsVal ds e = some r) (hr : r < 10000) :
    readExpDigits ds e u = (r, u, []) := by
  induction ds generalizing e with
  | nil =>
    simp only [digitsVal, Option.some.injEq] at hval
    subst hval; rfl
  | cons c t ih =>
    have hc := hall c (List.mem_cons_self _ _)
    have ht : AllDigits t := fun x hx => hall x (List.mem_cons_of_mem _ hx)
    have h1 := digit_ne c (ch '_') hc rfl
    obtain ⟨v, hv⟩ := Option.isSome_iff_exists.mp hc
    simp only [digitsVal, hv] at hval
    have hle := digitsVal_le t _ r hval
    simp only [readExpDigits, if_neg h1, hv]
    rw [if_pos (by omega)]
    exact ih _ ht hval

theorem allDigits_natDigits (n : Nat) : AllDigits (natDigits n) :=
  allDigits_natDigitsAux (n + 1) n

theorem readFloat_digits_tail (neg : Bool) (M : Nat) (hM : 0 < M) (tail : List Byte) (x : Int)
    (hmant : ∀ st, readMant false tail st = (st, tail))
    (hexp : ∀ dp, readExponent false dp tail = some (dp + x, false, [])) :
    readFloat ((if neg then [ch '-'] else []) ++ (natDigits M ++ tail)) = some (neg, false, M, x) := by
  obtain ⟨c, t, v, he, hv, hv0, ht⟩ := natDigitsAux_head (M + 1) M (Nat.lt_succ_self M) hM
  have hc : (decDigit? c).isSome = true := by rw [hv]; rfl
  have hs : natDigits M ++ tail = c :: (t ++ tail) := by unfold natDigits; rw [he]; rfl
  have hhex : hasHexMark (natDigits M ++ tail) = false := by
    rw [hs]; exact hasHexMark_of_ne_zero c _ (digit_ne_of_pos c v hv hv0).1
  have hrm := readMant_natDigits M hM tail
  rw [hmant] at hrm
  have hM0 : M ≠ 0 := by omega
  cases neg with
  | true =>
    simp only [if_true, List.cons_append, List.nil_append]
    unfold readFloat
    simp only [true_or, or_true, if_true, hhex, Bool.false_eq_true, if_false, hrm, Bool.not_true,
      hexp, Bool.or_self, Bool.false_and, List.isEmpty_nil, Bool.not_false, if_neg hM0,
      decide_True]
    simp
  | false =>
    simp only [Bool.false_eq_true, if_false, List.nil_append]
    have h1 := digit_ne c (ch '+') hc rfl
    have h2 := digit_ne c (ch '-') hc rfl
    rw [hs]
    unfold readFloat
    have hor : ¬ (c = ch '+' ∨ c = ch '-') := by simp [h1, h2]
    simp only [if_neg hor]
    rw [← hs]
    simp only [hhex, Bool.false_eq_true, if_false, hrm, Bool.not_true,
      hexp, Bool.or_self, Bool.false_and, List.isEmpty_nil, Bool.not_false, if_neg hM0]
    simp [h2]

theorem readExponent_nil (dp : Int) : readExponent false dp [] = some (dp + 0, false, []) := by
  simp [readExponent]

theorem readExponent_minus (dp : Int) (j : Nat) (hj : j < 10000) :
    readExponent false dp (ch 'e' :: ch '-' :: natDigits j) = some (dp + -(j : Int), false, []) := by
  have hne := natDigits_ne_nil j
  have hall := allDigits_natDigits j
  have hr := readExpDigits_digits (natDigits j) 0 j false hall (digitsVal_natDigits j) hj
  cases hd : natDigits j with
  | nil => exact absurd hd hne
  | cons c7 t =>
    have hc7 : (decDigit? c7).isSome = true := hall c7 (by rw [hd]; exact List.mem_cons_self _ _)
    have hnone : (decDigit? c7).isNone = false := by
      cases h : decDigit? c7 with
      | none => rw [h] at hc7; exact Bool.noConfusion hc7
      | some _ => rfl
    rw [hd] at hr
    simp +decide [readExponent, asciiLower, hnone, hr]

theorem readFloat_int (neg : Bool) (M : Nat) (hM : 0 < M) :
    readFloat ((if neg then [ch '-'] else []) ++ natDigits M) = some (neg, false, M, 0) := by
  have := readFloat_digits_tail neg M hM [] 0 (fun st => rfl) readExponent_nil
  simpa using this

theorem readFloat_int_exp (neg : Bool) (M : Nat) (hM : 0 < M) (j : Nat) (hj : j < 10000) :
    readFloat ((if neg then [ch '-'] else []) ++ (natDigits M ++ ch 'e' :: ch '-' :: natDigits j)) =
      some (neg, false, M, -(j : Int)) :=
  readFloat_digits_tail neg M hM _ _ (fun st => readMant_e _ st)
    (fun dp => readExponent_minus dp j hj)

/-! ## The exact decimal expansion reads back as the value -/

theorem jsonNumberStep_numChar (st : Nat) (c : Byte) (k : Nat)
    (h : jsonNumberStep st c = some k) : isNumChar c = true := by
  by_contra hn
  have hn1 : isNumChar c = false := by simpa using hn
  simp only [isNumChar, Bool.or_eq_false_iff, decide_eq_false_iff_not] at hn1
  obtain ⟨⟨⟨⟨⟨h1, h2⟩, h3⟩, h4⟩, h5⟩, h6⟩ := hn1
  have h0 : c ≠ (ch '0') := by
    intro e; subst e
    have : (decDigit? (ch '0')).isSome = true := rfl
    rw [this] at h1; exact Bool.noConfusion h1
  simp [jsonNumberStep, h1, h2, h3, h4, h5, h6, h0] at h

theorem isNumChar_of_jsonNumberScan (s : List Byte) (st : Nat) (h : jsonNumberScan s st = true) :
    ∀ c ∈ s, isNumChar c = true := by
  induction s generalizing st with
  | nil => intro c hc; simp at hc
  | cons a t ih =>
    intro c hc
    simp only [jsonNumberScan] at h
    cases hs : jsonNumberStep st a with
    | none => rw [hs] at h; exact Bool.noConfusion h
    | some k =>
      rw [hs] at h
      rcases List.mem_cons.mp hc with hca | hct
      · subst hca; exact jsonNumberStep_numChar st c k hs
      · exact ih k h c hct

theorem jsonNumberScan_digits8 (ds rest : List Byte) (h : AllDigits ds) :
    jsonNumberScan (ds ++ rest) 8 = jsonNumberScan rest 8 := by
  induction ds with
  | nil => rfl
  | cons c t ih =>
    have hc := h c (List.mem_cons_self _ _)
    have ht := ih (fun x hx => h x (List.mem_cons_of_mem _ hx))
    simp only [List.cons_append, jsonNumberScan, jsonNumberStep]
    simp [hc, ht]

theorem jsonNumberScan_natDigits (M : Nat) (hM : 0 < M) (tail : List Byte) (st : Nat)
    (hst : st = 0 ∨ st = 1) :
    jsonNumberScan (natDigits M ++ tail) st = jsonNumberScan tail 3 := by
  obtain ⟨c, t, v, he, hv, hv0, ht⟩ := natDigitsAux_head (M + 1) M (Nat.lt_succ_self M) hM
  have hne := digit_ne_of_pos c v hv hv0
  have hd : (decDigit? c).isSome = true := by rw [hv]; rfl
  have h3 := jsonNumberScan_digits t tail ht
  unfold natDigits
  rw [he]
  rcases hst with h | h <;> subst h <;>
    simp [jsonNumberScan, jsonNumberStep, hne.1, hne.2, hd, h3]

theorem jsonNumberScan_exp_tail (j : Nat) :
    jsonNumberScan (ch 'e' :: ch '-' :: natDigits j) 3 = true := by
  have hne := natDigits_ne_nil j
  have hall := allDigits_natDigits j
  cases hd : natDigits j with
  | nil => exact absurd hd hne
  | cons c t =>
    have hc : (decDigit? c).isSome = true := hall c (by rw [hd]; exact List.mem_cons_self _ _)
    have ht : AllDigits t := fun x hx => hall x (by rw [hd]; exact List.mem_cons_of_mem _ hx)
    have h8 := jsonNumberScan_digits8 t [] ht
    simp only [List.append_nil] at h8
    have he : (decDigit? (ch 'e')).isSome = false := rfl
    have hmi : (decDigit? (ch '-')).isSome = false := rfl
    simp +decide [jsonNumberScan, jsonNumberStep, he, hmi, hc, h8]

theorem isJsonNumber_signed (neg : Bool) (M : Nat) (hM : 0 < M) (tail : List Byte)
    (ht : jsonNumberScan tail 3 = true) :
    isJsonNumber ((if neg then [ch '-'] else []) ++ (natDigits M ++ tail)) = true := by
  unfold isJsonNumber
  cases neg with
  | true =>
    simp only [if_true, List.cons_append, List.nil_append, jsonNumberScan, jsonNumberStep]
    simp [jsonNumberScan_natDigits M hM tail 1 (Or.inr rfl), ht]
  | false =>
    simp only [Bool.false_eq_true, if_false, List.nil_append]
    rw [jsonNumberScan_natDigits M hM tail 0 (Or.inl rfl), ht]

theorem special_signed_digits (neg : Bool) (M : Nat) (tail : List Byte) :
    special ((if neg then [ch '-'] else []) ++ (natDigits M ++ tail)) = none := by
  have hne := natDigits_ne_nil M
  have hall := allDigits_natDigits M
  cases hd : natDigits M with
  | nil => exact absurd hd hne
  | cons c t =>
    have hc : (decDigit? c).isSome = true := hall c (by rw [hd]; exact List.mem_cons_self _ _)
    cases neg with
    | true => exact special_minus_digit c _ hc
    | false => exact special_digit c _ hc

namespace F64

theorem mant_pos (f : F64) (hnz : f.isZero = false) : 0 < f.mant := by
  unfold mant
  by_cases h0 : f.expo.val = 0
  · rw [if_pos h0]
    by_contra hc
    have : f.frac.val = 0 := by omega
    simp [isZero, h0, this] at hnz
  · rw [if_neg h0]; omega

theorem bexp_bounds (f : F64) : 1 ≤ f.bexp ∧ f.bexp ≤ 2047 := by
  have := f.expo.isLt
  unfold bexp
  by_cases h0 : f.expo.val = 0
  · rw [if_pos h0]; omega
  · rw [if_neg h0]; omega

theorem isInf_of_finite (f : F64) (hfin : f.isFinite = true) : f.isInf = false := by
  have h : f.expo.val ≠ 2047 := by simpa [isFinite] using hfin
  simp [isInf, h]

theorem parseFloat_exactDecimal (f : F64) (hfin : f.isFinite = true) (hnz : f.isZero = false) :
    ParseFloat ((exactDecimal f)) = (f, none) := by
  have hm := mant_pos f hnz
  have hb := bexp_bounds f
  have hinf := isInf_of_finite f hfin
  unfold ParseFloat exactDecimal
  by_cases hE : 1075 ≤ f.bexp
  · simp only [if_pos hE]
    have hM : 0 < f.mant * 2 ^ (f.bexp - 1075) := Nat.mul_pos hm (Nat.pow_pos (by decide))
    have hsp := special_signed_digits f.sign (f.mant * 2 ^ (f.bexp - 1075)) []
    have hrf := readFloat_int f.sign _ hM
    simp only [List.append_nil] at hsp
    simp only [hsp, hrf]
    have hr : round f.sign (f.mant * 2 ^ (f.bexp - 1075)) 1 = f := by
      apply round_num_den f hfin hnz _ 1 (by decide)
      have e : f.bexp - 1 = (f.bexp - 1075) + 1074 := by omega
      rw [e, pow_add]
      ring
    simp [hr, hinf]
  · simp only [if_neg hE]
    have hM : 0 < f.mant * 5 ^ (1075 - f.bexp) := Nat.mul_pos hm (Nat.pow_pos (by decide))
    have hsp := special_signed_digits f.sign (f.mant * 5 ^ (1075 - f.bexp))
      (ch 'e' :: ch '-' :: natDigits (1075 - f.bexp))
    have hrf := readFloat_int_exp f.sign _ hM (1075 - f.bexp) (by omega)
    simp only [hsp, hrf]
    have hneg : ¬ (0 : Int) ≤ -((1075 - f.bexp : Nat) : Int) := by omega
    have htn : (- -((1075 - f.bexp : Nat) : Int)).toNat = 1075 - f.bexp := by simp
    have hr : round f.sign (f.mant * 5 ^ (1075 - f.bexp)) (10 ^ (1075 - f.bexp)) = f := by
      apply round_num_den f hfin hnz _ _ (Nat.pow_pos (by decide))
      have e : (1074 : Nat) = (1075 - f.bexp) + (f.bexp - 1) := by omega
      have e10 : (10 : Nat) ^ (1075 - f.bexp) = 5 ^ (1075 - f.bexp) * 2 ^ (1075 - f.bexp) := by
        rw [← Nat.mul_pow]
      rw [e10]
      conv_lhs => rw [e, pow_add]
      ring
    simp [hneg, htn, hr, hinf]

theorem isJsonNumber_exactDecimal (f : F64) (hnz : f.isZero = false) :
    isJsonNumber (exactDecimal f) = true := by
  have hm := mant_pos f hnz
  unfold exactDecimal
  by_cases hE : 1075 ≤ f.bexp
  · simp only [if_pos hE]
    have := isJsonNumber_signed f.sign (f.mant * 2 ^ (f.bexp - 1075))
      (Nat.mul_pos hm (Nat.pow_pos (by decide))) [] rfl
    simpa using this
  · simp only [if_neg hE]
    exact isJsonNumber_signed f.sign (f.mant * 5 ^ (1075 - f.bexp))
      (Nat.mul_pos hm (Nat.pow_pos (by decide))) _ (jsonNumberScan_exp_tail _)

end F64

/-! ## The text of a finite `float64` reads back as the value -/

namespace F64

theorem shortestCandidate_sound (f : F64) (k : Int) (n : Nat) (s : List Byte)
    (h : shortestCandidate f k n = some s) : parsesBackTo f s = true := by
  unfold shortestCandidate at h
  simp only at h
  split_ifs at h with h1 h2 h3 h4 h5 h6 <;> first
    | exact Option.noConfusion h
    | (simp only [Option.some.injEq] at h; subst h; assumption)
    | (simp only [Option.some.injEq] at h; subst h; simp only [Bool.and_eq_true] at *; tauto)

theorem eq_zero_of_isZero (f : F64) (h : f.isZero = true) : f = zero f.sign := by
  obtain ⟨s, e, m⟩ := f
  simp only [isZero, Bool.and_eq_true, beq_iff_eq] at h
  simp only [zero, ofFields, Fin.ofNat]
  congr 1
  · apply Fin.ext; simp [h.1]
  · apply Fin.ext; simp [h.2]

theorem isFinite_zero (s : Bool) : (zero s).isFinite = true := by cases s <;> rfl

theorem formatJSON_parsesBack (f : F64) (hfin : f.isFinite = true) :
    parsesBackTo f (formatJSON f) = true := by
  unfold formatJSON
  by_cases hz : f.isZero = true
  · rw [if_pos hz]
    have hf := eq_zero_of_isZero f hz
    rw [hf]
    cases f.sign <;> decide
  · have hz1 : f.isZero = false := by simpa using hz
    rw [if_neg hz]
    simp only
    cases hs : (List.range 17).findSome?
        (shortestCandidate f (((natDigits (f.num * 10 ^ 324 / f.den)).length : Int) - 325)) with
    | some s =>
      obtain ⟨n, _, hn⟩ := List.exists_of_findSome?_eq_some hs
      exact shortestCandidate_sound f _ n s hn
    | none =>
      simp only [parsesBackTo, Bool.and_eq_true, decide_eq_true_eq]
      exact ⟨isJsonNumber_exactDecimal f hz1, parseFloat_exactDecimal f hfin hz1⟩

end F64

/-! ## `json.Unmarshal` reads back what `json.Marshal` wrote -/

theorem skipWs_of_not_ws (c : Byte) (s : List Byte) (h : isWs c = false) :
    skipWs (c :: s) = c :: s := by
  simp [skipWs, h]

theorem decodeField_string (n : Nat) (fld : Field) (v : GoString) (sep : Byte)
    (rest : List Byte) (p q : Property) (hset : setString fld (coerceUTF8 v) p = some q) :
    decodeField n (some fld) (quote v ++ sep :: rest) p = some (q, sep :: rest) := by
  rw [quote_append]
  have hq : ch '"' ≠ ch 'n' := by decide
  simp only [decodeField, if_neg hq, if_true]
  rw [unquoteBody_escapeBytes]
  simp only [List.reverse_nil, List.nil_append]
  show Option.map _ (setString fld (coerceUTF8 v) p) = _
  rw [hset]; rfl

theorem decodeField_number (n : Nat) (fld : Field) (tok : List Byte) (sep : Byte)
    (rest : List Byte) (p q : Property) (hnum : isJsonNumber tok = true)
    (hsep : isNumChar sep = false) (hset : setNumber fld tok p = some q) :
    decodeField n (some fld) (tok ++ sep :: rest) p = some (q, sep :: rest) := by
  have hall := isNumChar_of_jsonNumberScan tok 0 hnum
  have hscan : scanNumber (tok ++ sep :: rest) = some (tok, sep :: rest) := by
    unfold scanNumber
    rw [spanNum_append _ _ hall (by
      intro c r h; simp only [List.cons.injEq] at h; rw [← h.1]; exact hsep)]
    simp [hnum]
  cases tok with
  | nil => exact absurd hnum (by decide)
  | cons c t =>
    have hc := hall c (List.mem_cons_self _ _)
    have h1 : c ≠ ch 'n' := by intro e; subst e; exact absurd hc (by decide)
    have h2 : c ≠ ch '"' := by intro e; subst e; exact absurd hc (by decide)
    rw [List.cons_append] at hscan ⊢
    simp only [decodeField, if_neg h1, if_neg h2, hscan, hset]
    rfl

theorem decodeMembers_member (fuel : Nat) (key : GoString) (fld : Field) (value : List Byte)
    (sep : Byte) (rest : List Byte) (p q : Property)
    (hk : fieldOfKey (coerceUTF8 key) = some fld)
    (hv : ∀ n, decodeField n (some fld) (value ++ sep :: rest) p = some (q, sep :: rest))
    (hvws : skipWs (value ++ sep :: rest) = value ++ sep :: rest)
    (hsep : isWs sep = false) :
    decodeMembers (fuel + 1) (quote key ++ ch ':' :: (value ++ sep :: rest)) p =
      if sep = ch ',' then decodeMembers fuel (skipWs rest) q
      else if sep = ch '}' then some (q, rest) else none := by
  rw [quote_append]
  simp only [decodeMembers, if_true]
  rw [unquoteBody_escapeBytes]
  simp only [List.reverse_nil, List.nil_append]
  rw [skipWs_of_not_ws (ch ':') _ (by decide)]
  simp only [if_true, hk, hvws, hv, skipWs_of_not_ws sep rest hsep]

theorem skipWs_quote (s : GoString) (rest : List Byte) : skipWs (quote s ++ rest) = quote s ++ rest := by
  rw [quote_append]; exact skipWs_of_not_ws _ _ (by decide)

theorem skipWs_numTok (tok rest : List Byte) (hnum : isJsonNumber tok = true) :
    skipWs (tok ++ rest) = tok ++ rest := by
  have hall := isNumChar_of_jsonNumberScan tok 0 hnum
  cases tok with
  | nil => exact absurd hnum (by decide)
  | cons c t =>
    have hc := hall c (List.mem_cons_self _ _)
    have hws : isWs c = false := by
      by_contra h
      have h1 : isWs c = true := by simpa using h
      simp only [isWs, Bool.or_eq_true, decide_eq_true_eq] at h1
      rcases h1 with ((h1 | h1) | h1) | h1 <;> (subst h1; exact absurd hc (by decide))
    exact skipWs_of_not_ws c _ hws

theorem fieldOfKey_const (key : String) (fld : Field)
    (h : fieldOfKey (utf8 key) = some fld) (hv : utf8Valid (utf8 key) = true) :
    fieldOfKey (coerceUTF8 (utf8 key)) = some fld := by
  rw [coerceUTF8_of_valid _ hv]; exact h

theorem decodeMembers_marshal (p : Property) (hfin : p.BitcoinValue.isFinite = true) (k : Nat) :
    decodeMembers (k + 6) (marshalBytes p).tail Property.zero = some (p.coerced, []) := by
  have hpb := F64.formatJSON_parsesBack p.BitcoinValue hfin
  simp only [F64.parsesBackTo, Bool.and_eq_true, decide_eq_true_eq] at hpb
  obtain ⟨hfnum, hfparse⟩ := hpb
  have hftok : parseFloatToken (F64.formatJSON p.BitcoinValue) = some p.BitcoinValue := by
    simp only [parseFloatToken, hfparse]
  have hi1 := isJsonNumber_intDigits p.Area.val
  have hi2 := isJsonNumber_intDigits p.Value.val
  show decodeMembers (k + 5 + 1) (quote (utf8 "id") ++ ch ':' :: (quote p.ID ++ ch ',' ::
    (quote (utf8 "name") ++ ch ':' :: (quote p.Name ++ ch ',' :: (quote (utf8 "area") ++ ch ':' ::
    (intDigits p.Area.val ++ ch ',' :: (quote (utf8 "ownerName") ++ ch ':' ::
    (quote p.OwnerName ++ ch ',' :: (quote (utf8 "value") ++ ch ':' ::
    (intDigits p.Value.val ++ ch ',' :: (quote (utf8 "BitcoinValue") ++ ch ':' ::
    (F64.formatJSON p.BitcoinValue ++ [ch '}'])))))))))))) Property.zero = some (p.coerced, [])
  rw [decodeMembers_member (k + 5) (utf8 "id") Field.id _ (ch ',') _ Property.zero
    { Property.zero with ID := coerceUTF8 p.ID } (fieldOfKey_const _ _ (by decide) (by decide))
    (fun n => decodeField_string n _ _ _ _ _ _ (by rfl)) (skipWs_quote _ _) (by decide)]
  rw [if_pos rfl, skipWs_quote]
  rw [decodeMembers_member (k + 4) (utf8 "name") Field.name _ (ch ',') _ _
    { Property.zero with ID := coerceUTF8 p.ID, Name := coerceUTF8 p.Name }
    (fieldOfKey_const _ _ (by decide) (by decide))
    (fun n => decodeField_string n _ _ _ _ _ _ (by rfl)) (skipWs_quote _ _) (by decide)]
  rw [if_pos rfl, skipWs_quote]
  rw [decodeMembers_member (k + 3) (utf8 "area") Field.area _ (ch ',') _ _
    { Property.zero with ID := coerceUTF8 p.ID, Name := coerceUTF8 p.Name, Area := p.Area }
    (fieldOfKey_const _ _ (by decide) (by decide))
    (fun n => decodeField_number n _ _ _ _ _ _ hi1 (by decide)
      (by simp only [setNumber, parseIntToken_intDigits]; rfl))
    (skipWs_numTok _ _ hi1) (by decide)]
  rw [if_pos rfl, skipWs_quote]
  rw [decodeMembers_member (k + 2) (utf8 "ownerName") Field.ownerName _ (ch ',') _ _
    { Property.zero with ID := coerceUTF8 p.ID, Name := coerceUTF8 p.Name, Area := p.Area,
                         OwnerName := coerceUTF8 p.OwnerName }
    (fieldOfKey_const _ _ (by decide) (by decide))
    (fun n => decodeField_string n _ _ _ _ _ _ (by rfl)) (skipWs_quote _ _) (by decide)]
  rw [if_pos rfl, skipWs_quote]
  rw [decodeMembers_member (k + 1) (utf8 "value") Field.value _ (ch ',') _ _
    { Property.zero with ID := coerceUTF8 p.ID, Name := coerceUTF8 p.Name, Area := p.Area,
                         OwnerName := coerceUTF8 p.OwnerName, Value := p.Value }
    (fieldOfKey_const _ _ (by decide) (by decide))
    (fun n => decodeField_number n _ _ _ _ _ _ hi2 (by decide)
      (by simp only [setNumber, parseIntToken_intDigits]; rfl))
    (skipWs_numTok _ _ hi2) (by decide)]
  rw [if_pos rfl, skipWs_quote]
  rw [decodeMembers_member k (utf8 "BitcoinValue") Field.bitcoinValue _ (ch '}') _ _ p.coerced
    (fieldOfKey_const _ _ (by decide) (by decide))
    (fun n => decodeField_number n _ _ _ _ _ _ hfnum (by decide)
      (by simp only [setNumber, hftok]; rfl))
    (skipWs_numTok _ _ hfnum) (by decide)]
  rw [if_neg (by decide), if_pos rfl]

theorem unmarshal_marshalBytes (p : Property) (hfin : p.BitcoinValue.isFinite = true) :
    jsonUnmarshal (marshalBytes p) = Except.ok (some p.coerced) := by
  have hlen : ∃ k, (marshalBytes p).length = k + 6 := by
    refine ⟨(marshalBytes p).length - 6, ?_⟩
    have : 6 ≤ (marshalBytes p).length := by
      simp only [marshalBytes, quote, List.length_cons, List.length_append]
      omega
    omega
  obtain ⟨k, hk⟩ := hlen
  have hdm := decodeMembers_marshal p hfin k
  have htail : (marshalBytes p).tail =
      ch '"' :: (escapeBytes (utf8 "id") 0 true ++ ch '"' :: ((marshalBytes p).tail.drop 4)) := rfl
  have hs : skipWs (marshalBytes p) = ch '{' :: (marshalBytes p).tail := rfl
  have hb : ch '{' ≠ ch 'n' := by decide
  have hq : ch '"' ≠ ch '}' := by decide
  unfold jsonUnmarshal
  rw [hs]
  simp only [if_neg hb, if_true]
  rw [htail, skipWs_of_not_ws (ch '"') _ (by decide)]
  simp only [if_neg hq]
  rw [← htail, hk, hdm]
  rfl

/-- What `json.Marshal` writes, `json.Unmarshal` reads back as the record with its strings
coerced to valid UTF-8. -/
theorem jsonUnmarshal_jsonMarshal (p : Property) (bytes : GoString)
    (h : jsonMarshal p = Except.ok bytes) : jsonUnmarshal bytes = Except.ok (some p.coerced) := by
  unfold jsonMarshal at h
  by_cases hbad : (p.BitcoinValue.isInf || p.BitcoinValue.isNaN) = true
  · rw [if_pos hbad] at h; exact Except.noConfusion h
  · rw [if_neg hbad] at h
    simp only [Except.ok.injEq] at h
    subst h
    have hfin : p.BitcoinValue.isFinite = true := by
      simp only [F64.isInf, F64.isNaN, F64.isFinite] at hbad ⊢
      by_contra hc
      have he : p.BitcoinValue.expo.val = 2047 := by simpa using hc
      simp only [he, beq_self_eq_true, Bool.true_and] at hbad
      apply hbad
      cases h0 : (p.BitcoinValue.frac.val == 0) <;> simp [bne, h0]
    exact unmarshal_marshalBytes p hfin

/-! ## `json.Unmarshal` yields valid UTF-8 strings -/

theorem coerced_of_valid (p : Property) (h : p.validStrings = true) : p.coerced = p := by
  simp only [Property.validStrings, Bool.and_eq_true] at h
  unfold Property.coerced
  rw [coerceUTF8_of_valid _ h.1.1, coerceUTF8_of_valid _ h.1.2, coerceUTF8_of_valid _ h.2]

theorem validStrings_coerced (p : Property) : p.coerced.validStrings = true := by
  simp [Property.validStrings, Property.coerced, utf8Valid_coerceUTF8]

theorem setString_valid (f : Field) (v : GoString) (p q : Property)
    (hp : p.validStrings = true) (hv : utf8Valid v = true) (h : setString f v p = some q) :
    q.validStrings = true := by
  simp only [Property.validStrings, Bool.and_eq_true] at hp ⊢
  cases f <;> simp only [setString, Option.some.injEq] at h <;> first
    | exact Option.noConfusion h
    | (subst h; simp [hp.1.1, hp.1.2, hp.2, hv])

theorem setNumber_valid (f : Field) (tok : List Byte) (p q : Property)
    (hp : p.validStrings = true) (h : setNumber f tok p = some q) :
    q.validStrings = true := by
  cases f <;> simp only [setNumber, Option.map_eq_some'] at h <;> first
    | exact Option.noConfusion h
    | (obtain ⟨v, _, rfl⟩ := h; exact hp)

theorem decodeField_valid (room : Nat) (fld : Option Field) (s : List Byte) (p q : Property)
    (r : List Byte) (hp : p.validStrings = true) (h : decodeField room fld s p = some (q, r)) :
    q.validStrings = true := by
  unfold decodeField at h
  split at h
  · simp only [Option.map_eq_some', Prod.mk.injEq] at h
    obtain ⟨_, _, rfl, _⟩ := h
    exact hp
  · rename_i f
    split at h
    · exact Option.noConfusion h
    · split_ifs at h
      · split at h
        · split_ifs at h
          simp only [Option.some.injEq, Prod.mk.injEq] at h
          rw [← h.1]; exact hp
        · exact Option.noConfusion h
      · split at h
        · rename_i v r1 hu
          simp only [Option.map_eq_some', Prod.mk.injEq] at h
          obtain ⟨q1, hs, rfl, _⟩ := h
          exact setString_valid f v p q1 hp (unquoteBody_valid _ _ _ hu) hs
        · exact Option.noConfusion h
      · split at h
        · simp only [Option.map_eq_some', Prod.mk.injEq] at h
          obtain ⟨q1, hs, rfl, _⟩ := h
          exact setNumber_valid f _ p q1 hp hs
        · exact Option.noConfusion h

theorem decodeMembers_valid (fuel : Nat) (s : List Byte) (p q : Property) (r : List Byte)
    (hp : p.validStrings = true) (h : decodeMembers fuel s p = some (q, r)) :
    q.validStrings = true := by
  induction fuel generalizing s p with
  | zero => simp [decodeMembers] at h
  | succ fuel ih =>
    rw [decodeMembers.eq_def] at h
    simp only at h
    split at h
    · exact Option.noConfusion h
    · split_ifs at h
      split at h
      · exact Option.noConfusion h
      · split at h
        · exact Option.noConfusion h
        · split_ifs at h
          split at h
          · exact Option.noConfusion h
          · rename_i q1 r3 hd
            have hq1 := decodeField_valid _ _ _ _ _ _ hp hd
            split at h
            · exact Option.noConfusion h
            · split_ifs at h
              · exact ih _ _ hq1 h
              · simp only [Option.some.injEq, Prod.mk.injEq] at h
                rw [← h.1]; exact hq1

/-- The strings of a decoded record are valid UTF-8. -/
theorem jsonUnmarshal_valid (data : GoString) (p : Property)
    (h : jsonUnmarshal data = Except.ok (some p)) : p.validStrings = true := by
  unfold jsonUnmarshal at h
  split at h
  · exact Except.noConfusion h
  · split_ifs at h
    · split at h
      · split_ifs at h
        simp at h
      · exact Except.noConfusion h
    · split at h
      · exact Except.noConfusion h
      · split_ifs at h
        · simp only [Except.ok.injEq, Option.some.injEq] at h
          rw [← h]; rfl
        · split at h
          · rename_i q r2 hd
            split_ifs at h
            simp only [Except.ok.injEq, Option.some.injEq] at h
            rw [← h]
            exact decodeMembers_valid _ _ Property.zero _ _ (by decide) hd
          · exact Except.noConfusion h

theorem jsonUnmarshal_coerced (data : GoString) (p : Property)
    (h : jsonUnmarshal data = Except.ok (some p)) : p.coerced = p :=
  coerced_of_valid p (jsonUnmarshal_valid data p h)

/-! ## Claims C1 and C4: rejected transactions -/

/-- Claim C1. When key `id` already holds a record, `AddProperty` fails with the duplicate-ID
error (`... already exists`) whatever the other arguments and the oracle response are, and it
leaves the ledger as it was: the bytes stored at `id` are the same and no write is issued. -/
theorem addProperty_duplicate_rejected (stub : Stub) (http : HttpGet) (l : Ledger)
    (id name : GoString) (area : GoInt) (ownerName : GoString) (value : GoInt) (bytes : GoString)
    (h : GetState stub l id = Except.ok (some bytes)) :
    AddProperty stub http l id name area ownerName value =
        (Outcome.error (GoError.errorf (utf8 "fhe property " ++ id ++ utf8 " already exists")),
          l) ∧
      GetState stub (AddProperty stub http l id name area ownerName value).2 id =
        Except.ok (some bytes) ∧
      (AddProperty stub http l id name area ownerName value).2.writes = l.writes := by
  have h1 : AddProperty stub http l id name area ownerName value =
      (Outcome.error (GoError.errorf (utf8 "fhe property " ++ id ++ utf8 " already exists")),
        l) := by
    simp only [AddProperty, h]
  rw [h1]
  exact ⟨rfl, h, rfl⟩

/-- Claim C4. When key `id` is absent, `TransferProperty` fails with the not-found error of
`QueryPropertyByID` (`... does not exist`) and performs no write: the ledger after the call is
the ledger before it. -/
theorem transferProperty_absent_rejected (stub : Stub) (l : Ledger) (id newOwner : GoString)
    (h : GetState stub l id = Except.ok none) :
    QueryPropertyByID stub l id =
        Except.error (GoError.errorf (utf8 "the property " ++ id ++ utf8 " does not exist")) ∧
      TransferProperty stub l id newOwner =
        (Outcome.error (GoError.errorf (utf8 "the property " ++ id ++ utf8 " does not exist")),
          l) := by
  have hq : QueryPropertyByID stub l id =
      Except.error (GoError.errorf (utf8 "the property " ++ id ++ utf8 " does not exist")) := by
    simp only [QueryPropertyByID, h]
  refine ⟨hq, ?_⟩
  simp only [TransferProperty, hq]

theorem addProperty_duplicate_rejected_witness :
    GetState Stub.reliable exLedger (utf8 "P1") = Except.ok (some exBytes) ∧
    (AddProperty Stub.reliable exReply exLedger (utf8 "P1") (utf8 "Lot B") exArea (utf8 "Bob")
          exValue =
        (Outcome.error
          (GoError.errorf (utf8 "fhe property " ++ utf8 "P1" ++ utf8 " already exists")),
          exLedger) ∧
      GetState Stub.reliable
        (AddProperty Stub.reliable exReply exLedger (utf8 "P1") (utf8 "Lot B") exArea (utf8 "Bob")
          exValue).2 (utf8 "P1") =
        Except.ok (some exBytes) ∧
      (AddProperty Stub.reliable exReply exLedger (utf8 "P1") (utf8 "Lot B") exArea (utf8 "Bob")
          exValue).2.writes =
        exLedger.writes) :=
  ⟨rfl, addProperty_duplicate_rejected Stub.reliable exReply exLedger (utf8 "P1") (utf8 "Lot B")
    exArea (utf8 "Bob") exValue exBytes rfl⟩

theorem transferProperty_absent_rejected_witness :
    GetState Stub.reliable Ledger.empty (utf8 "P1") = Except.ok none ∧
    (QueryPropertyByID Stub.reliable Ledger.empty (utf8 "P1") =
        Except.error
          (GoError.errorf (utf8 "the property " ++ utf8 "P1" ++ utf8 " does not exist")) ∧
      TransferProperty Stub.reliable Ledger.empty (utf8 "P1") (utf8 "Bob") =
        (Outcome.error
          (GoError.errorf (utf8 "the property " ++ utf8 "P1" ++ utf8 " does not exist")),
          Ledger.empty)) :=
  ⟨rfl, transferProperty_absent_rejected Stub.reliable Ledger.empty (utf8 "P1") (utf8 "Bob") rfl⟩

/-! ## Claims C2 and C3: reading after a successful write -/

theorem getState_ok (stub : Stub) (l : Ledger) (k : GoString) (r : Option GoString)
    (h : GetState stub l k = Except.ok r) : stub.getFails k = false ∧ lookupKey k l.state = r := by
  unfold GetState at h
  by_cases hf : stub.getFails k = true
  · rw [if_pos hf] at h; exact Except.noConfusion h
  · rw [if_neg hf] at h
    simp only [Except.ok.injEq] at h
    exact ⟨by simpa using hf, h⟩

theorem getState_of_lookup (stub : Stub) (l : Ledger) (k : GoString)
    (h : stub.getFails k = false) : GetState stub l k = Except.ok (lookupKey k l.state) := by
  simp [GetState, h]

/-- What a successful `AddProperty` did: the oracle replied, the record built from the
arguments and the rate was marshalled and written at `id`. -/
theorem addProperty_ok (stub : Stub) (http : HttpGet) (l l1 : Ledger)
    (id name : GoString) (area : GoInt) (ownerName : GoString) (value : GoInt)
    (h : AddProperty stub http l id name area ownerName value = (Outcome.ok (), l1)) :
    ∃ result bytes, http = HttpGet.response result ∧
      GetState stub l id = Except.ok none ∧
      jsonMarshal { ID := id, Name := name, Area := area, OwnerName := ownerName, Value := value,
                    BitcoinValue := F64.div (F64.ofInt value) (ParseFloat result.Holder.ExRate).1 }
        = Except.ok bytes ∧
      PutState stub l id bytes = Except.ok l1 := by
  unfold AddProperty at h
  split at h
  · simp at h
  · simp at h
  · rename_i hg
    split at h
    · simp at h
    · rename_i result
      simp only at h
      split at h
      · simp at h
      · rename_i bytes hm
        split at h
        · simp at h
        · rename_i l2 hp
          simp only [Prod.mk.injEq, true_and] at h
          subst h
          exact ⟨result, bytes, rfl, hg, hm, hp⟩

/-- What a successful `TransferProperty` did: the record read at `id` was marshalled with the
new owner and written back at `id`. -/
theorem transferProperty_ok (stub : Stub) (l l1 : Ledger) (id newOwner : GoString)
    (h : TransferProperty stub l id newOwner = (Outcome.ok (), l1)) :
    ∃ p bytes, QueryPropertyByID stub l id = Except.ok (some p) ∧
      jsonMarshal { p with OwnerName := newOwner } = Except.ok bytes ∧
      PutState stub l id bytes = Except.ok l1 := by
  unfold TransferProperty at h
  split at h
  · simp at h
  · simp at h
  · rename_i p hq
    simp only at h
    split at h
    · simp at h
    · rename_i bytes hm
      split at h
      · simp at h
      · rename_i l2 hp
        simp only [Prod.mk.injEq, true_and] at h
        subst h
        exact ⟨p, bytes, hq, hm, hp⟩

theorem queryPropertyByID_ok (stub : Stub) (l : Ledger) (id : GoString) (r : Option Property)
    (h : QueryPropertyByID stub l id = Except.ok r) :
    ∃ bytes, stub.getFails id = false ∧ lookupKey id l.state = some bytes ∧
      jsonUnmarshal bytes = Except.ok r := by
  unfold QueryPropertyByID at h
  split at h
  · exact Except.noConfusion h
  · exact Except.noConfusion h
  · rename_i bytes hg
    obtain ⟨hf, hl⟩ := getState_ok stub l id _ hg
    split at h
    · exact Except.noConfusion h
    · rename_i property hu
      simp only [Except.ok.injEq] at h
      subst h
      exact ⟨bytes, hf, hl, hu⟩

/-- A record returned by `QueryPropertyByID` has valid UTF-8 strings. -/
theorem queryPropertyByID_valid (stub : Stub) (l : Ledger) (id : GoString) (p : Property)
    (h : QueryPropertyByID stub l id = Except.ok (some p)) : p.validStrings = true := by
  obtain ⟨bytes, _, _, hu⟩ := queryPropertyByID_ok stub l id _ h
  exact jsonUnmarshal_valid bytes p hu

/-- Reading a key whose bytes were written by `json.Marshal`. -/
theorem query_after_put (stub stub2 : Stub) (l l1 : Ledger) (id bytes : GoString) (p : Property)
    (hm : jsonMarshal p = Except.ok bytes) (hp : PutState stub l id bytes = Except.ok l1)
    (hread : stub2.getFails id = false) :
    QueryPropertyByID stub2 l1 id = Except.ok (some p.coerced) := by
  obtain ⟨_, hst, _⟩ := putState_ok stub l l1 id bytes hp
  unfold QueryPropertyByID
  rw [getState_of_lookup stub2 l1 id hread, hst, lookupKey_putEntry, if_pos rfl]
  simp only
  rw [jsonUnmarshal_jsonMarshal p bytes hm]

/-- Claim C2, amended. When `AddProperty` succeeds, key `id` was absent, the oracle has replied
with some rate text, and `QueryPropertyByID(id)` on the resulting ledger (its read not failing)
returns a record with the Area and Value given, with `BitcoinValue = float64(value) / rate`,
the rate being the `ParseFloat` value of that text, and with the ID, Name and OwnerName given
after each byte that is not part of a valid UTF-8 encoding was replaced by U+FFFD. When the
three strings given are valid UTF-8, the record has the ID, Name and OwnerName given. -/
theorem addProperty_then_query (stub stub2 : Stub) (http : HttpGet) (l l1 : Ledger)
    (id name : GoString) (area : GoInt) (ownerName : GoString) (value : GoInt)
    (hadd : AddProperty stub http l id name area ownerName value = (Outcome.ok (), l1))
    (hread : stub2.getFails id = false) :
    ∃ result, http = HttpGet.response result ∧ GetState stub l id = Except.ok none ∧
      QueryPropertyByID stub2 l1 id = Except.ok (some
        { ID := coerceUTF8 id, Name := coerceUTF8 name, Area := area,
          OwnerName := coerceUTF8 ownerName, Value := value,
          BitcoinValue := F64.div (F64.ofInt value) (ParseFloat result.Holder.ExRate).1 }) ∧
      (utf8Valid id = true → utf8Valid name = true → utf8Valid ownerName = true →
        QueryPropertyByID stub2 l1 id = Except.ok (some
          { ID := id, Name := name, Area := area, OwnerName := ownerName, Value := value,
            BitcoinValue := F64.div (F64.ofInt value) (ParseFloat result.Holder.ExRate).1 })) := by
  obtain ⟨result, bytes, hh, habs, hm, hp⟩ :=
    addProperty_ok stub http l l1 id name area ownerName value hadd
  have hq := query_after_put stub stub2 l l1 id bytes _ hm hp hread
  refine ⟨result, hh, habs, hq, ?_⟩
  intro h1 h2 h3
  rw [hq]
  simp only [Property.coerced, coerceUTF8_of_valid _ h1, coerceUTF8_of_valid _ h2,
    coerceUTF8_of_valid _ h3]

/-- Claim C3, amended. When `QueryPropertyByID(id)` returns a record `p` and
`TransferProperty(id, newOwner)` succeeds, `QueryPropertyByID(id)` on the resulting ledger (its
read not failing) returns `p` with `OwnerName` set to `newOwner` after each byte of it that is
not part of a valid UTF-8 encoding was replaced by U+FFFD: the ID, Name, Area, Value and
BitcoinValue are those of `p`. When `newOwner` is valid UTF-8, the `OwnerName` is
`newOwner`. -/
theorem transferProperty_then_query (stub stub2 : Stub) (l l1 : Ledger) (id newOwner : GoString)
    (p : Property)
    (hq : QueryPropertyByID stub l id = Except.ok (some p))
    (ht : TransferProperty stub l id newOwner = (Outcome.ok (), l1))
    (hread : stub2.getFails id = false) :
    QueryPropertyByID stub2 l1 id =
        Except.ok (some { p with OwnerName := coerceUTF8 newOwner }) ∧
      (utf8Valid newOwner = true →
        QueryPropertyByID stub2 l1 id = Except.ok (some { p with OwnerName := newOwner })) := by
  obtain ⟨p1, bytes, hq1, hm, hp⟩ := transferProperty_ok stub l l1 id newOwner ht
  rw [hq] at hq1
  simp only [Except.ok.injEq, Option.some.injEq] at hq1
  subst hq1
  have hv := queryPropertyByID_valid stub l id p hq
  simp only [Property.validStrings, Bool.and_eq_true] at hv
  have hq2 := query_after_put stub stub2 l l1 id bytes _ hm hp hread
  have hc : ({ p with OwnerName := newOwner } : Property).coerced =
      { p with OwnerName := coerceUTF8 newOwner } := by
    simp only [Property.coerced, coerceUTF8_of_valid _ hv.1.1, coerceUTF8_of_valid _ hv.1.2]
  rw [hc] at hq2
  refine ⟨hq2, ?_⟩
  intro h1
  rw [hq2, coerceUTF8_of_valid _ h1]

set_option maxRecDepth 100000 in
theorem exLedger_created :
    AddProperty Stub.reliable exReply Ledger.empty (utf8 "P1") (utf8 "Lot A") exArea (utf8 "Alice")
        exValue = (Outcome.ok (), exLedger) := by
  decide!

theorem addProperty_then_query_witness :
    (AddProperty Stub.reliable exReply Ledger.empty (utf8 "P1") (utf8 "Lot A") exArea
        (utf8 "Alice") exValue = (Outcome.ok (), exLedger) ∧
      Stub.reliable.getFails (utf8 "P1") = false) ∧
    ∃ result, exReply = HttpGet.response result ∧
      GetState Stub.reliable Ledger.empty (utf8 "P1") = Except.ok none ∧
      QueryPropertyByID Stub.reliable exLedger (utf8 "P1") = Except.ok (some
        { ID := coerceUTF8 (utf8 "P1"), Name := coerceUTF8 (utf8 "Lot A"), Area := exArea,
          OwnerName := coerceUTF8 (utf8 "Alice"), Value := exValue,
          BitcoinValue := F64.div (F64.ofInt exValue) (ParseFloat result.Holder.ExRate).1 }) ∧
      (utf8Valid (utf8 "P1") = true → utf8Valid (utf8 "Lot A") = true →
        utf8Valid (utf8 "Alice") = true →
        QueryPropertyByID Stub.reliable exLedger (utf8 "P1") = Except.ok (some
          { ID := utf8 "P1", Name := utf8 "Lot A", Area := exArea, OwnerName := utf8 "Alice",
            Value := exValue,
            BitcoinValue :=
              F64.div (F64.ofInt exValue) (ParseFloat result.Holder.ExRate).1 })) :=
  ⟨⟨exLedger_created, rfl⟩,
    addProperty_then_query Stub.reliable Stub.reliable exReply Ledger.empty exLedger
      (utf8 "P1") (utf8 "Lot A") exArea (utf8 "Alice") exValue exLedger_created rfl⟩

set_option maxRecDepth 100000 in
theorem exLedger_query :
    QueryPropertyByID Stub.reliable exLedger (utf8 "P1") = Except.ok (some exRecord) := by
  decide!

set_option maxRecDepth 100000 in
theorem exLedger_transfer :
    TransferProperty Stub.reliable exLedger (utf8 "P1") (utf8 "Bob") =
      (Outcome.ok (),
        ⟨[(utf8 "P1", exBytesBob)], [(utf8 "P1", exBytesBob), (utf8 "P1", exBytes)]⟩) := by
  decide!

theorem transferProperty_then_query_witness :
    (QueryPropertyByID Stub.reliable exLedger (utf8 "P1") = Except.ok (some exRecord) ∧
      TransferProperty Stub.reliable exLedger (utf8 "P1") (utf8 "Bob") =
        (Outcome.ok (),
          ⟨[(utf8 "P1", exBytesBob)], [(utf8 "P1", exBytesBob), (utf8 "P1", exBytes)]⟩) ∧
      Stub.reliable.getFails (utf8 "P1") = false) ∧
    (QueryPropertyByID Stub.reliable
        ⟨[(utf8 "P1", exBytesBob)], [(utf8 "P1", exBytesBob), (utf8 "P1", exBytes)]⟩
        (utf8 "P1") = Except.ok (some { exRecord with OwnerName := coerceUTF8 (utf8 "Bob") }) ∧
      (utf8Valid (utf8 "Bob") = true →
        QueryPropertyByID Stub.reliable
          ⟨[(utf8 "P1", exBytesBob)], [(utf8 "P1", exBytesBob), (utf8 "P1", exBytes)]⟩
          (utf8 "P1") = Except.ok (some { exRecord with OwnerName := utf8 "Bob" }))) :=
  ⟨⟨exLedger_query, exLedger_transfer, rfl⟩,
    transferProperty_then_query Stub.reliable Stub.reliable exLedger _ (utf8 "P1") (utf8 "Bob")
      exRecord exLedger_query exLedger_transfer rfl⟩

set_option maxRecDepth 100000 in
/-- Claim C2 fails for a name that is not valid UTF-8: key `P1` is absent, `AddProperty` with
the one-byte name `0xff` succeeds, `json.Marshal` having written the escape of U+FFFD for that
byte, and `QueryPropertyByID` returns a record whose Name is the three-byte encoding of
U+FFFD, not the name given. -/
theorem addProperty_invalid_name_not_read_back :
    GetState Stub.reliable Ledger.empty (utf8 "P1") = Except.ok none ∧
    AddProperty Stub.reliable exReply Ledger.empty (utf8 "P1") [255] exArea (utf8 "Alice")
        exValue =
      (Outcome.ok (),
        ⟨[(utf8 "P1", exJSON (utf8 "P1") exEscape (utf8 "Alice"))],
         [(utf8 "P1", exJSON (utf8 "P1") exEscape (utf8 "Alice"))]⟩) ∧
    QueryPropertyByID Stub.reliable
        ⟨[(utf8 "P1", exJSON (utf8 "P1") exEscape (utf8 "Alice"))],
         [(utf8 "P1", exJSON (utf8 "P1") exEscape (utf8 "Alice"))]⟩ (utf8 "P1") =
      Except.ok (some { exRecord with Name := exReplacement }) ∧
    exReplacement ≠ [255] :=
  ⟨rfl, by decide!, by decide!, by decide⟩

set_option maxRecDepth 100000 in
/-- Claim C3 fails for a new owner that is not valid UTF-8: `QueryPropertyByID` returns the
example record, `TransferProperty` to the one-byte owner `0xff` succeeds, and
`QueryPropertyByID` then returns a record whose OwnerName is the three-byte encoding of
U+FFFD, not the new owner. -/
theorem transferProperty_invalid_owner_not_read_back :
    QueryPropertyByID Stub.reliable exLedger (utf8 "P1") = Except.ok (some exRecord) ∧
    TransferProperty Stub.reliable exLedger (utf8 "P1") [255] =
      (Outcome.ok (),
        ⟨[(utf8 "P1", exJSON (utf8 "P1") (utf8 "Lot A") exEscape)],
         [(utf8 "P1", exJSON (utf8 "P1") (utf8 "Lot A") exEscape), (utf8 "P1", exBytes)]⟩) ∧
    QueryPropertyByID Stub.reliable
        ⟨[(utf8 "P1", exJSON (utf8 "P1") (utf8 "Lot A") exEscape)],
         [(utf8 "P1", exJSON (utf8 "P1") (utf8 "Lot A") exEscape), (utf8 "P1", exBytes)]⟩
        (utf8 "P1") =
      Except.ok (some { exRecord with OwnerName := exReplacement }) ∧
    exReplacement ≠ [255] :=
  ⟨by decide!, by decide!, by decide!, by decide⟩

/-! ## Claim C5: rates that make the valuation undefined -/

theorem parseFloat_syntax_error_value (s : GoString) (h : (ParseFloat s).2 = some NumErr.errSyn) :
    (ParseFloat s).1 = F64.zero false := by
  unfold ParseFloat at h ⊢
  split at h
  · rename_i f n hsp
    by_cases hn : n = s.length
    · rw [if_pos hn] at h; simp at h
    · rw [if_neg hn]
  · split at h
    · rfl
    · simp only at h
      split at h <;> simp at h

theorem div_by_zero_not_finite (a b : F64) (hb : b.isZero = true) :
    ((F64.div a b).isInf || (F64.div a b).isNaN) = true := by
  have hb1 : b.expo.val = 0 ∧ b.frac.val = 0 := by
    simpa [F64.isZero] using hb
  have hnan : b.isNaN = false := by simp [F64.isNaN, hb1.1]
  have hinf : b.isInf = false := by simp [F64.isInf, hb1.1]
  have hmant : b.mant = 0 := by simp [F64.mant, hb1.1, hb1.2]
  have hI : ∀ s, (F64.inf s).isInf = true := by intro s; cases s <;> rfl
  have hN : F64.nan.isNaN = true := rfl
  unfold F64.div
  simp only [hnan, hinf, hmant, Bool.or_false, Bool.false_eq_true, if_false, if_true]
  split_ifs <;> simp [hI, hN]

theorem jsonMarshal_not_finite (p : Property)
    (h : (p.BitcoinValue.isInf || p.BitcoinValue.isNaN) = true) :
    jsonMarshal p = Except.error GoError.jsonUnsupportedValue := by
  unfold jsonMarshal
  rw [if_pos h]

theorem jsonMarshal_ok_finite (p : Property) (bytes : GoString)
    (h : jsonMarshal p = Except.ok bytes) : p.BitcoinValue.isFinite = true := by
  unfold jsonMarshal at h
  by_cases hbad : (p.BitcoinValue.isInf || p.BitcoinValue.isNaN) = true
  · rw [if_pos hbad] at h; exact Except.noConfusion h
  · simp only [F64.isInf, F64.isNaN, F64.isFinite] at hbad ⊢
    by_contra hc
    have he : p.BitcoinValue.expo.val = 2047 := by simpa using hc
    simp only [he, beq_self_eq_true, Bool.true_and] at hbad
    apply hbad
    cases h0 : (p.BitcoinValue.frac.val == 0) <;> simp [bne, h0]

/-- Claim C5, amended. When key `id` is absent and the rate text parses to zero, or is
rejected by `ParseFloat` as not being a number (for which `ParseFloat` returns `0`),
`AddProperty` returns the unsupported-value error of `json.Marshal` and leaves the ledger as it
was. And whatever the rate, a record written by `AddProperty` decodes to a `Property` whose
`BitcoinValue` is finite. -/
theorem addProperty_zero_rate_rejected (stub : Stub) (l : Ledger) (result : OuterRate)
    (id name : GoString) (area : GoInt) (ownerName : GoString) (value : GoInt)
    (habs : GetState stub l id = Except.ok none)
    (hrate : (ParseFloat result.Holder.ExRate).1.isZero = true ∨
      (ParseFloat result.Holder.ExRate).2 = some NumErr.errSyn) :
    AddProperty stub (HttpGet.response result) l id name area ownerName value =
        (Outcome.error GoError.jsonUnsupportedValue, l) ∧
      ∀ (http : HttpGet) (l1 : Ledger),
        AddProperty stub http l id name area ownerName value = (Outcome.ok (), l1) →
        ∃ bytes p, lookupKey id l1.state = some bytes ∧ jsonUnmarshal bytes = Except.ok (some p) ∧
          p.BitcoinValue.isFinite = true := by
  constructor
  · have hz : (ParseFloat result.Holder.ExRate).1.isZero = true := by
      rcases hrate with h | h
      · exact h
      · rw [parseFloat_syntax_error_value _ h]; rfl
    have hm := jsonMarshal_not_finite
      { ID := id, Name := name, Area := area, OwnerName := ownerName, Value := value,
        BitcoinValue := F64.div (F64.ofInt value) (ParseFloat result.Holder.ExRate).1 }
      (div_by_zero_not_finite _ _ hz)
    simp only [AddProperty, habs, hm]
  · intro http l1 hadd
    obtain ⟨res, bytes, _, _, hm, hp⟩ :=
      addProperty_ok stub http l l1 id name area ownerName value hadd
    obtain ⟨_, hst, _⟩ := putState_ok stub l l1 id bytes hp
    have hfin := jsonMarshal_ok_finite _ bytes hm
    refine ⟨bytes, _, ?_, jsonUnmarshal_jsonMarshal _ bytes hm, hfin⟩
    rw [hst, lookupKey_putEntry, if_pos rfl]

theorem addProperty_zero_rate_rejected_witness :
    (GetState Stub.reliable Ledger.empty (utf8 "P1") = Except.ok none ∧
      ((ParseFloat (OuterRate.mk ⟨utf8 "0"⟩).Holder.ExRate).1.isZero = true ∨
        (ParseFloat (OuterRate.mk ⟨utf8 "0"⟩).Holder.ExRate).2 = some NumErr.errSyn)) ∧
    (AddProperty Stub.reliable (HttpGet.response ⟨⟨utf8 "0"⟩⟩) Ledger.empty (utf8 "P1")
        (utf8 "Lot A") exArea (utf8 "Alice") exValue =
          (Outcome.error GoError.jsonUnsupportedValue, Ledger.empty) ∧
      ∀ (http : HttpGet) (l1 : Ledger),
        AddProperty Stub.reliable http Ledger.empty (utf8 "P1") (utf8 "Lot A") exArea
            (utf8 "Alice") exValue = (Outcome.ok (), l1) →
        ∃ bytes p, lookupKey (utf8 "P1") l1.state = some bytes ∧
          jsonUnmarshal bytes = Except.ok (some p) ∧ p.BitcoinValue.isFinite = true) :=
  ⟨⟨rfl, Or.inl (by decide)⟩,
    addProperty_zero_rate_rejected Stub.reliable Ledger.empty ⟨⟨utf8 "0"⟩⟩ (utf8 "P1")
      (utf8 "Lot A") exArea (utf8 "Alice") exValue rfl (Or.inl (by decide))⟩

set_option maxRecDepth 100000 in
/-- Claim C5 fails for a rate text that `ParseFloat` rejects as out of range: key `P1` is
absent, `ParseFloat` returns `+Inf` with a range error, the quotient is `0`, and `AddProperty`
succeeds and persists the record. -/
theorem addProperty_out_of_range_rate_persisted :
    GetState Stub.reliable Ledger.empty (utf8 "P1") = Except.ok none ∧
    ParseFloat (utf8 "1e400") = (F64.inf false, some NumErr.errRange) ∧
    AddProperty Stub.reliable (HttpGet.response ⟨⟨utf8 "1e400"⟩⟩) Ledger.empty (utf8 "P1")
        (utf8 "Lot A") exArea (utf8 "Alice") exValue =
      (Outcome.ok (),
        ⟨[(utf8 "P1", utf8 "\x7b\"id\":\"P1\",\"name\":\"Lot A\",\"area\":100,\"ownerName\":\"Alice\",\"value\":50000,\"BitcoinValue\":0\x7d")],
         [(utf8 "P1", utf8 "\x7b\"id\":\"P1\",\"name\":\"Lot A\",\"area\":100,\"ownerName\":\"Alice\",\"value\":50000,\"BitcoinValue\":0\x7d")]⟩) :=
  ⟨rfl, by decide!, by decide!⟩

/-! ## Claims C7 and C8: the outcomes of the two queries -/

theorem jsonUnmarshal_error (b : GoString) (e : GoError)
    (h : jsonUnmarshal b = Except.error e) : e = GoError.jsonDecode := by
  unfold jsonUnmarshal at h
  repeat' split at h
  all_goals first
    | exact Except.noConfusion h
    | (simp only [Except.error.injEq] at h; exact h.symm)

theorem jsonUnmarshal_nil_iff (b : GoString) :
    jsonUnmarshal b = Except.ok none ↔ isJsonNull b = true := by
  unfold jsonUnmarshal isJsonNull
  cases hs : skipWs b with
  | nil => simp
  | cons c r =>
    simp only
    by_cases hn : c = ch 'n'
    · subst hn
      rw [if_pos rfl]
      match r with
      | [] => simp
      | [_] => simp
      | [_, _] => simp
      | a :: b1 :: d :: r1 =>
        simp only
        by_cases hc : a = ch 'u' ∧ b1 = ch 'l' ∧ d = ch 'l' ∧ skipWs r1 = []
        · rw [if_pos hc]
          simp [hc.1, hc.2.1, hc.2.2.1, hc.2.2.2]
        · rw [if_neg hc]
          simp only [reduceCtorEq, false_iff]
          intro h
          apply hc
          simpa [List.isEmpty_iff, and_assoc] using h
    · rw [if_neg hn]
      have hrhs : ¬ ((match c :: r with
          | a :: b :: c :: d :: r => decide (a = ch 'n') && decide (b = ch 'u') &&
              decide (c = ch 'l') && decide (d = ch 'l') && (skipWs r).isEmpty
          | _ => false) = true) := by
        match r with
        | [] => simp
        | [_] => simp
        | [_, _] => simp
        | a :: b1 :: d :: r1 => simp [hn]
      constructor
      · intro h
        repeat' split at h
        all_goals simp at h
      · intro h; exact absurd h hrhs

/-- Claim C7, amended. `QueryPropertyByID(id)` has exactly one of five outcomes, told apart by
the result of the ledger read and of `json.Unmarshal`: the read error if the ledger read
fails; the not-found error if the key is absent; the decode error if the stored bytes do not
decode; success with the `Property` decoded from the stored bytes; and success with a nil
record, which happens exactly when the stored bytes are the JSON literal `null`. -/
theorem queryPropertyByID_outcomes (stub : Stub) (l : Ledger) (id : GoString) :
    (stub.getFails id = true ∧ QueryPropertyByID stub l id =
        Except.error (GoError.errorf (utf8 "failed to read the data from world state"))) ∨
    (stub.getFails id = false ∧ lookupKey id l.state = none ∧ QueryPropertyByID stub l id =
        Except.error (GoError.errorf (utf8 "the property " ++ id ++ utf8 " does not exist"))) ∨
    (∃ bytes, stub.getFails id = false ∧ lookupKey id l.state = some bytes ∧
        jsonUnmarshal bytes = Except.error GoError.jsonDecode ∧
        QueryPropertyByID stub l id = Except.error GoError.jsonDecode) ∨
    (∃ bytes p, stub.getFails id = false ∧ lookupKey id l.state = some bytes ∧
        jsonUnmarshal bytes = Except.ok (some p) ∧
        QueryPropertyByID stub l id = Except.ok (some p)) ∨
    (∃ bytes, stub.getFails id = false ∧ lookupKey id l.state = some bytes ∧
        isJsonNull bytes = true ∧ jsonUnmarshal bytes = Except.ok none ∧
        QueryPropertyByID stub l id = Except.ok none) := by
  by_cases hf : stub.getFails id = true
  · left
    refine ⟨hf, ?_⟩
    simp [QueryPropertyByID, GetState, hf]
  · right
    have hf1 : stub.getFails id = false := by simpa using hf
    have hg := getState_of_lookup stub l id hf1
    cases hl : lookupKey id l.state with
    | none =>
      left
      refine ⟨hf1, rfl, ?_⟩
      simp only [QueryPropertyByID, hg, hl]
    | some bytes =>
      right
      cases hu : jsonUnmarshal bytes with
      | error e =>
        left
        have he := jsonUnmarshal_error bytes e hu
        subst he
        refine ⟨bytes, hf1, rfl, hu, ?_⟩
        simp only [QueryPropertyByID, hg, hl, hu]
      | ok r =>
        right
        cases r with
        | some p =>
          left
          refine ⟨bytes, p, hf1, rfl, hu, ?_⟩
          simp only [QueryPropertyByID, hg, hl, hu]
        | none =>
          right
          refine ⟨bytes, hf1, rfl, (jsonUnmarshal_nil_iff bytes).mp hu, hu, ?_⟩
          simp only [QueryPropertyByID, hg, hl, hu]

/-- Claim C7 fails on a ledger that stores the JSON literal `null`: the query succeeds
with a nil record. -/
theorem queryPropertyByID_null_record :
    QueryPropertyByID Stub.reliable ⟨[(utf8 "P1", utf8 "null")], []⟩ (utf8 "P1") =
      Except.ok none := by
  rfl

theorem queryAllLoop_ok (stub : Stub) (es : List (GoString × GoString)) (i : Nat)
    (acc ps : List (Option Property)) (h : queryAllLoop stub es i acc = Except.ok ps) :
    ∃ qs, ps = acc ++ qs ∧ es.map (fun e => jsonUnmarshal e.2) = qs.map Except.ok := by
  induction es generalizing i acc with
  | nil =>
    simp only [queryAllLoop, Except.ok.injEq] at h
    exact ⟨[], by simp [h], rfl⟩
  | cons e r ih =>
    simp only [queryAllLoop] at h
    split at h
    · exact Except.noConfusion h
    · split at h
      · exact Except.noConfusion h
      · rename_i property hu
        obtain ⟨qs, hps, hmap⟩ := ih _ _ h
        refine ⟨property :: qs, by simp [hps], ?_⟩
        simp [hu, hmap]

theorem queryAllLoop_malformed (stub : Stub) (es : List (GoString × GoString)) (i : Nat)
    (acc : List (Option Property))
    (h : ∃ e ∈ es, jsonUnmarshal e.2 = Except.error GoError.jsonDecode) :
    (∃ err, queryAllLoop stub es i acc = Except.error err) ∧
      ((∀ j, stub.nextFails j = false) →
        queryAllLoop stub es i acc = Except.error GoError.jsonDecode) := by
  induction es generalizing i acc with
  | nil => obtain ⟨e, he, _⟩ := h; simp at he
  | cons e r ih =>
    obtain ⟨x, hx, hxe⟩ := h
    simp only [queryAllLoop]
    by_cases hn : stub.nextFails i = true
    · rw [if_pos hn]
      exact ⟨⟨_, rfl⟩, fun hall => by rw [hall i] at hn; exact Bool.noConfusion hn⟩
    · rw [if_neg hn]
      cases hu : jsonUnmarshal e.2 with
      | error err =>
        have := jsonUnmarshal_error _ _ hu
        subst this
        exact ⟨⟨_, rfl⟩, fun _ => rfl⟩
      | ok property =>
        simp only
        rcases List.mem_cons.mp hx with hxe1 | hxr
        · subst hxe1; rw [hu] at hxe; exact Except.noConfusion hxe
        · exact ih _ _ ⟨x, hxr, hxe⟩

/-- Claim C8. When some entry of the ledger holds bytes that `json.Unmarshal` rejects,
`QueryAllProperties` returns an error and no list, the decode error when the scan itself does
not fail; and when it succeeds, the list returned has one element per ledger entry, in ledger
order, each the record decoded from the entry. -/
theorem queryAllProperties_all_or_nothing (stub : Stub) (l : Ledger) :
    ((∃ e ∈ l.state, jsonUnmarshal e.2 = Except.error GoError.jsonDecode) →
      (∃ err, QueryAllProperties stub l = Except.error err) ∧
      (stub.rangeFails = false → (∀ j, stub.nextFails j = false) →
        QueryAllProperties stub l = Except.error GoError.jsonDecode)) ∧
    (∀ ps, QueryAllProperties stub l = Except.ok ps →
      ps.length = l.state.length ∧
      l.state.map (fun e => jsonUnmarshal e.2) = ps.map Except.ok) := by
  constructor
  · intro h
    unfold QueryAllProperties GetStateByRange
    by_cases hr : stub.rangeFails = true
    · rw [if_pos hr]
      exact ⟨⟨_, rfl⟩, fun hf => by rw [hf] at hr; exact Bool.noConfusion hr⟩
    · rw [if_neg hr]
      have := queryAllLoop_malformed stub l.state 0 [] h
      exact ⟨this.1, fun _ hall => this.2 hall⟩
  · intro ps h
    unfold QueryAllProperties GetStateByRange at h
    by_cases hr : stub.rangeFails = true
    · rw [if_pos hr] at h; exact Except.noConfusion h
    · rw [if_neg hr] at h
      simp only at h
      obtain ⟨qs, hps, hmap⟩ := queryAllLoop_ok stub l.state 0 [] ps h
      simp only [List.nil_append] at hps
      subst hps
      refine ⟨?_, hmap⟩
      have := congrArg List.length hmap
      simpa using this.symm

/-! ## Reachable ledgers -/

theorem lookupKey_mem (k v : GoString) (l : List (GoString × GoString)) (h : lookupKey k l = some v) :
    (k, v) ∈ l := by
  induction l with
  | nil => simp [lookupKey] at h
  | cons e r ih =>
    by_cases he : e.1 = k
    · simp only [lookupKey, if_pos he, Option.some.injEq] at h
      have : e = (k, v) := by rw [← he, ← h]
      rw [this]; exact List.mem_cons_self _ _
    · simp only [lookupKey, if_neg he] at h
      exact List.mem_cons_of_mem _ (ih h)

theorem lookupKey_none_iff (k : GoString) (l : List (GoString × GoString)) :
    lookupKey k l = none ↔ k ∉ l.map (fun e => e.1) := by
  induction l with
  | nil => simp [lookupKey]
  | cons e r ih =>
    by_cases he : e.1 = k
    · simp [lookupKey, he]
    · simp only [lookupKey, if_neg he, List.map_cons, List.mem_cons, not_or]
      rw [ih]
      constructor
      · intro h; exact ⟨fun h1 => he h1.symm, h⟩
      · intro h; exact h.2

theorem mem_replaceEntry (k v : GoString) (l : List (GoString × GoString)) (e : GoString × GoString)
    (h : e ∈ replaceEntry k v l) : e = (k, v) ∨ e ∈ l := by
  induction l with
  | nil => simp [replaceEntry] at h
  | cons x r ih =>
    by_cases hx : x.1 = k
    · simp only [replaceEntry, if_pos hx, List.mem_cons] at h
      rcases h with h | h
      · exact Or.inl h
      · exact Or.inr (List.mem_cons_of_mem _ h)
    · simp only [replaceEntry, if_neg hx, List.mem_cons] at h
      rcases h with h | h
      · exact Or.inr (by rw [h]; exact List.mem_cons_self _ _)
      · rcases ih h with h1 | h1
        · exact Or.inl h1
        · exact Or.inr (List.mem_cons_of_mem _ h1)

theorem mem_insertEntry (k v : GoString) (l : List (GoString × GoString)) (e : GoString × GoString)
    (h : e ∈ insertEntry k v l) : e = (k, v) ∨ e ∈ l := by
  induction l with
  | nil => simp [insertEntry] at h; exact Or.inl h
  | cons x r ih =>
    by_cases hx : keyLt k x.1 = true
    · simp only [insertEntry, if_pos hx, List.mem_cons] at h
      rcases h with h | h | h
      · exact Or.inl h
      · exact Or.inr (by rw [h]; exact List.mem_cons_self _ _)
      · exact Or.inr (List.mem_cons_of_mem _ h)
    · simp only [insertEntry, if_neg hx, List.mem_cons] at h
      rcases h with h | h
      · exact Or.inr (by rw [h]; exact List.mem_cons_self _ _)
      · rcases ih h with h1 | h1
        · exact Or.inl h1
        · exact Or.inr (List.mem_cons_of_mem _ h1)

theorem mem_putEntry (k v : GoString) (l : List (GoString × GoString)) (e : GoString × GoString)
    (h : e ∈ putEntry k v l) : e = (k, v) ∨ e ∈ l := by
  unfold putEntry at h
  split at h
  · exact mem_replaceEntry k v l e h
  · exact mem_insertEntry k v l e h

theorem keys_replaceEntry (k v : GoString) (l : List (GoString × GoString)) :
    (replaceEntry k v l).map (fun e => e.1) = l.map (fun e => e.1) := by
  induction l with
  | nil => rfl
  | cons x r ih =>
    by_cases hx : x.1 = k
    · simp [replaceEntry, hx]
    · simp [replaceEntry, hx, ih]

theorem keys_insertEntry (k v : GoString) (l : List (GoString × GoString)) :
    ((insertEntry k v l).map (fun e => e.1)).Perm (k :: l.map (fun e => e.1)) := by
  induction l with
  | nil => simp [insertEntry]
  | cons x r ih =>
    by_cases hx : keyLt k x.1 = true
    · simp [insertEntry, hx]
    · simp only [insertEntry, if_neg hx, List.map_cons]
      exact (List.Perm.cons x.1 ih).trans (List.Perm.swap _ _ _)

theorem addProperty_cases (stub : Stub) (http : HttpGet) (l : Ledger)
    (id name : GoString) (area : GoInt) (ownerName : GoString) (value : GoInt) :
    ((AddProperty stub http l id name area ownerName value).1 ≠ Outcome.ok () ∧
      (AddProperty stub http l id name area ownerName value).2 = l) ∨
    AddProperty stub http l id name area ownerName value =
      (Outcome.ok (), (AddProperty stub http l id name area ownerName value).2) := by
  unfold AddProperty
  split
  · simp
  · simp
  · split
    · simp
    · simp only
      split
      · simp
      · split <;> simp

theorem transferProperty_cases (stub : Stub) (l : Ledger) (id newOwner : GoString) :
    ((TransferProperty stub l id newOwner).1 ≠ Outcome.ok () ∧
      (TransferProperty stub l id newOwner).2 = l) ∨
    TransferProperty stub l id newOwner =
      (Outcome.ok (), (TransferProperty stub l id newOwner).2) := by
  unfold TransferProperty
  split
  · simp
  · simp
  · simp only
    split
    · simp
    · split <;> simp

/-- One call keeps the ledger well formed and its keys distinct, and adds the key it created. -/
theorem exec_step (c : Call) (l : Ledger) (hwf : WellFormed l) (hnd : l.keys.Nodup) :
    WellFormed (c.exec l).2 ∧ (c.exec l).2.keys.Nodup ∧
      (c.exec l).2.keys.Perm ((c.created l).toList ++ l.keys) := by
  cases c with
  | add stub http id name area ownerName value =>
    simp only [Call.exec, Call.created]
    rcases addProperty_cases stub http l id name area ownerName value with ⟨hne, hl⟩ | hok
    · rw [hl, if_neg hne]
      exact ⟨hwf, hnd, by simp⟩
    · have h1 : (AddProperty stub http l id name area ownerName value).1 = Outcome.ok () := by
        rw [hok]
      rw [if_pos h1]
      obtain ⟨result, bytes, _, hg, hm, hp⟩ :=
        addProperty_ok stub http l _ id name area ownerName value hok
      obtain ⟨_, hst, _⟩ := putState_ok stub l _ id bytes hp
      obtain ⟨_, hlk⟩ := getState_ok stub l id none hg
      have hnotin : id ∉ l.keys := (lookupKey_none_iff id l.state).mp hlk
      have hput : putEntry id bytes l.state = insertEntry id bytes l.state := by
        simp [putEntry, hlk]
      have hperm : (AddProperty stub http l id name area ownerName value).2.keys.Perm
          (id :: l.keys) := by
        unfold Ledger.keys
        rw [hst, hput]
        exact keys_insertEntry id bytes l.state
      refine ⟨?_, ?_, by simpa using hperm⟩
      · intro e he
        rw [hst] at he
        rcases mem_putEntry id bytes l.state e he with h | h
        · subst h
          exact ⟨_, jsonUnmarshal_jsonMarshal _ bytes hm, rfl⟩
        · exact hwf e h
      · exact (List.Perm.nodup_iff hperm).mpr (List.nodup_cons.mpr ⟨hnotin, hnd⟩)
  | transfer stub id newOwner =>
    simp only [Call.exec, Call.created, Option.toList, List.nil_append]
    rcases transferProperty_cases stub l id newOwner with ⟨_, hl⟩ | hok
    · rw [hl]
      exact ⟨hwf, hnd, List.Perm.refl _⟩
    · obtain ⟨p, bytes, hq, hm, hp⟩ := transferProperty_ok stub l _ id newOwner hok
      obtain ⟨_, hst, _⟩ := putState_ok stub l _ id bytes hp
      obtain ⟨old, _, hlk, hu⟩ := queryPropertyByID_ok stub l id _ hq
      have hput : putEntry id bytes l.state = replaceEntry id bytes l.state := by
        simp [putEntry, hlk]
      have hkeys : (TransferProperty stub l id newOwner).2.keys = l.keys := by
        unfold Ledger.keys
        rw [hst, hput]
        exact keys_replaceEntry id bytes l.state
      refine ⟨?_, by rw [hkeys]; exact hnd, by rw [hkeys]⟩
      intro e he
      rw [hst] at he
      rcases mem_putEntry id bytes l.state e he with h | h
      · subst h
        obtain ⟨p0, hu0, hid⟩ := hwf (id, old) (lookupKey_mem id old l.state hlk)
        rw [hu] at hu0
        simp only [Except.ok.injEq, Option.some.injEq] at hu0
        subst hu0
        refine ⟨_, jsonUnmarshal_jsonMarshal _ bytes hm, ?_⟩
        show coerceUTF8 p.ID = coerceUTF8 id
        rw [hid, coerceUTF8_idem]
      · exact hwf e h

theorem runCalls_invariants (calls : List Call) (l : Ledger) (hwf : WellFormed l)
    (hnd : l.keys.Nodup) :
    WellFormed (runCalls calls l) ∧ (runCalls calls l).keys.Nodup ∧
      (runCalls calls l).keys.Perm (createdIds calls l ++ l.keys) := by
  induction calls generalizing l with
  | nil => exact ⟨hwf, hnd, by simp [runCalls, createdIds]⟩
  | cons c cs ih =>
    obtain ⟨hwf1, hnd1, hperm1⟩ := exec_step c l hwf hnd
    obtain ⟨hwf2, hnd2, hperm2⟩ := ih (c.exec l).2 hwf1 hnd1
    refine ⟨hwf2, hnd2, ?_⟩
    simp only [runCalls]
    refine hperm2.trans ?_
    simp only [createdIds]
    cases hc : c.created l with
    | none =>
      rw [hc] at hperm1
      simp only [Option.toList, List.nil_append] at hperm1
      simp only
      exact List.Perm.append_left _ hperm1
    | some id =>
      rw [hc] at hperm1
      simp only [Option.toList, List.singleton_append] at hperm1
      simp only [List.cons_append]
      exact (List.Perm.append_left _ hperm1).trans List.perm_middle

theorem wellFormed_empty : WellFormed Ledger.empty := by
  intro e he; simp [Ledger.empty] at he

theorem queryAllLoop_wellFormed (es : List (GoString × GoString)) (i : Nat)
    (acc : List (Option Property))
    (h : ∀ e ∈ es, ∃ p, jsonUnmarshal e.2 = Except.ok (some p) ∧ p.ID = coerceUTF8 e.1) :
    ∃ ps : List Property,
      queryAllLoop Stub.reliable es i acc = Except.ok (acc ++ ps.map some) ∧
      ps.map (fun p => p.ID) = es.map (fun e => coerceUTF8 e.1) ∧
      es.map (fun e => jsonUnmarshal e.2) = ps.map (fun p => Except.ok (some p)) := by
  induction es generalizing i acc with
  | nil => exact ⟨[], by simp [queryAllLoop], rfl, rfl⟩
  | cons e r ih =>
    obtain ⟨p, hu, hid⟩ := h e (List.mem_cons_self _ _)
    obtain ⟨ps, hq, hids, hmap⟩ :=
      ih (i + 1) (acc ++ [some p]) (fun x hx => h x (List.mem_cons_of_mem _ hx))
    refine ⟨p :: ps, ?_, by simp [hid, hids], by simp [hu, hmap]⟩
    simp only [queryAllLoop, Stub.reliable, Bool.false_eq_true, if_false, hu]
    simp only [Stub.reliable] at hq
    rw [hq]
    simp

/-- Claim C6. After any finite sequence of `AddProperty` and `TransferProperty` calls on the
empty ledger, `QueryAllProperties` (its scan not failing) succeeds; the list has one record
per ledger entry in ledger iteration order, each decoded from its entry; the keys of the
entries are distinct and are exactly the ids of the `AddProperty` calls that succeeded; and
the length of the list is the number of those calls. The record of an entry carries as its ID
the key of the entry after each byte of the key that is not part of a valid UTF-8 encoding
was replaced by U+FFFD, hence the key itself when the keys are valid UTF-8. -/
theorem queryAllProperties_after_calls (calls : List Call) :
    ∃ ps : List Property,
      QueryAllProperties Stub.reliable (runCalls calls Ledger.empty) = Except.ok (ps.map some) ∧
      (runCalls calls Ledger.empty).state.map (fun e => jsonUnmarshal e.2) =
        ps.map (fun p => Except.ok (some p)) ∧
      (runCalls calls Ledger.empty).keys.Nodup ∧
      (runCalls calls Ledger.empty).keys.Perm (createdIds calls Ledger.empty) ∧
      ps.length = (createdIds calls Ledger.empty).length ∧
      ps.map (fun p => p.ID) = (runCalls calls Ledger.empty).keys.map coerceUTF8 ∧
      ((∀ k ∈ (runCalls calls Ledger.empty).keys, utf8Valid k = true) →
        ps.map (fun p => p.ID) = (runCalls calls Ledger.empty).keys) := by
  obtain ⟨hwf, hnd, hperm⟩ :=
    runCalls_invariants calls Ledger.empty wellFormed_empty (by simp [Ledger.keys, Ledger.empty])
  have hperm1 : (runCalls calls Ledger.empty).keys.Perm (createdIds calls Ledger.empty) := by
    simpa [Ledger.keys, Ledger.empty] using hperm
  obtain ⟨ps, hq, hids, hmap⟩ :=
    queryAllLoop_wellFormed (runCalls calls Ledger.empty).state 0 [] hwf
  have hids1 : ps.map (fun p => p.ID) = (runCalls calls Ledger.empty).keys.map coerceUTF8 := by
    rw [hids]
    simp [Ledger.keys]
  refine ⟨ps, ?_, hmap, hnd, hperm1, ?_, hids1, ?_⟩
  · simp only [QueryAllProperties, GetStateByRange, Stub.reliable, Bool.false_eq_true, if_false]
    simp only [Stub.reliable, List.nil_append] at hq
    exact hq
  · have h1 := congrArg List.length hids
    have h2 := hperm1.length_eq
    simp only [Ledger.keys, List.length_map] at h1 h2
    rw [h1]
    exact h2
  · intro hv
    rw [hids1]
    conv_rhs => rw [← List.map_id (runCalls calls Ledger.empty).keys]
    exact List.map_congr_left (fun k hk => coerceUTF8_of_valid k (hv k hk))

/-- Claim C10, amended. In every ledger reached from the empty ledger by `AddProperty` and
`TransferProperty` calls, whatever the stub and the oracle do, every entry holds bytes that
decode without error to a non-nil `Property` whose `ID` is the key of the entry after each
byte of the key that is not part of a valid UTF-8 encoding was replaced by U+FFFD, hence the
key itself when the key is valid UTF-8. On such a ledger `QueryPropertyByID` never returns a
nil record with a nil error and `TransferProperty` never dereferences a nil record. -/
theorem reachable_ledger_wellFormed (calls : List Call) :
    (∀ e ∈ (runCalls calls Ledger.empty).state,
      ∃ p, jsonUnmarshal e.2 = Except.ok (some p) ∧ p.ID = coerceUTF8 e.1 ∧
        (utf8Valid e.1 = true → p.ID = e.1)) ∧
    (∀ (stub : Stub) (id : GoString),
      QueryPropertyByID stub (runCalls calls Ledger.empty) id ≠ Except.ok none) ∧
    (∀ (stub : Stub) (id newOwner : GoString),
      (TransferProperty stub (runCalls calls Ledger.empty) id newOwner).1 ≠ Outcome.panic) := by
  obtain ⟨hwf, _, _⟩ :=
    runCalls_invariants calls Ledger.empty wellFormed_empty (by simp [Ledger.keys, Ledger.empty])
  have hq : ∀ (stub : Stub) (id : GoString),
      QueryPropertyByID stub (runCalls calls Ledger.empty) id ≠ Except.ok none := by
    intro stub id h
    obtain ⟨bytes, _, hlk, hu⟩ := queryPropertyByID_ok stub _ id none h
    obtain ⟨p, hp, _⟩ := hwf (id, bytes) (lookupKey_mem id bytes _ hlk)
    rw [hu] at hp
    simp at hp
  refine ⟨?_, hq, ?_⟩
  · intro e he
    obtain ⟨p, hp, hid⟩ := hwf e he
    exact ⟨p, hp, hid, fun hv => by rw [hid, coerceUTF8_of_valid _ hv]⟩
  · intro stub id newOwner
    have := hq stub id
    unfold TransferProperty
    split
    · simp
    · rename_i hn; exact absurd hn this
    · simp only
      split
      · simp
      · split <;> simp

set_option maxRecDepth 100000 in
/-- Claim C10 fails for a key that is not valid UTF-8: the ledger reached from the empty ledger
by one `AddProperty` call with the one-byte id `0xff` holds one entry with that key, and the
entry decodes to a record whose ID is the three-byte encoding of U+FFFD, not the key. -/
theorem reachable_ledger_key_not_id :
    runCalls [Call.add Stub.reliable exReply [255] (utf8 "Lot A") exArea (utf8 "Alice") exValue]
        Ledger.empty =
      ⟨[([255], exJSON exEscape (utf8 "Lot A") (utf8 "Alice"))],
       [([255], exJSON exEscape (utf8 "Lot A") (utf8 "Alice"))]⟩ ∧
    jsonUnmarshal (exJSON exEscape (utf8 "Lot A") (utf8 "Alice")) =
      Except.ok (some { exRecord with ID := exReplacement }) ∧
    exReplacement ≠ [255] :=
  ⟨by decide!, by decide!, by decide⟩

/-! ## Claim C9: a transfer to the current owner -/

/-- Writing back the bytes that a key already holds leaves the entries as they are. -/
theorem transfer_same_bytes (stub : Stub) (l : Ledger) (id bytes o : GoString) (p : Property)
    (hq : QueryPropertyByID stub l id = Except.ok (some p))
    (hm : jsonMarshal { p with OwnerName := o } = Except.ok bytes)
    (hlk : lookupKey id l.state = some bytes) (hpf : stub.putFails id bytes = false) :
    ∃ l1, TransferProperty stub l id o = (Outcome.ok (), l1) ∧ l1.state = l.state := by
  have hsame : putEntry id bytes l.state = l.state := by
    simp only [putEntry, hlk, Option.isSome_some, if_true]
    exact replaceEntry_same id bytes l.state hlk
  refine ⟨⟨putEntry id bytes l.state, (id, bytes) :: l.writes⟩, ?_, hsame⟩
  simp only [TransferProperty, hq, hm, PutState, hpf, Bool.false_eq_true, if_false]

/-- A transfer to the current owner of a record whose bytes were written by `json.Marshal`
from a record with valid UTF-8 strings writes the same bytes back. -/
theorem noop_of_stored (stub : Stub) (l : Ledger) (id bytes : GoString) (p0 : Property)
    (hm : jsonMarshal p0 = Except.ok bytes) (hlk : lookupKey id l.state = some bytes)
    (hread : stub.getFails id = false) (hpf : stub.putFails id bytes = false)
    (hv : p0.validStrings = true) :
    QueryPropertyByID stub l id = Except.ok (some p0) ∧
      ∃ l1, TransferProperty stub l id p0.OwnerName = (Outcome.ok (), l1) ∧
        l1.state = l.state := by
  have hq : QueryPropertyByID stub l id = Except.ok (some p0) := by
    unfold QueryPropertyByID
    rw [getState_of_lookup stub l id hread, hlk]
    simp only
    rw [jsonUnmarshal_jsonMarshal p0 bytes hm, coerced_of_valid p0 hv]
  have heta : ({ p0 with OwnerName := p0.OwnerName } : Property) = p0 := by
    cases p0; rfl
  exact ⟨hq, transfer_same_bytes stub l id bytes _ p0 hq (by rw [heta]; exact hm) hlk hpf⟩

theorem lookupKey_after_put (stub : Stub) (l l1 : Ledger) (id bytes : GoString)
    (hp : PutState stub l id bytes = Except.ok l1) : lookupKey id l1.state = some bytes := by
  obtain ⟨_, hst, _⟩ := putState_ok stub l l1 id bytes hp
  rw [hst, lookupKey_putEntry, if_pos rfl]

/-- Claim C9, amended. Let the record at key `id` of the ledger `l` be one that was stored by a
successful `AddProperty` whose id, name and owner name are valid UTF-8, or by a successful
`TransferProperty` whose new owner is valid UTF-8: the bytes at `id` in `l` are those that the
call left there, whatever has happened to the other keys since. Then a transfer to the current
owner of the record is accepted and changes nothing: it succeeds and the entries of the ledger
afterwards, the bytes at `id` among them, are those before. And whatever the strings are, a
second `TransferProperty(id, o)` after a successful first one succeeds and leaves the entries
as the first one left them. -/
theorem transferProperty_to_current_owner (stub : Stub) (l0 la l : Ledger) (id : GoString)
    (hstored :
      (∃ http name area ownerName value,
        AddProperty stub http l0 id name area ownerName value = (Outcome.ok (), la) ∧
        utf8Valid id = true ∧ utf8Valid name = true ∧ utf8Valid ownerName = true) ∨
      (∃ o, TransferProperty stub l0 id o = (Outcome.ok (), la) ∧ utf8Valid o = true))
    (hkept : lookupKey id l.state = lookupKey id la.state) :
    (∃ p l1, QueryPropertyByID stub l id = Except.ok (some p) ∧
      TransferProperty stub l id p.OwnerName = (Outcome.ok (), l1) ∧
      l1.state = l.state ∧ lookupKey id l1.state = lookupKey id l.state) ∧
    (∀ o l2, TransferProperty stub l id o = (Outcome.ok (), l2) →
      ∃ l3, TransferProperty stub l2 id o = (Outcome.ok (), l3) ∧ l3.state = l2.state) := by
  constructor
  · rcases hstored with ⟨http, name, area, ownerName, value, hadd, h1, h2, h3⟩ | ⟨o, htr, ho⟩
    · obtain ⟨result, bytes, _, hg, hm, hp⟩ :=
        addProperty_ok stub http l0 la id name area ownerName value hadd
      obtain ⟨hread, _⟩ := getState_ok stub l0 id none hg
      obtain ⟨hpf, _, _⟩ := putState_ok stub l0 la id bytes hp
      have hlk : lookupKey id l.state = some bytes := by
        rw [hkept]; exact lookupKey_after_put stub l0 la id bytes hp
      obtain ⟨hq, l1, ht, hs⟩ := noop_of_stored stub l id bytes _ hm hlk hread hpf
        (by simp [Property.validStrings, h1, h2, h3])
      exact ⟨_, l1, hq, ht, hs, by rw [hs]⟩
    · obtain ⟨p, bytes, hq0, hm, hp⟩ := transferProperty_ok stub l0 la id o htr
      obtain ⟨_, hread, _, _⟩ := queryPropertyByID_ok stub l0 id _ hq0
      obtain ⟨hpf, _, _⟩ := putState_ok stub l0 la id bytes hp
      have hv := queryPropertyByID_valid stub l0 id p hq0
      simp only [Property.validStrings, Bool.and_eq_true] at hv
      have hlk : lookupKey id l.state = some bytes := by
        rw [hkept]; exact lookupKey_after_put stub l0 la id bytes hp
      obtain ⟨hq, l1, ht, hs⟩ := noop_of_stored stub l id bytes _ hm hlk hread hpf
        (by simp [Property.validStrings, hv.1.1, hv.1.2, ho])
      exact ⟨_, l1, hq, ht, hs, by rw [hs]⟩
  · intro o l2 htr
    obtain ⟨p, bytes, hq0, hm, hp⟩ := transferProperty_ok stub l l2 id o htr
    obtain ⟨_, hrd, _, _⟩ := queryPropertyByID_ok stub l id _ hq0
    have hv := queryPropertyByID_valid stub l id p hq0
    simp only [Property.validStrings, Bool.and_eq_true] at hv
    have hq := query_after_put stub stub l l2 id bytes _ hm hp hrd
    obtain ⟨hpf, _, _⟩ := putState_ok stub l l2 id bytes hp
    have hlk := lookupKey_after_put stub l l2 id bytes hp
    have hback : ({ ({ p with OwnerName := o } : Property).coerced with OwnerName := o } :
        Property) = { p with OwnerName := o } := by
      simp only [Property.coerced, coerceUTF8_of_valid _ hv.1.1, coerceUTF8_of_valid _ hv.1.2]
    exact transfer_same_bytes stub l2 id bytes o _ hq (by rw [hback]; exact hm) hlk hpf

theorem transferProperty_to_current_owner_witness :
    ((AddProperty Stub.reliable exReply Ledger.empty (utf8 "P1") (utf8 "Lot A") exArea
        (utf8 "Alice") exValue = (Outcome.ok (), exLedger) ∧
      utf8Valid (utf8 "P1") = true ∧ utf8Valid (utf8 "Lot A") = true ∧
      utf8Valid (utf8 "Alice") = true) ∧
      lookupKey (utf8 "P1") exLedger.state = lookupKey (utf8 "P1") exLedger.state) ∧
    ((∃ p l1, QueryPropertyByID Stub.reliable exLedger (utf8 "P1") = Except.ok (some p) ∧
      TransferProperty Stub.reliable exLedger (utf8 "P1") p.OwnerName = (Outcome.ok (), l1) ∧
      l1.state = exLedger.state ∧
      lookupKey (utf8 "P1") l1.state = lookupKey (utf8 "P1") exLedger.state) ∧
    (∀ o l2, TransferProperty Stub.reliable exLedger (utf8 "P1") o = (Outcome.ok (), l2) →
      ∃ l3, TransferProperty Stub.reliable l2 (utf8 "P1") o = (Outcome.ok (), l3) ∧
        l3.state = l2.state)) :=
  ⟨⟨⟨exLedger_created, by decide, by decide, by decide⟩, rfl⟩,
    transferProperty_to_current_owner Stub.reliable Ledger.empty exLedger exLedger (utf8 "P1")
      (Or.inl ⟨exReply, utf8 "Lot A", exArea, utf8 "Alice", exValue, exLedger_created,
        by decide, by decide, by decide⟩) rfl⟩

set_option maxRecDepth 100000 in
/-- Claim C9 fails for a record stored with a name that is not valid UTF-8: `AddProperty` with
the one-byte name `0xff` stores the name as the escape of U+FFFD; `QueryPropertyByID` returns
that record, with owner `Alice`; the transfer to `Alice` succeeds, and it stores the name as
the three-byte encoding of U+FFFD, so that the bytes at `P1` are no longer those before. -/
theorem transferProperty_to_current_owner_changes_bytes :
    AddProperty Stub.reliable exReply Ledger.empty (utf8 "P1") [255] exArea (utf8 "Alice")
        exValue =
      (Outcome.ok (),
        ⟨[(utf8 "P1", exJSON (utf8 "P1") exEscape (utf8 "Alice"))],
         [(utf8 "P1", exJSON (utf8 "P1") exEscape (utf8 "Alice"))]⟩) ∧
    QueryPropertyByID Stub.reliable
        ⟨[(utf8 "P1", exJSON (utf8 "P1") exEscape (utf8 "Alice"))],
         [(utf8 "P1", exJSON (utf8 "P1") exEscape (utf8 "Alice"))]⟩ (utf8 "P1") =
      Except.ok (some { exRecord with Name := exReplacement }) ∧
    TransferProperty Stub.reliable
        ⟨[(utf8 "P1", exJSON (utf8 "P1") exEscape (utf8 "Alice"))],
         [(utf8 "P1", exJSON (utf8 "P1") exEscape (utf8 "Alice"))]⟩ (utf8 "P1") (utf8 "Alice") =
      (Outcome.ok (),
        ⟨[(utf8 "P1", exJSON (utf8 "P1") exReplacement (utf8 "Alice"))],
         [(utf8 "P1", exJSON (utf8 "P1") exReplacement (utf8 "Alice")),
          (utf8 "P1", exJSON (utf8 "P1") exEscape (utf8 "Alice"))]⟩) ∧
    exJSON (utf8 "P1") exReplacement (utf8 "Alice") ≠ exJSON (utf8 "P1") exEscape (utf8 "Alice") :=
  ⟨by decide!, by decide!, by decide!, by decide⟩

end PropertyApp
